import Mathlib

/-!
Verification of the two data structures of this repository against their
natural-language specification:

* `LRUKReplacer` (src/lru_k_replacer.cpp, src/lru_k_replacer.h) — an LRU-K
  frame replacer, embedded below as pure state transformers on `RState`.
* `ExtendibleHashTable` (src/extendible_hash_table.cpp) — an extendible hash
  table, embedded further down as pure state transformers on `HState`.

Machine integers (`size_t`, `frame_id_t`, `int`) are modelled as `Nat`; all
index and mask arithmetic stays far below any overflow boundary, and the
`x & ((1 << d) - 1)` masks of the source are written as `x % 2 ^ d`.
`std::unordered_map` is modelled as an association list (iteration order over
the map is never observed by the source), `std::list` as `List`, and
`std::shared_ptr<Bucket>` identity as an index into an arena of buckets.
Fallible paths (a failed `BUSTUB_ASSERT`, a thrown `std::runtime_error`) are
modelled as `Option.none` results.
-/

/-! ### Association-list primitives

`std::unordered_map` operations used by the source: `find`, `operator[]`
(lookup with a default), assignment through the reference, and `erase`.
Keys are `Nat` (frame ids). -/

/-- Lookup in an association list: the value of the first pair whose key
matches, as `unordered_map::find`. -/
def alookup {α : Type} : List (Nat × α) → Nat → Option α
  | [], _ => none
  | p :: t, f => if p.1 = f then some p.2 else alookup t f

/-- Store a value under a key: overwrite the first existing pair with that
key, or append a fresh pair, as assignment through `operator[]`. -/
def aset {α : Type} : List (Nat × α) → Nat → α → List (Nat × α)
  | [], f, h => [(f, h)]
  | p :: t, f, h => if p.1 = f then (f, h) :: t else p :: aset t f h

/-- Erase the first pair with the given key, as `unordered_map::erase`. -/
def aerase {α : Type} : List (Nat × α) → Nat → List (Nat × α)
  | [], _ => []
  | p :: t, f => if p.1 = f then t else p :: aerase t f

/-- The keys of an association list. -/
def akeys {α : Type} (l : List (Nat × α)) : List Nat := l.map Prod.fst

/-! ### LRU-K replacer: data model (src/lru_k_replacer.h) -/

/-- `struct AccessHistory` of src/lru_k_replacer.h: the recorded access
timestamps of one frame (oldest first, as `std::list<size_t>`) and its
evictable flag (default `false`). -/
structure AccessHistory where
  access_times : List Nat
  is_evictable : Bool
deriving DecidableEq, Repr

/-- The state of an `LRUKReplacer` (src/lru_k_replacer.h): the four counters,
the per-frame data map, and the two scan lists. The mutex is concurrency-only
and has no sequential semantics. -/
structure RState where
  current_timestamp : Nat
  curr_size : Nat
  replacer_size : Nat
  k : Nat
  frame_data : List (Nat × AccessHistory)
  history_list : List Nat
  cache_list : List Nat
deriving DecidableEq, Repr

/-- `LRUKReplacer::LRUKReplacer(num_frames, k)`: all containers empty,
`current_timestamp_ = 0`, `curr_size_ = 0`. -/
def lruInit (num_frames k : Nat) : RState :=
  ⟨0, 0, num_frames, k, [], [], []⟩

/-- Number of entries of the frame map whose `is_evictable` flag is set. -/
def countEv (fd : List (Nat × AccessHistory)) : Nat :=
  (fd.filter (fun p => p.2.is_evictable)).length

/-- The access history the source reads through `frame_data_[f]`: the stored
entry, or a default-constructed `AccessHistory` when the frame is untracked.
(On every path of `RecordAccess` the entry is written back, which the
embedding performs through `aset`; the read-only scans of `Evict` only ever
consult tracked frames in the states reachable through the public interface,
where `operator[]` behaves as a pure lookup.) -/
def historyOf (s : RState) (f : Nat) : AccessHistory :=
  (alookup s.frame_data f).getD ⟨[], false⟩

/-- `LRUKReplacer::RecordAccess` (src/lru_k_replacer.cpp:72-103). `none`
models a failed `BUSTUB_ASSERT(frame_id < replacer_size_)`. -/
def recordAccess (s : RState) (f : Nat) : Option RState :=
  if f < s.replacer_size then
    let ts := s.current_timestamp + 1
    let h := historyOf s f
    if h.access_times = [] then
      some { s with current_timestamp := ts,
                    frame_data := aset s.frame_data f ⟨[ts], h.is_evictable⟩,
                    history_list := s.history_list ++ [f] }
    else
      let at1 := h.access_times ++ [ts]
      if at1.length = s.k then
        some { s with current_timestamp := ts,
                      frame_data := aset s.frame_data f ⟨at1, h.is_evictable⟩,
                      history_list := s.history_list.filter (fun g => decide (g ≠ f)),
                      cache_list := s.cache_list ++ [f] }
      else
        some { s with current_timestamp := ts,
                      frame_data := aset s.frame_data f
                        ⟨if s.k + 1 < at1.length then at1.tail else at1, h.is_evictable⟩ }
  else none

/-- `LRUKReplacer::SetEvictable` (src/lru_k_replacer.cpp:109-135). `none`
models a failed `BUSTUB_ASSERT`. -/
def setEvictable (s : RState) (f : Nat) (b : Bool) : Option RState :=
  if f < s.replacer_size then
    match alookup s.frame_data f with
    | none => some s
    | some h =>
      if h.is_evictable = b then some s
      else
        some { s with frame_data := aset s.frame_data f ⟨h.access_times, b⟩,
                      curr_size := if b then s.curr_size + 1 else s.curr_size - 1 }
  else none

/-- `LRUKReplacer::Remove` (src/lru_k_replacer.cpp:141-169), the unlocked
helper also called by `Evict`. `none` models the thrown
`std::runtime_error("Cannot remove a non-evictable frame")`; the state is
unmodified on that path. `std::list::remove` erases every element equal to
the id, hence `List.filter`. -/
def removeFrame (s : RState) (f : Nat) : Option RState :=
  match alookup s.frame_data f with
  | none => some s
  | some h =>
    if h.is_evictable then
      some { s with
        history_list := if h.access_times.length < s.k then
                          s.history_list.filter (fun g => decide (g ≠ f))
                        else s.history_list,
        cache_list := if h.access_times.length < s.k then s.cache_list
                      else s.cache_list.filter (fun g => decide (g ≠ f)),
        frame_data := aerase s.frame_data f,
        curr_size := s.curr_size - 1 }
    else none

/-- Whether the source's cache scan considers frame `f` evictable:
`frame_data_[f].is_evictable`. -/
def evictableOf (s : RState) (f : Nat) : Bool := (historyOf s f).is_evictable

/-- The `time_diff` of `LRUKReplacer::Evict` (src/lru_k_replacer.cpp:45-48):
`current_timestamp_` minus the element at position `size - k` of the frame's
access list (its Kth most recent access; for cache-resident frames the list
holds `k` or `k + 1` timestamps, so the position is in range). -/
def timeDiff (s : RState) (f : Nat) : Nat :=
  let ats := (historyOf s f).access_times
  s.current_timestamp - ats.getD (ats.length - s.k) 0

/-- One step of the cache-list scan of `Evict` (src/lru_k_replacer.cpp:38-56):
the accumulator is `none` while `evict_frame == -1`, otherwise the current
candidate together with `max_time_diff`; a later frame displaces it only on a
strictly larger difference. -/
def scanStep (s : RState) (acc : Option (Nat × Nat)) (f : Nat) : Option (Nat × Nat) :=
  if evictableOf s f then
    match acc with
    | none => some (f, timeDiff s f)
    | some (g, m) => if m < timeDiff s f then some (f, timeDiff s f) else some (g, m)
  else acc

/-- `LRUKReplacer::Evict` (src/lru_k_replacer.cpp:14-66). Returns the chosen
frame (if any) and the state after the internal `Remove`. The internal
`Remove` cannot throw — the scans only select frames whose stored evictable
flag is set — so the `getD` fallback never fires. -/
def evict (s : RState) : Option Nat × RState :=
  if s.curr_size = 0 then (none, s)
  else
    match s.history_list.find? (fun f => evictableOf s f) with
    | some f => (some f, (removeFrame s f).getD s)
    | none =>
      match s.cache_list.foldl (scanStep s) none with
      | some (f, _) => (some f, (removeFrame s f).getD s)
      | none => (none, s)

/-- `LRUKReplacer::Size` (src/lru_k_replacer.cpp:172-176). -/
def lruSize (s : RState) : Nat := s.curr_size

/-! ### Reachability through the public interface -/

/-- One successful public operation of the replacer. A `Remove` that throws
and a failed assertion leave the state unchanged, so restricting steps to the
successful outcomes loses no reachable states. -/
inductive LRUStep : RState → RState → Prop
  | record (f : Nat) {s s' : RState} : recordAccess s f = some s' → LRUStep s s'
  | setEv (f : Nat) (b : Bool) {s s' : RState} : setEvictable s f b = some s' → LRUStep s s'
  | evictStep (r : Option Nat) {s s' : RState} : evict s = (r, s') → LRUStep s s'
  | removeStep (f : Nat) {s s' : RState} : removeFrame s f = some s' → LRUStep s s'

/-- The replacer states reachable from a freshly constructed replacer by
public operations. -/
inductive LRUReachable : RState → Prop
  | init (num_frames k : Nat) : LRUReachable (lruInit num_frames k)
  | step {s s' : RState} : LRUReachable s → LRUStep s s' → LRUReachable s'

/-! ### Association-list lemmas -/

theorem alookup_aset_self {α : Type} (l : List (Nat × α)) (f : Nat) (h : α) :
    alookup (aset l f h) f = some h := by
  induction l with
  | nil => simp [aset, alookup]
  | cons p t ih =>
    by_cases hp : p.1 = f
    · simp [aset, hp, alookup]
    · simp [aset, hp, alookup, ih]

theorem alookup_aset_ne {α : Type} (l : List (Nat × α)) (f g : Nat) (h : α)
    (hne : g ≠ f) : alookup (aset l f h) g = alookup l g := by
  have hfg : f ≠ g := fun e => hne e.symm
  induction l with
  | nil => simp [aset, alookup, hfg]
  | cons p t ih =>
    by_cases hp : p.1 = f
    · subst hp
      have : ¬p.1 = g := fun e => hne e.symm
      simp [aset, alookup, hfg, this]
    · simp only [aset, if_neg hp, alookup]
      by_cases hg : p.1 = g
      · simp [hg]
      · simp [hg, ih]

theorem alookup_eq_none_iff {α : Type} (l : List (Nat × α)) (f : Nat) :
    alookup l f = none ↔ f ∉ akeys l := by
  induction l with
  | nil => simp [alookup, akeys]
  | cons p t ih =>
    by_cases hp : p.1 = f
    · simp [alookup, hp, akeys]
    · have : f ≠ p.1 := fun e => hp e.symm
      simp [alookup, hp, akeys, ih, this]

theorem akeys_aset_of_none {α : Type} (l : List (Nat × α)) (f : Nat) (h : α)
    (hl : alookup l f = none) : akeys (aset l f h) = akeys l ++ [f] := by
  induction l with
  | nil => simp [aset, akeys]
  | cons p t ih =>
    by_cases hp : p.1 = f
    · simp [alookup, hp] at hl
    · simp only [alookup, if_neg hp] at hl
      have hrec := ih hl
      simp only [akeys] at hrec
      simp [aset, hp, akeys, hrec]

theorem akeys_aset_of_some {α : Type} (l : List (Nat × α)) (f : Nat) (h h₀ : α)
    (hl : alookup l f = some h₀) : akeys (aset l f h) = akeys l := by
  induction l with
  | nil => simp [alookup] at hl
  | cons p t ih =>
    by_cases hp : p.1 = f
    · simp [aset, hp, akeys]
    · simp only [alookup, if_neg hp] at hl
      have hrec := ih hl
      simp only [akeys] at hrec
      simp [aset, hp, akeys, hrec]

theorem akeys_aerase_sublist {α : Type} (l : List (Nat × α)) (f : Nat) :
    (akeys (aerase l f)).Sublist (akeys l) := by
  induction l with
  | nil => simp [aerase]
  | cons p t ih =>
    by_cases hp : p.1 = f
    · simp only [aerase, if_pos hp, akeys, List.map_cons]
      exact (List.sublist_cons_self p.1 (akeys t)).trans (by simp [akeys])
    · simp only [aerase, if_neg hp, akeys, List.map_cons]
      exact ih.cons₂ p.1

theorem alookup_aerase_ne {α : Type} (l : List (Nat × α)) (f g : Nat)
    (hne : g ≠ f) : alookup (aerase l f) g = alookup l g := by
  induction l with
  | nil => simp [aerase]
  | cons p t ih =>
    by_cases hp : p.1 = f
    · subst hp
      have : ¬p.1 = g := fun e => hne e.symm
      simp [aerase, alookup, this]
    · simp only [aerase, if_neg hp, alookup]
      by_cases hg : p.1 = g
      · simp [hg]
      · simp [hg, ih]

theorem alookup_aerase_self {α : Type} (l : List (Nat × α)) (f : Nat)
    (hnd : (akeys l).Nodup) : alookup (aerase l f) f = none := by
  induction l with
  | nil => simp [aerase, alookup]
  | cons p t ih =>
    simp only [akeys, List.map_cons, List.nodup_cons] at hnd
    by_cases hp : p.1 = f
    · subst hp
      simp only [aerase, if_pos rfl]
      rw [alookup_eq_none_iff]
      exact hnd.1
    · simp only [aerase, if_neg hp, alookup, if_neg hp]
      exact ih hnd.2

theorem countEv_aset_same (l : List (Nat × AccessHistory)) (f : Nat)
    (h h' : AccessHistory) (hl : alookup l f = some h)
    (hev : h'.is_evictable = h.is_evictable) :
    countEv (aset l f h') = countEv l := by
  induction l with
  | nil => simp [alookup] at hl
  | cons p t ih =>
    by_cases hp : p.1 = f
    · simp only [alookup, if_pos hp, Option.some.injEq] at hl
      subst hl
      simp only [aset, if_pos hp, countEv, List.filter_cons, hev]
      by_cases he : p.2.is_evictable <;> simp [he, hev]
    · simp only [alookup, if_neg hp] at hl
      have hrec := ih hl
      simp only [countEv] at hrec ⊢
      simp only [aset, if_neg hp, List.filter_cons]
      by_cases he : p.2.is_evictable <;> simp [he, hrec]

theorem countEv_aset_none (l : List (Nat × AccessHistory)) (f : Nat)
    (h' : AccessHistory) (hl : alookup l f = none) :
    countEv (aset l f h') = countEv l + (if h'.is_evictable then 1 else 0) := by
  induction l with
  | nil => by_cases hev : h'.is_evictable <;> simp [aset, countEv, List.filter_cons, hev]
  | cons p t ih =>
    by_cases hp : p.1 = f
    · simp [alookup, hp] at hl
    · simp only [alookup, if_neg hp] at hl
      have hrec := ih hl
      simp only [countEv] at hrec ⊢
      simp only [aset, if_neg hp, List.filter_cons]
      by_cases he : p.2.is_evictable <;> simp [he, hrec] <;> omega

theorem countEv_aset_flip (l : List (Nat × AccessHistory)) (f : Nat)
    (h h' : AccessHistory) (hl : alookup l f = some h) :
    countEv (aset l f h') + (if h.is_evictable then 1 else 0)
      = countEv l + (if h'.is_evictable then 1 else 0) := by
  induction l with
  | nil => simp [alookup] at hl
  | cons p t ih =>
    by_cases hp : p.1 = f
    · simp only [alookup, if_pos hp, Option.some.injEq] at hl
      subst hl
      simp only [aset, if_pos hp, countEv, List.filter_cons]
      by_cases he : p.2.is_evictable <;> by_cases he' : h'.is_evictable <;>
        simp [he, he', countEv]
    · simp only [alookup, if_neg hp] at hl
      have hrec := ih hl
      simp only [countEv] at hrec ⊢
      simp only [aset, if_neg hp, List.filter_cons]
      by_cases he : p.2.is_evictable <;>
        by_cases hh : h.is_evictable <;> by_cases hh' : h'.is_evictable <;>
        simp [he, hh, hh'] at hrec ⊢ <;> omega

theorem countEv_aerase (l : List (Nat × AccessHistory)) (f : Nat)
    (h : AccessHistory) (hl : alookup l f = some h) :
    countEv l = countEv (aerase l f) + (if h.is_evictable then 1 else 0) := by
  induction l with
  | nil => simp [alookup] at hl
  | cons p t ih =>
    by_cases hp : p.1 = f
    · simp only [alookup, if_pos hp, Option.some.injEq] at hl
      subst hl
      simp only [aerase, if_pos hp, countEv, List.filter_cons]
      by_cases he : p.2.is_evictable <;> simp [he]
    · simp only [alookup, if_neg hp] at hl
      have hrec := ih hl
      simp only [countEv] at hrec ⊢
      simp only [aerase, if_neg hp, List.filter_cons]
      by_cases he : p.2.is_evictable <;> by_cases hh : h.is_evictable <;>
        simp [he, hh] at hrec ⊢ <;> omega

theorem countEv_pos (l : List (Nat × AccessHistory)) (f : Nat)
    (h : AccessHistory) (hl : alookup l f = some h) (he : h.is_evictable = true) :
    1 ≤ countEv l := by
  induction l with
  | nil => simp [alookup] at hl
  | cons p t ih =>
    by_cases hp : p.1 = f
    · simp only [alookup, if_pos hp, Option.some.injEq] at hl
      subst hl
      simp [countEv, List.filter_cons, he]
    · simp only [alookup, if_neg hp] at hl
      have hrec := ih hl
      simp only [countEv, List.filter_cons] at hrec ⊢
      by_cases hev : p.2.is_evictable <;> simp [hev] <;> omega

/-! ### Case analyses of the replacer operations -/

/-- The three successful outcomes of `RecordAccess`: first access, the Kth
access (move from history list to cache list), and a later access (timestamp
bookkeeping only). -/
theorem recordAccess_cases {s s' : RState} {f : Nat} (hr : recordAccess s f = some s') :
    f < s.replacer_size ∧
    ((historyOf s f).access_times = [] ∧
       s' = { s with current_timestamp := s.current_timestamp + 1,
                     frame_data := aset s.frame_data f
                       ⟨[s.current_timestamp + 1], (historyOf s f).is_evictable⟩,
                     history_list := s.history_list ++ [f] } ∨
     (historyOf s f).access_times ≠ [] ∧
       (historyOf s f).access_times.length + 1 = s.k ∧
       s' = { s with current_timestamp := s.current_timestamp + 1,
                     frame_data := aset s.frame_data f
                       ⟨(historyOf s f).access_times ++ [s.current_timestamp + 1],
                        (historyOf s f).is_evictable⟩,
                     history_list := s.history_list.filter (fun g => decide (g ≠ f)),
                     cache_list := s.cache_list ++ [f] } ∨
     (historyOf s f).access_times ≠ [] ∧
       (historyOf s f).access_times.length + 1 ≠ s.k ∧
       s' = { s with current_timestamp := s.current_timestamp + 1,
                     frame_data := aset s.frame_data f
                       ⟨if s.k + 1 < (historyOf s f).access_times.length + 1 then
                          ((historyOf s f).access_times ++ [s.current_timestamp + 1]).tail
                        else (historyOf s f).access_times ++ [s.current_timestamp + 1],
                        (historyOf s f).is_evictable⟩ }) := by
  by_cases hrs : f < s.replacer_size
  · refine ⟨hrs, ?_⟩
    simp only [recordAccess, if_pos hrs] at hr
    by_cases hat : (historyOf s f).access_times = []
    · left
      rw [if_pos hat] at hr
      exact ⟨hat, (Option.some.inj hr).symm⟩
    · rw [if_neg hat] at hr
      simp only [List.length_append, List.length_singleton] at hr
      by_cases hlen : (historyOf s f).access_times.length + 1 = s.k
      · right; left
        rw [if_pos hlen] at hr
        exact ⟨hat, hlen, (Option.some.inj hr).symm⟩
      · right; right
        rw [if_neg hlen] at hr
        refine ⟨hat, hlen, (Option.some.inj hr).symm.trans ?_⟩
        simp
  · simp [recordAccess, hrs] at hr

/-- The three successful outcomes of `SetEvictable`: unknown frame (no-op),
unchanged flag (no-op), and an actual flip adjusting `curr_size`. -/
theorem setEvictable_cases {s s' : RState} {f : Nat} {b : Bool}
    (hr : setEvictable s f b = some s') :
    f < s.replacer_size ∧
    (alookup s.frame_data f = none ∧ s' = s ∨
     (∃ h, alookup s.frame_data f = some h ∧ h.is_evictable = b ∧ s' = s) ∨
     (∃ h, alookup s.frame_data f = some h ∧ h.is_evictable ≠ b ∧
        s' = { s with frame_data := aset s.frame_data f ⟨h.access_times, b⟩,
                      curr_size := if b then s.curr_size + 1 else s.curr_size - 1 })) := by
  by_cases hrs : f < s.replacer_size
  · refine ⟨hrs, ?_⟩
    cases hl : alookup s.frame_data f with
    | none =>
      left
      simp only [setEvictable, if_pos hrs, hl] at hr
      exact ⟨rfl, (Option.some.inj hr.symm)⟩
    | some h =>
      by_cases hev : h.is_evictable = b
      · right; left
        simp only [setEvictable, if_pos hrs, hl, if_pos hev] at hr
        exact ⟨h, rfl, hev, (Option.some.inj hr.symm)⟩
      · right; right
        simp only [setEvictable, if_pos hrs, hl, if_neg hev] at hr
        exact ⟨h, rfl, hev, (Option.some.inj hr.symm)⟩
  · simp [setEvictable, hrs] at hr

/-- The two successful outcomes of the internal `Remove`: unknown frame
(no-op) and actual removal of an evictable frame. -/
theorem removeFrame_cases {s s' : RState} {f : Nat}
    (hr : removeFrame s f = some s') :
    alookup s.frame_data f = none ∧ s' = s ∨
    (∃ h, alookup s.frame_data f = some h ∧ h.is_evictable = true ∧
       s' = { s with
         history_list := if h.access_times.length < s.k then
                           s.history_list.filter (fun g => decide (g ≠ f))
                         else s.history_list,
         cache_list := if h.access_times.length < s.k then s.cache_list
                       else s.cache_list.filter (fun g => decide (g ≠ f)),
         frame_data := aerase s.frame_data f,
         curr_size := s.curr_size - 1 }) := by
  cases hl : alookup s.frame_data f with
  | none =>
    left
    simp only [removeFrame, hl] at hr
    exact ⟨rfl, (Option.some.inj hr.symm)⟩
  | some h =>
    by_cases hev : h.is_evictable
    · right
      simp only [removeFrame, hl, if_pos hev] at hr
      exact ⟨h, rfl, hev, (Option.some.inj hr.symm)⟩
    · simp [removeFrame, hl, hev] at hr

/-- The outcomes of `Evict`: empty replacer, a victim found by the history
scan, a victim found by the cache scan, or no candidate at all. -/
theorem evict_cases {s : RState} {r : Option Nat} {s' : RState}
    (hr : evict s = (r, s')) :
    (s.curr_size = 0 ∧ r = none ∧ s' = s) ∨
    (s.curr_size ≠ 0 ∧ ∃ f, s.history_list.find? (fun g => evictableOf s g) = some f ∧
       r = some f ∧ s' = (removeFrame s f).getD s) ∨
    (s.curr_size ≠ 0 ∧ s.history_list.find? (fun g => evictableOf s g) = none ∧
       ∃ f m, s.cache_list.foldl (scanStep s) none = some (f, m) ∧
       r = some f ∧ s' = (removeFrame s f).getD s) ∨
    (s.curr_size ≠ 0 ∧ s.history_list.find? (fun g => evictableOf s g) = none ∧
       s.cache_list.foldl (scanStep s) none = none ∧ r = none ∧ s' = s) := by
  by_cases hz : s.curr_size = 0
  · left
    simp only [evict, if_pos hz] at hr
    obtain ⟨h1, h2⟩ := Prod.mk.injEq .. ▸ hr
    exact ⟨hz, h1.symm, h2.symm⟩
  · cases hf : s.history_list.find? (fun g => evictableOf s g) with
    | some f =>
      right; left
      simp only [evict, if_neg hz, hf] at hr
      obtain ⟨h1, h2⟩ := Prod.mk.injEq .. ▸ hr
      exact ⟨hz, f, rfl, h1.symm, h2.symm⟩
    | none =>
      cases hc : s.cache_list.foldl (scanStep s) none with
      | some p =>
        right; right; left
        simp only [evict, if_neg hz, hf, hc] at hr
        obtain ⟨h1, h2⟩ := Prod.mk.injEq .. ▸ hr
        exact ⟨hz, rfl, p.1, p.2, by simpa using hc, h1.symm, h2.symm⟩
      | none =>
        right; right; right
        simp only [evict, if_neg hz, hf, hc] at hr
        obtain ⟨h1, h2⟩ := Prod.mk.injEq .. ▸ hr
        exact ⟨hz, rfl, rfl, h1.symm, h2.symm⟩

/-! ### The `curr_size` accounting invariant (holds for every `k`) -/

/-- Storing back an entry whose flag is the one just read through
`frame_data_[f]` leaves the evictable count unchanged. -/
theorem countEv_aset_historyOf (s : RState) (f : Nat) (ats : List Nat) :
    countEv (aset s.frame_data f ⟨ats, (historyOf s f).is_evictable⟩)
      = countEv s.frame_data := by
  cases hl : alookup s.frame_data f with
  | none =>
    rw [countEv_aset_none _ _ _ hl]
    simp [historyOf, hl]
  | some h₀ => exact countEv_aset_same _ _ h₀ _ hl (by simp [historyOf, hl])

/-- `RecordAccess` never changes `curr_size` and stores back the flag it
read, so the evictable count is untouched. -/
theorem recordAccess_countEv {s s' : RState} {f : Nat}
    (hr : recordAccess s f = some s') (hw : s.curr_size = countEv s.frame_data) :
    s'.curr_size = countEv s'.frame_data := by
  obtain ⟨-, hcase⟩ := recordAccess_cases hr
  rcases hcase with ⟨-, he⟩ | ⟨-, -, he⟩ | ⟨-, -, he⟩ <;> subst he <;>
    simpa [countEv_aset_historyOf] using hw

/-- `SetEvictable` adjusts `curr_size` exactly when it flips the flag. -/
theorem setEvictable_countEv {s s' : RState} {f : Nat} {b : Bool}
    (hr : setEvictable s f b = some s') (hw : s.curr_size = countEv s.frame_data) :
    s'.curr_size = countEv s'.frame_data := by
  obtain ⟨-, hcase⟩ := setEvictable_cases hr
  rcases hcase with ⟨-, he⟩ | ⟨h, -, -, he⟩ | ⟨h, hl, hne, he⟩
  · subst he; exact hw
  · subst he; exact hw
  · subst he
    have hflip := countEv_aset_flip s.frame_data f h ⟨h.access_times, b⟩ hl
    cases b with
    | false =>
      have hevt : h.is_evictable = true := by
        cases hb : h.is_evictable
        · exact absurd hb hne
        · rfl
      have hpos := countEv_pos s.frame_data f h hl hevt
      simp only [hevt, if_pos, ite_true, ite_false] at hflip
      simp only [if_neg]
      simp at hflip ⊢
      omega
    | true =>
      have hevf : h.is_evictable = false := by
        cases hb : h.is_evictable
        · rfl
        · exact absurd hb hne
      simp only [hevf] at hflip
      simp at hflip ⊢
      omega

/-- Removing an evictable frame decrements both `curr_size` and the
evictable count by one. -/
theorem removeFrame_countEv {s s' : RState} {f : Nat}
    (hr : removeFrame s f = some s') (hw : s.curr_size = countEv s.frame_data) :
    s'.curr_size = countEv s'.frame_data := by
  rcases removeFrame_cases hr with ⟨-, he⟩ | ⟨h, hl, hev, he⟩
  · subst he; exact hw
  · subst he
    have herase := countEv_aerase s.frame_data f h hl
    have hpos := countEv_pos s.frame_data f h hl hev
    simp only [hev, ite_true] at herase
    simp only
    omega

/-- `Evict` preserves the accounting invariant: it either does nothing or
performs an internal `Remove`. -/
theorem evict_countEv {s s' : RState} {r : Option Nat}
    (hr : evict s = (r, s')) (hw : s.curr_size = countEv s.frame_data) :
    s'.curr_size = countEv s'.frame_data := by
  rcases evict_cases hr with ⟨-, -, he⟩ | ⟨-, f, -, -, he⟩ | ⟨-, -, f, m, -, -, he⟩ |
    ⟨-, -, -, -, he⟩
  · subst he; exact hw
  · subst he
    cases hrf : removeFrame s f with
    | none => simp [hrf, hw]
    | some s'' => simpa [hrf] using removeFrame_countEv hrf hw
  · subst he
    cases hrf : removeFrame s f with
    | none => simp [hrf, hw]
    | some s'' => simpa [hrf] using removeFrame_countEv hrf hw
  · subst he; exact hw

/-- The accounting invariant holds in every reachable state. -/
theorem reachable_countEv {s : RState} (hr : LRUReachable s) :
    s.curr_size = countEv s.frame_data := by
  induction hr with
  | init num_frames k => simp [lruInit, countEv]
  | step hreach hstep ih =>
    cases hstep with
    | record f h => exact recordAccess_countEv h ih
    | setEv f b h => exact setEvictable_countEv h ih
    | evictStep r h => exact evict_countEv h ih
    | removeStep f h => exact removeFrame_countEv h ih

/-! ### The full structural invariant of the replacer (for `k ≥ 2`) -/

/-- Earliest retained access timestamp of a frame (frames on the history
list never had an entry evicted from their `access_times`, so for them this
is the time of their very first access). -/
def firstTs (fd : List (Nat × AccessHistory)) (f : Nat) : Nat :=
  ((alookup fd f).getD ⟨[], false⟩).access_times.headD 0

theorem headD_mem_of_ne_nil (l : List Nat) (h : l ≠ []) : l.headD 0 ∈ l := by
  cases l with
  | nil => exact absurd rfl h
  | cons a t => simp [List.headD]

theorem headD_append_of_ne_nil (l l' : List Nat) (h : l ≠ []) :
    (l ++ l').headD 0 = l.headD 0 := by
  cases l with
  | nil => exact absurd rfl h
  | cons a t => simp [List.headD]

theorem mem_filter_ne {l : List Nat} {g f : Nat} :
    g ∈ l.filter (fun x => decide (x ≠ f)) ↔ g ∈ l ∧ g ≠ f := by
  simp [List.mem_filter]

/-- Structural invariant of the replacer state, maintained by every public
operation when the replacer was constructed with `k ≥ 2`:
`curr_size` counts the evictable tracked frames; map keys and both lists are
duplicate-free; every tracked frame has between 1 and `k + 1` recorded
timestamps, strictly increasing and bounded by `current_timestamp`; the
history list holds exactly the tracked frames with fewer than `k` accesses
and the cache list exactly those with at least `k`; and the history list is
ordered by first access. -/
structure RInv (s : RState) : Prop where
  size_eq : s.curr_size = countEv s.frame_data
  keys_nd : (akeys s.frame_data).Nodup
  hist_nd : s.history_list.Nodup
  cache_nd : s.cache_list.Nodup
  entry_ne : ∀ f h, alookup s.frame_data f = some h → h.access_times ≠ []
  entry_len : ∀ f h, alookup s.frame_data f = some h → h.access_times.length ≤ s.k + 1
  entry_ts : ∀ f h, alookup s.frame_data f = some h →
    ∀ t ∈ h.access_times, t ≤ s.current_timestamp
  entry_sorted : ∀ f h, alookup s.frame_data f = some h →
    h.access_times.Pairwise (· < ·)
  hist_mem : ∀ f ∈ s.history_list, ∃ h, alookup s.frame_data f = some h ∧
    h.access_times.length < s.k
  cache_mem : ∀ f ∈ s.cache_list, ∃ h, alookup s.frame_data f = some h ∧
    s.k ≤ h.access_times.length
  short_hist : ∀ f h, alookup s.frame_data f = some h →
    h.access_times.length < s.k → f ∈ s.history_list
  long_cache : ∀ f h, alookup s.frame_data f = some h →
    s.k ≤ h.access_times.length → f ∈ s.cache_list
  hist_sorted : s.history_list.Pairwise
    (fun a b => firstTs s.frame_data a < firstTs s.frame_data b)

/-- `RecordAccess` preserves the structural invariant when `k ≥ 2`. -/
theorem recordAccess_rinv {s s' : RState} {f : Nat} (hk : 2 ≤ s.k)
    (hr : recordAccess s f = some s') (hinv : RInv s) : RInv s' := by
  obtain ⟨-, hcase⟩ := recordAccess_cases hr
  rcases hcase with ⟨hat, he⟩ | ⟨hat, hlen, he⟩ | ⟨hat, hlen, he⟩
  · -- first access: the frame was untracked
    have hl : alookup s.frame_data f = none := by
      cases hl : alookup s.frame_data f with
      | none => rfl
      | some h₀ =>
        exact absurd (by simpa [historyOf, hl] using hat) (hinv.entry_ne f h₀ hl)
    have hflag : (historyOf s f).is_evictable = false := by simp [historyOf, hl]
    have hfh : f ∉ s.history_list := fun hmem => by
      obtain ⟨h, hgl, -⟩ := hinv.hist_mem f hmem
      simp [hl] at hgl
    have hfc : f ∉ s.cache_list := fun hmem => by
      obtain ⟨h, hgl, -⟩ := hinv.cache_mem f hmem
      simp [hl] at hgl
    subst he
    refine ⟨?_, ?_, ?_, ?_, ?_, ?_, ?_, ?_, ?_, ?_, ?_, ?_, ?_⟩
    · simpa [countEv_aset_historyOf] using hinv.size_eq
    · rw [akeys_aset_of_none _ _ _ hl]
      simp only [List.nodup_append, List.nodup_cons]
      exact ⟨hinv.keys_nd, by simp,
        by simpa [List.disjoint_singleton] using (alookup_eq_none_iff _ f).mp hl⟩
    · simpa [List.nodup_append] using ⟨hinv.hist_nd, hfh⟩
    · exact hinv.cache_nd
    · intro g h hgl
      by_cases hgf : g = f
      · subst hgf
        rw [alookup_aset_self] at hgl
        cases hgl
        simp
      · rw [alookup_aset_ne _ _ _ _ hgf] at hgl
        exact hinv.entry_ne g h hgl
    · intro g h hgl
      by_cases hgf : g = f
      · subst hgf
        rw [alookup_aset_self] at hgl
        cases hgl
        simp
      · rw [alookup_aset_ne _ _ _ _ hgf] at hgl
        exact le_trans (hinv.entry_len g h hgl) (le_refl _)
    · intro g h hgl t ht
      by_cases hgf : g = f
      · subst hgf
        rw [alookup_aset_self] at hgl
        cases hgl
        simp at ht ⊢
        omega
      · rw [alookup_aset_ne _ _ _ _ hgf] at hgl
        exact le_trans (hinv.entry_ts g h hgl t ht) (Nat.le_succ _)
    · intro g h hgl
      by_cases hgf : g = f
      · subst hgf
        rw [alookup_aset_self] at hgl
        cases hgl
        simp
      · rw [alookup_aset_ne _ _ _ _ hgf] at hgl
        exact hinv.entry_sorted g h hgl
    · intro g hg
      rcases List.mem_append.mp hg with hg | hg
      · have hgf : g ≠ f := fun e => hfh (e ▸ hg)
        obtain ⟨h, hgl, hlt⟩ := hinv.hist_mem g hg
        exact ⟨h, by rwa [alookup_aset_ne _ _ _ _ hgf], hlt⟩
      · have hgf : g = f := by simpa using hg
        subst hgf
        exact ⟨_, alookup_aset_self _ _ _, by simp; omega⟩
    · intro g hg
      have hgf : g ≠ f := fun e => hfc (e ▸ hg)
      obtain ⟨h, hgl, hge⟩ := hinv.cache_mem g hg
      exact ⟨h, by rwa [alookup_aset_ne _ _ _ _ hgf], hge⟩
    · intro g h hgl hlt
      by_cases hgf : g = f
      · subst hgf
        exact List.mem_append.mpr (Or.inr (by simp))
      · rw [alookup_aset_ne _ _ _ _ hgf] at hgl
        exact List.mem_append.mpr (Or.inl (hinv.short_hist g h hgl hlt))
    · intro g h hgl hge
      by_cases hgf : g = f
      · subst hgf
        rw [alookup_aset_self] at hgl
        cases hgl
        simp at hge ⊢
        omega
      · rw [alookup_aset_ne _ _ _ _ hgf] at hgl
        exact hinv.long_cache g h hgl hge
    · rw [List.pairwise_append]
      have hcong : ∀ g ∈ s.history_list,
          firstTs (aset s.frame_data f
            ⟨[s.current_timestamp + 1], (historyOf s f).is_evictable⟩) g
            = firstTs s.frame_data g := by
        intro g hg
        have hgf : g ≠ f := fun e => hfh (e ▸ hg)
        simp [firstTs, alookup_aset_ne _ _ _ _ hgf]
      refine ⟨hinv.hist_sorted.imp_of_mem ?_, List.pairwise_singleton _ _, ?_⟩
      · intro a b ha hb hab
        rw [hcong a ha, hcong b hb]
        exact hab
      · intro a ha b hb
        have hbf : b = f := by simpa using hb
        rw [hcong a ha, hbf]
        obtain ⟨h, hgl, -⟩ := hinv.hist_mem a ha
        have hne := hinv.entry_ne a h hgl
        have hmem := headD_mem_of_ne_nil h.access_times hne
        have hle := hinv.entry_ts a h hgl _ hmem
        have : firstTs s.frame_data a ≤ s.current_timestamp := by
          simpa [firstTs, hgl] using hle
        have hself : firstTs (aset s.frame_data f
            ⟨[s.current_timestamp + 1], (historyOf s f).is_evictable⟩) f
            = s.current_timestamp + 1 := by
          simp [firstTs, alookup_aset_self]
        rw [hself]
        omega
  · -- Kth access: move from history list to cache list
    obtain ⟨h₀, hl⟩ : ∃ h₀, alookup s.frame_data f = some h₀ := by
      cases hl : alookup s.frame_data f with
      | none => exact absurd (by simp [historyOf, hl]) hat
      | some h₀ => exact ⟨h₀, rfl⟩
    have hof : historyOf s f = h₀ := by simp [historyOf, hl]
    rw [hof] at hat hlen he
    have hfh : f ∈ s.history_list := hinv.short_hist f h₀ hl (by omega)
    have hfc : f ∉ s.cache_list := fun hmem => by
      obtain ⟨h, hgl, hge⟩ := hinv.cache_mem f hmem
      rw [hl] at hgl
      cases hgl
      omega
    subst he
    refine ⟨?_, ?_, ?_, ?_, ?_, ?_, ?_, ?_, ?_, ?_, ?_, ?_, ?_⟩
    · show s.curr_size = countEv (aset s.frame_data f
        ⟨h₀.access_times ++ [s.current_timestamp + 1], h₀.is_evictable⟩)
      rw [countEv_aset_same s.frame_data f h₀
        ⟨h₀.access_times ++ [s.current_timestamp + 1], h₀.is_evictable⟩ hl rfl]
      exact hinv.size_eq
    · rw [akeys_aset_of_some _ _ _ h₀ hl]
      exact hinv.keys_nd
    · exact hinv.hist_nd.filter _
    · simpa [List.nodup_append] using ⟨hinv.cache_nd, hfc⟩
    · intro g h hgl
      by_cases hgf : g = f
      · subst hgf
        rw [alookup_aset_self] at hgl
        cases hgl
        simp
      · rw [alookup_aset_ne _ _ _ _ hgf] at hgl
        exact hinv.entry_ne g h hgl
    · intro g h hgl
      by_cases hgf : g = f
      · subst hgf
        rw [alookup_aset_self] at hgl
        cases hgl
        show (h₀.access_times ++ [s.current_timestamp + 1]).length ≤ s.k + 1
        simp only [List.length_append, List.length_singleton]
        omega
      · rw [alookup_aset_ne _ _ _ _ hgf] at hgl
        exact hinv.entry_len g h hgl
    · intro g h hgl t ht
      by_cases hgf : g = f
      · subst hgf
        rw [alookup_aset_self] at hgl
        cases hgl
        show t ≤ s.current_timestamp + 1
        have ht' : t ∈ h₀.access_times ++ [s.current_timestamp + 1] := ht
        simp only [List.mem_append, List.mem_singleton] at ht'
        rcases ht' with ht' | ht'
        · exact le_trans (hinv.entry_ts g h₀ hl t ht') (Nat.le_succ _)
        · omega
      · rw [alookup_aset_ne _ _ _ _ hgf] at hgl
        exact le_trans (hinv.entry_ts g h hgl t ht) (Nat.le_succ _)
    · intro g h hgl
      by_cases hgf : g = f
      · subst hgf
        rw [alookup_aset_self] at hgl
        cases hgl
        show (h₀.access_times ++ [s.current_timestamp + 1]).Pairwise (· < ·)
        rw [List.pairwise_append]
        refine ⟨hinv.entry_sorted g h₀ hl, List.pairwise_singleton _ _, ?_⟩
        intro a ha b hb
        have hb' : b = s.current_timestamp + 1 := by simpa using hb
        subst hb'
        exact lt_of_le_of_lt (hinv.entry_ts g h₀ hl a ha) (Nat.lt_succ_self _)
      · rw [alookup_aset_ne _ _ _ _ hgf] at hgl
        exact hinv.entry_sorted g h hgl
    · intro g hg
      have hg' : g ∈ s.history_list.filter (fun x => decide (x ≠ f)) := hg
      rw [mem_filter_ne] at hg'
      obtain ⟨hg', hgf⟩ := hg'
      obtain ⟨h, hgl, hlt⟩ := hinv.hist_mem g hg'
      exact ⟨h, by rwa [alookup_aset_ne _ _ _ _ hgf], hlt⟩
    · intro g hg
      have hg' : g ∈ s.cache_list ++ [f] := hg
      rcases List.mem_append.mp hg' with hg' | hg'
      · have hgf : g ≠ f := fun e => hfc (e ▸ hg')
        obtain ⟨h, hgl, hge⟩ := hinv.cache_mem g hg'
        exact ⟨h, by rwa [alookup_aset_ne _ _ _ _ hgf], hge⟩
      · have hgf : g = f := by simpa using hg'
        subst hgf
        refine ⟨_, alookup_aset_self _ _ _, ?_⟩
        show s.k ≤ (h₀.access_times ++ [s.current_timestamp + 1]).length
        simp only [List.length_append, List.length_singleton]
        omega
    · intro g h hgl hlt
      by_cases hgf : g = f
      · subst hgf
        rw [alookup_aset_self] at hgl
        cases hgl
        have hlt' : (h₀.access_times ++ [s.current_timestamp + 1]).length < s.k := hlt
        simp only [List.length_append, List.length_singleton] at hlt'
        exact absurd hlt' (by omega)
      · rw [alookup_aset_ne _ _ _ _ hgf] at hgl
        exact mem_filter_ne.mpr ⟨hinv.short_hist g h hgl hlt, hgf⟩
    · intro g h hgl hge
      by_cases hgf : g = f
      · subst hgf
        exact List.mem_append.mpr (Or.inr (by simp))
      · rw [alookup_aset_ne _ _ _ _ hgf] at hgl
        exact List.mem_append.mpr (Or.inl (hinv.long_cache g h hgl hge))
    · have hcong : ∀ g ∈ s.history_list.filter (fun x => decide (x ≠ f)),
          firstTs (aset s.frame_data f
            ⟨h₀.access_times ++ [s.current_timestamp + 1], h₀.is_evictable⟩) g
            = firstTs s.frame_data g := by
        intro g hg
        obtain ⟨-, hgf⟩ := mem_filter_ne.mp hg
        simp [firstTs, alookup_aset_ne _ _ _ _ hgf]
      refine ((hinv.hist_sorted.filter _).imp_of_mem ?_)
      intro a b ha hb hab
      exact (hcong a ha).trans_lt (hab.trans_eq (hcong b hb).symm)
  · -- later access: timestamps only
    obtain ⟨h₀, hl⟩ : ∃ h₀, alookup s.frame_data f = some h₀ := by
      cases hl : alookup s.frame_data f with
      | none => exact absurd (by simp [historyOf, hl]) hat
      | some h₀ => exact ⟨h₀, rfl⟩
    have hof : historyOf s f = h₀ := by simp [historyOf, hl]
    rw [hof] at hat hlen he
    subst he
    refine ⟨?_, ?_, ?_, ?_, ?_, ?_, ?_, ?_, ?_, ?_, ?_, ?_, ?_⟩
    · show s.curr_size = countEv (aset s.frame_data f
        ⟨if s.k + 1 < h₀.access_times.length + 1 then
           (h₀.access_times ++ [s.current_timestamp + 1]).tail
         else h₀.access_times ++ [s.current_timestamp + 1], h₀.is_evictable⟩)
      rw [countEv_aset_same s.frame_data f h₀
        ⟨if s.k + 1 < h₀.access_times.length + 1 then
           (h₀.access_times ++ [s.current_timestamp + 1]).tail
         else h₀.access_times ++ [s.current_timestamp + 1], h₀.is_evictable⟩ hl rfl]
      exact hinv.size_eq
    · rw [akeys_aset_of_some _ _ _ h₀ hl]
      exact hinv.keys_nd
    · exact hinv.hist_nd
    · exact hinv.cache_nd
    · intro g h hgl
      by_cases hgf : g = f
      · subst hgf
        rw [alookup_aset_self] at hgl
        cases hgl
        show (if s.k + 1 < h₀.access_times.length + 1 then
           (h₀.access_times ++ [s.current_timestamp + 1]).tail
         else h₀.access_times ++ [s.current_timestamp + 1]) ≠ []
        by_cases hpop : s.k + 1 < h₀.access_times.length + 1
        · rw [if_pos hpop]
          refine List.ne_nil_of_length_pos ?_
          simp only [List.length_tail, List.length_append, List.length_singleton]
          omega
        · rw [if_neg hpop]
          simp
      · rw [alookup_aset_ne _ _ _ _ hgf] at hgl
        exact hinv.entry_ne g h hgl
    · intro g h hgl
      by_cases hgf : g = f
      · subst hgf
        rw [alookup_aset_self] at hgl
        cases hgl
        show (if s.k + 1 < h₀.access_times.length + 1 then
           (h₀.access_times ++ [s.current_timestamp + 1]).tail
         else h₀.access_times ++ [s.current_timestamp + 1]).length ≤ s.k + 1
        have hle := hinv.entry_len g h₀ hl
        by_cases hpop : s.k + 1 < h₀.access_times.length + 1
        · rw [if_pos hpop]
          simp only [List.length_tail, List.length_append, List.length_singleton]
          omega
        · rw [if_neg hpop]
          simp only [List.length_append, List.length_singleton]
          omega
      · rw [alookup_aset_ne _ _ _ _ hgf] at hgl
        exact hinv.entry_len g h hgl
    · intro g h hgl t ht
      by_cases hgf : g = f
      · subst hgf
        rw [alookup_aset_self] at hgl
        cases hgl
        show t ≤ s.current_timestamp + 1
        have ht' : t ∈ (if s.k + 1 < h₀.access_times.length + 1 then
           (h₀.access_times ++ [s.current_timestamp + 1]).tail
         else h₀.access_times ++ [s.current_timestamp + 1]) := ht
        have hmem : t ∈ h₀.access_times ++ [s.current_timestamp + 1] := by
          by_cases hpop : s.k + 1 < h₀.access_times.length + 1
          · rw [if_pos hpop] at ht'
            exact (List.tail_sublist _).mem ht'
          · rwa [if_neg hpop] at ht'
        simp only [List.mem_append, List.mem_singleton] at hmem
        rcases hmem with hmem | hmem
        · exact le_trans (hinv.entry_ts g h₀ hl t hmem) (Nat.le_succ _)
        · omega
      · rw [alookup_aset_ne _ _ _ _ hgf] at hgl
        exact le_trans (hinv.entry_ts g h hgl t ht) (Nat.le_succ _)
    · intro g h hgl
      by_cases hgf : g = f
      · subst hgf
        rw [alookup_aset_self] at hgl
        cases hgl
        show (if s.k + 1 < h₀.access_times.length + 1 then
           (h₀.access_times ++ [s.current_timestamp + 1]).tail
         else h₀.access_times ++ [s.current_timestamp + 1]).Pairwise (· < ·)
        have hsorted : (h₀.access_times ++ [s.current_timestamp + 1]).Pairwise (· < ·) := by
          rw [List.pairwise_append]
          refine ⟨hinv.entry_sorted g h₀ hl, List.pairwise_singleton _ _, ?_⟩
          intro a ha b hb
          have hb' : b = s.current_timestamp + 1 := by simpa using hb
          subst hb'
          exact lt_of_le_of_lt (hinv.entry_ts g h₀ hl a ha) (Nat.lt_succ_self _)
        by_cases hpop : s.k + 1 < h₀.access_times.length + 1
        · rw [if_pos hpop]
          exact hsorted.tail
        · rw [if_neg hpop]
          exact hsorted
      · rw [alookup_aset_ne _ _ _ _ hgf] at hgl
        exact hinv.entry_sorted g h hgl
    · intro g hg
      obtain ⟨h, hgl, hlt⟩ := hinv.hist_mem g hg
      by_cases hgf : g = f
      · subst hgf
        rw [hl] at hgl
        cases hgl
        have hnopop : ¬ s.k + 1 < h₀.access_times.length + 1 := by omega
        refine ⟨_, alookup_aset_self _ _ _, ?_⟩
        show (if s.k + 1 < h₀.access_times.length + 1 then
           (h₀.access_times ++ [s.current_timestamp + 1]).tail
         else h₀.access_times ++ [s.current_timestamp + 1]).length < s.k
        rw [if_neg hnopop]
        simp only [List.length_append, List.length_singleton]
        omega
      · exact ⟨h, by rwa [alookup_aset_ne _ _ _ _ hgf], hlt⟩
    · intro g hg
      obtain ⟨h, hgl, hge⟩ := hinv.cache_mem g hg
      by_cases hgf : g = f
      · subst hgf
        rw [hl] at hgl
        cases hgl
        refine ⟨_, alookup_aset_self _ _ _, ?_⟩
        show s.k ≤ (if s.k + 1 < h₀.access_times.length + 1 then
           (h₀.access_times ++ [s.current_timestamp + 1]).tail
         else h₀.access_times ++ [s.current_timestamp + 1]).length
        by_cases hpop : s.k + 1 < h₀.access_times.length + 1
        · rw [if_pos hpop]
          simp only [List.length_tail, List.length_append, List.length_singleton]
          omega
        · rw [if_neg hpop]
          simp only [List.length_append, List.length_singleton]
          omega
      · exact ⟨h, by rwa [alookup_aset_ne _ _ _ _ hgf], hge⟩
    · intro g h hgl hlt
      by_cases hgf : g = f
      · subst hgf
        rw [alookup_aset_self] at hgl
        cases hgl
        have hlt' : (if s.k + 1 < h₀.access_times.length + 1 then
           (h₀.access_times ++ [s.current_timestamp + 1]).tail
         else h₀.access_times ++ [s.current_timestamp + 1]).length < s.k := hlt
        by_cases hpop : s.k + 1 < h₀.access_times.length + 1
        · rw [if_pos hpop] at hlt'
          simp only [List.length_tail, List.length_append, List.length_singleton] at hlt'
          exact absurd hlt' (by omega)
        · rw [if_neg hpop] at hlt'
          simp only [List.length_append, List.length_singleton] at hlt'
          exact hinv.short_hist g h₀ hl (by omega)
      · rw [alookup_aset_ne _ _ _ _ hgf] at hgl
        exact hinv.short_hist g h hgl hlt
    · intro g h hgl hge
      by_cases hgf : g = f
      · subst hgf
        rw [alookup_aset_self] at hgl
        cases hgl
        have hge' : s.k ≤ (if s.k + 1 < h₀.access_times.length + 1 then
           (h₀.access_times ++ [s.current_timestamp + 1]).tail
         else h₀.access_times ++ [s.current_timestamp + 1]).length := hge
        by_cases hpop : s.k + 1 < h₀.access_times.length + 1
        · exact hinv.long_cache g h₀ hl (by omega)
        · rw [if_neg hpop] at hge'
          simp only [List.length_append, List.length_singleton] at hge'
          exact hinv.long_cache g h₀ hl (by omega)
      · rw [alookup_aset_ne _ _ _ _ hgf] at hgl
        exact hinv.long_cache g h hgl hge
    · have hcong : ∀ g ∈ s.history_list,
          firstTs (aset s.frame_data f
            ⟨if s.k + 1 < h₀.access_times.length + 1 then
               (h₀.access_times ++ [s.current_timestamp + 1]).tail
             else h₀.access_times ++ [s.current_timestamp + 1], h₀.is_evictable⟩) g
            = firstTs s.frame_data g := by
        intro g hg
        by_cases hgf : g = f
        · subst hgf
          obtain ⟨h, hgl, hlt⟩ := hinv.hist_mem g hg
          rw [hl] at hgl
          cases hgl
          have hnopop : ¬ s.k + 1 < h₀.access_times.length + 1 := by omega
          simp only [firstTs, alookup_aset_self, hl, Option.getD_some, if_neg hnopop]
          exact headD_append_of_ne_nil _ _ hat
        · simp [firstTs, alookup_aset_ne _ _ _ _ hgf]
      refine hinv.hist_sorted.imp_of_mem ?_
      intro a b ha hb hab
      exact (hcong a ha).trans_lt (hab.trans_eq (hcong b hb).symm)

/-- `SetEvictable` preserves the structural invariant: only the flag of one
entry and `curr_size` change. -/
theorem setEvictable_rinv {s s' : RState} {f : Nat} {b : Bool}
    (hr : setEvictable s f b = some s') (hinv : RInv s) : RInv s' := by
  obtain ⟨-, hcase⟩ := setEvictable_cases hr
  rcases hcase with ⟨-, he⟩ | ⟨h, -, -, he⟩ | ⟨h, hl, hne, he⟩
  · subst he; exact hinv
  · subst he; exact hinv
  · subst he
    refine ⟨?_, ?_, hinv.hist_nd, hinv.cache_nd, ?_, ?_, ?_, ?_, ?_, ?_, ?_, ?_, ?_⟩
    · exact setEvictable_countEv hr hinv.size_eq
    · rw [akeys_aset_of_some _ _ _ h hl]
      exact hinv.keys_nd
    · intro g h' hgl
      by_cases hgf : g = f
      · subst hgf
        rw [alookup_aset_self] at hgl
        cases hgl
        show h.access_times ≠ []
        exact hinv.entry_ne g h hl
      · rw [alookup_aset_ne _ _ _ _ hgf] at hgl
        exact hinv.entry_ne g h' hgl
    · intro g h' hgl
      by_cases hgf : g = f
      · subst hgf
        rw [alookup_aset_self] at hgl
        cases hgl
        show h.access_times.length ≤ s.k + 1
        exact hinv.entry_len g h hl
      · rw [alookup_aset_ne _ _ _ _ hgf] at hgl
        exact hinv.entry_len g h' hgl
    · intro g h' hgl t ht
      by_cases hgf : g = f
      · subst hgf
        rw [alookup_aset_self] at hgl
        cases hgl
        have ht' : t ∈ h.access_times := ht
        exact hinv.entry_ts g h hl t ht'
      · rw [alookup_aset_ne _ _ _ _ hgf] at hgl
        exact hinv.entry_ts g h' hgl t ht
    · intro g h' hgl
      by_cases hgf : g = f
      · subst hgf
        rw [alookup_aset_self] at hgl
        cases hgl
        show h.access_times.Pairwise (· < ·)
        exact hinv.entry_sorted g h hl
      · rw [alookup_aset_ne _ _ _ _ hgf] at hgl
        exact hinv.entry_sorted g h' hgl
    · intro g hg
      obtain ⟨h₂, hgl, hlt⟩ := hinv.hist_mem g hg
      by_cases hgf : g = f
      · subst hgf
        rw [hl] at hgl
        cases hgl
        refine ⟨_, alookup_aset_self _ _ _, ?_⟩
        show h.access_times.length < s.k
        exact hlt
      · exact ⟨h₂, by rwa [alookup_aset_ne _ _ _ _ hgf], hlt⟩
    · intro g hg
      obtain ⟨h₂, hgl, hge⟩ := hinv.cache_mem g hg
      by_cases hgf : g = f
      · subst hgf
        rw [hl] at hgl
        cases hgl
        refine ⟨_, alookup_aset_self _ _ _, ?_⟩
        show s.k ≤ h.access_times.length
        exact hge
      · exact ⟨h₂, by rwa [alookup_aset_ne _ _ _ _ hgf], hge⟩
    · intro g h' hgl hlt
      by_cases hgf : g = f
      · subst hgf
        rw [alookup_aset_self] at hgl
        cases hgl
        have hlt' : h.access_times.length < s.k := hlt
        exact hinv.short_hist g h hl hlt'
      · rw [alookup_aset_ne _ _ _ _ hgf] at hgl
        exact hinv.short_hist g h' hgl hlt
    · intro g h' hgl hge
      by_cases hgf : g = f
      · subst hgf
        rw [alookup_aset_self] at hgl
        cases hgl
        have hge' : s.k ≤ h.access_times.length := hge
        exact hinv.long_cache g h hl hge'
      · rw [alookup_aset_ne _ _ _ _ hgf] at hgl
        exact hinv.long_cache g h' hgl hge
    · have hcong : ∀ g ∈ s.history_list,
          firstTs (aset s.frame_data f ⟨h.access_times, b⟩) g
            = firstTs s.frame_data g := by
        intro g hg
        by_cases hgf : g = f
        · subst hgf
          simp [firstTs, alookup_aset_self, hl]
        · simp [firstTs, alookup_aset_ne _ _ _ _ hgf]
      refine hinv.hist_sorted.imp_of_mem ?_
      intro a b' ha hb hab
      exact (hcong a ha).trans_lt (hab.trans_eq (hcong b' hb).symm)

/-- The internal `Remove` preserves the structural invariant. -/
theorem removeFrame_rinv {s s' : RState} {f : Nat}
    (hr : removeFrame s f = some s') (hinv : RInv s) : RInv s' := by
  rcases removeFrame_cases hr with ⟨-, he⟩ | ⟨h, hl, hev, he⟩
  · subst he; exact hinv
  · subst he
    by_cases hsh : h.access_times.length < s.k
    · -- the frame is on the history list; the cache list is untouched
      have hfc : f ∉ s.cache_list := fun hmem => by
        obtain ⟨h₂, hgl, hge⟩ := hinv.cache_mem f hmem
        rw [hl] at hgl
        cases hgl
        omega
      refine ⟨?_, ?_, ?_, ?_, ?_, ?_, ?_, ?_, ?_, ?_, ?_, ?_, ?_⟩
      · exact removeFrame_countEv hr hinv.size_eq
      · exact List.Nodup.sublist (akeys_aerase_sublist _ _) hinv.keys_nd
      · show (if h.access_times.length < s.k then
            s.history_list.filter (fun g => decide (g ≠ f)) else s.history_list).Nodup
        rw [if_pos hsh]
        exact hinv.hist_nd.filter _
      · show (if h.access_times.length < s.k then s.cache_list
            else s.cache_list.filter (fun g => decide (g ≠ f))).Nodup
        rw [if_pos hsh]
        exact hinv.cache_nd
      · intro g h' hgl
        by_cases hgf : g = f
        · subst hgf
          rw [alookup_aerase_self _ _ hinv.keys_nd] at hgl
          cases hgl
        · rw [alookup_aerase_ne _ _ _ hgf] at hgl
          exact hinv.entry_ne g h' hgl
      · intro g h' hgl
        by_cases hgf : g = f
        · subst hgf
          rw [alookup_aerase_self _ _ hinv.keys_nd] at hgl
          cases hgl
        · rw [alookup_aerase_ne _ _ _ hgf] at hgl
          exact hinv.entry_len g h' hgl
      · intro g h' hgl t ht
        by_cases hgf : g = f
        · subst hgf
          rw [alookup_aerase_self _ _ hinv.keys_nd] at hgl
          cases hgl
        · rw [alookup_aerase_ne _ _ _ hgf] at hgl
          exact hinv.entry_ts g h' hgl t ht
      · intro g h' hgl
        by_cases hgf : g = f
        · subst hgf
          rw [alookup_aerase_self _ _ hinv.keys_nd] at hgl
          cases hgl
        · rw [alookup_aerase_ne _ _ _ hgf] at hgl
          exact hinv.entry_sorted g h' hgl
      · intro g hg
        have hg' : g ∈ (if h.access_times.length < s.k then
            s.history_list.filter (fun x => decide (x ≠ f)) else s.history_list) := hg
        rw [if_pos hsh, mem_filter_ne] at hg'
        obtain ⟨hg', hgf⟩ := hg'
        obtain ⟨h₂, hgl, hlt⟩ := hinv.hist_mem g hg'
        exact ⟨h₂, by rwa [alookup_aerase_ne _ _ _ hgf], hlt⟩
      · intro g hg
        have hg' : g ∈ (if h.access_times.length < s.k then s.cache_list
            else s.cache_list.filter (fun x => decide (x ≠ f))) := hg
        rw [if_pos hsh] at hg'
        have hgf : g ≠ f := fun e => hfc (e ▸ hg')
        obtain ⟨h₂, hgl, hge⟩ := hinv.cache_mem g hg'
        exact ⟨h₂, by rwa [alookup_aerase_ne _ _ _ hgf], hge⟩
      · intro g h' hgl hlt
        by_cases hgf : g = f
        · subst hgf
          rw [alookup_aerase_self _ _ hinv.keys_nd] at hgl
          cases hgl
        · rw [alookup_aerase_ne _ _ _ hgf] at hgl
          show g ∈ (if h.access_times.length < s.k then
              s.history_list.filter (fun x => decide (x ≠ f)) else s.history_list)
          rw [if_pos hsh]
          exact mem_filter_ne.mpr ⟨hinv.short_hist g h' hgl hlt, hgf⟩
      · intro g h' hgl hge
        by_cases hgf : g = f
        · subst hgf
          rw [alookup_aerase_self _ _ hinv.keys_nd] at hgl
          cases hgl
        · rw [alookup_aerase_ne _ _ _ hgf] at hgl
          show g ∈ (if h.access_times.length < s.k then s.cache_list
              else s.cache_list.filter (fun x => decide (x ≠ f)))
          rw [if_pos hsh]
          exact hinv.long_cache g h' hgl hge
      · have hcong : ∀ g ∈ s.history_list.filter (fun x => decide (x ≠ f)),
            firstTs (aerase s.frame_data f) g = firstTs s.frame_data g := by
          intro g hg
          obtain ⟨-, hgf⟩ := mem_filter_ne.mp hg
          simp [firstTs, alookup_aerase_ne _ _ _ hgf]
        show (if h.access_times.length < s.k then
            s.history_list.filter (fun x => decide (x ≠ f))
          else s.history_list).Pairwise (fun a b =>
            firstTs (aerase s.frame_data f) a < firstTs (aerase s.frame_data f) b)
        rw [if_pos hsh]
        refine (hinv.hist_sorted.filter _).imp_of_mem ?_
        intro a b ha hb hab
        exact (hcong a ha).trans_lt (hab.trans_eq (hcong b hb).symm)
    · -- the frame is on the cache list; the history list is untouched
      have hfh : f ∉ s.history_list := fun hmem => by
        obtain ⟨h₂, hgl, hlt⟩ := hinv.hist_mem f hmem
        rw [hl] at hgl
        cases hgl
        omega
      refine ⟨?_, ?_, ?_, ?_, ?_, ?_, ?_, ?_, ?_, ?_, ?_, ?_, ?_⟩
      · exact removeFrame_countEv hr hinv.size_eq
      · exact List.Nodup.sublist (akeys_aerase_sublist _ _) hinv.keys_nd
      · show (if h.access_times.length < s.k then
            s.history_list.filter (fun g => decide (g ≠ f)) else s.history_list).Nodup
        rw [if_neg hsh]
        exact hinv.hist_nd
      · show (if h.access_times.length < s.k then s.cache_list
            else s.cache_list.filter (fun g => decide (g ≠ f))).Nodup
        rw [if_neg hsh]
        exact hinv.cache_nd.filter _
      · intro g h' hgl
        by_cases hgf : g = f
        · subst hgf
          rw [alookup_aerase_self _ _ hinv.keys_nd] at hgl
          cases hgl
        · rw [alookup_aerase_ne _ _ _ hgf] at hgl
          exact hinv.entry_ne g h' hgl
      · intro g h' hgl
        by_cases hgf : g = f
        · subst hgf
          rw [alookup_aerase_self _ _ hinv.keys_nd] at hgl
          cases hgl
        · rw [alookup_aerase_ne _ _ _ hgf] at hgl
          exact hinv.entry_len g h' hgl
      · intro g h' hgl t ht
        by_cases hgf : g = f
        · subst hgf
          rw [alookup_aerase_self _ _ hinv.keys_nd] at hgl
          cases hgl
        · rw [alookup_aerase_ne _ _ _ hgf] at hgl
          exact hinv.entry_ts g h' hgl t ht
      · intro g h' hgl
        by_cases hgf : g = f
        · subst hgf
          rw [alookup_aerase_self _ _ hinv.keys_nd] at hgl
          cases hgl
        · rw [alookup_aerase_ne _ _ _ hgf] at hgl
          exact hinv.entry_sorted g h' hgl
      · intro g hg
        have hg' : g ∈ (if h.access_times.length < s.k then
            s.history_list.filter (fun x => decide (x ≠ f)) else s.history_list) := hg
        rw [if_neg hsh] at hg'
        have hgf : g ≠ f := fun e => hfh (e ▸ hg')
        obtain ⟨h₂, hgl, hlt⟩ := hinv.hist_mem g hg'
        exact ⟨h₂, by rwa [alookup_aerase_ne _ _ _ hgf], hlt⟩
      · intro g hg
        have hg' : g ∈ (if h.access_times.length < s.k then s.cache_list
            else s.cache_list.filter (fun x => decide (x ≠ f))) := hg
        rw [if_neg hsh, mem_filter_ne] at hg'
        obtain ⟨hg', hgf⟩ := hg'
        obtain ⟨h₂, hgl, hge⟩ := hinv.cache_mem g hg'
        exact ⟨h₂, by rwa [alookup_aerase_ne _ _ _ hgf], hge⟩
      · intro g h' hgl hlt
        by_cases hgf : g = f
        · subst hgf
          rw [alookup_aerase_self _ _ hinv.keys_nd] at hgl
          cases hgl
        · rw [alookup_aerase_ne _ _ _ hgf] at hgl
          show g ∈ (if h.access_times.length < s.k then
              s.history_list.filter (fun x => decide (x ≠ f)) else s.history_list)
          rw [if_neg hsh]
          exact hinv.short_hist g h' hgl hlt
      · intro g h' hgl hge
        by_cases hgf : g = f
        · subst hgf
          rw [alookup_aerase_self _ _ hinv.keys_nd] at hgl
          cases hgl
        · rw [alookup_aerase_ne _ _ _ hgf] at hgl
          show g ∈ (if h.access_times.length < s.k then s.cache_list
              else s.cache_list.filter (fun x => decide (x ≠ f)))
          rw [if_neg hsh]
          exact mem_filter_ne.mpr ⟨hinv.long_cache g h' hgl hge, hgf⟩
      · have hcong : ∀ g ∈ s.history_list,
            firstTs (aerase s.frame_data f) g = firstTs s.frame_data g := by
          intro g hg
          have hgf : g ≠ f := fun e => hfh (e ▸ hg)
          simp [firstTs, alookup_aerase_ne _ _ _ hgf]
        show (if h.access_times.length < s.k then
            s.history_list.filter (fun x => decide (x ≠ f))
          else s.history_list).Pairwise (fun a b =>
            firstTs (aerase s.frame_data f) a < firstTs (aerase s.frame_data f) b)
        rw [if_neg hsh]
        refine hinv.hist_sorted.imp_of_mem ?_
        intro a b ha hb hab
        exact (hcong a ha).trans_lt (hab.trans_eq (hcong b hb).symm)

/-- `Evict` preserves the structural invariant: it is either a no-op or an
internal `Remove`. -/
theorem evict_rinv {s s' : RState} {r : Option Nat}
    (hr : evict s = (r, s')) (hinv : RInv s) : RInv s' := by
  rcases evict_cases hr with ⟨-, -, he⟩ | ⟨-, f, -, -, he⟩ | ⟨-, -, f, m, -, -, he⟩ |
    ⟨-, -, -, -, he⟩
  · subst he; exact hinv
  · subst he
    cases hrf : removeFrame s f with
    | none => simpa [hrf] using hinv
    | some s'' =>
      have := removeFrame_rinv hrf hinv
      simpa [hrf] using this
  · subst he
    cases hrf : removeFrame s f with
    | none => simpa [hrf] using hinv
    | some s'' =>
      have := removeFrame_rinv hrf hinv
      simpa [hrf] using this
  · subst he; exact hinv

/-- Every public operation leaves `k` (and `replacer_size`) unchanged. -/
theorem removeFrame_getD_k (s : RState) (f : Nat) :
    ((removeFrame s f).getD s).k = s.k := by
  cases hrf : removeFrame s f with
  | none => rfl
  | some s'' =>
    rcases removeFrame_cases hrf with ⟨-, he⟩ | ⟨h, -, -, he⟩ <;> subst he <;> rfl

theorem lruStep_k {s s' : RState} (h : LRUStep s s') : s'.k = s.k := by
  cases h with
  | record f hr =>
    obtain ⟨-, hc⟩ := recordAccess_cases hr
    rcases hc with ⟨-, he⟩ | ⟨-, -, he⟩ | ⟨-, -, he⟩ <;> subst he <;> rfl
  | setEv f b hr =>
    obtain ⟨-, hc⟩ := setEvictable_cases hr
    rcases hc with ⟨-, he⟩ | ⟨h, -, -, he⟩ | ⟨h, -, -, he⟩ <;> subst he <;> rfl
  | evictStep r hr =>
    rcases evict_cases hr with ⟨-, -, he⟩ | ⟨-, f, -, -, he⟩ | ⟨-, -, f, m, -, -, he⟩ |
      ⟨-, -, -, -, he⟩ <;> subst he
    · rfl
    · exact removeFrame_getD_k s f
    · exact removeFrame_getD_k s f
    · rfl
  | removeStep f hr =>
    rcases removeFrame_cases hr with ⟨-, he⟩ | ⟨h, -, -, he⟩ <;> subst he <;> rfl

/-- The invariant holds in the freshly constructed replacer. -/
theorem rinv_init (n k0 : Nat) : RInv (lruInit n k0) := by
  refine ⟨rfl, ?_, ?_, ?_, ?_, ?_, ?_, ?_, ?_, ?_, ?_, ?_, ?_⟩ <;>
    simp [lruInit, akeys, alookup]

/-- Every reachable state of a replacer constructed with `k ≥ 2` satisfies
the full structural invariant. -/
theorem reachable_rinv {s : RState} (hr : LRUReachable s) : 2 ≤ s.k → RInv s := by
  induction hr with
  | init n k0 => exact fun _ => rinv_init n k0
  | step hreach hstep ih =>
    intro hk
    have hk0 := (lruStep_k hstep) ▸ hk
    rcases hstep with ⟨f, hop⟩ | ⟨f, b, hop⟩ | ⟨r, hop⟩ | ⟨f, hop⟩
    · exact recordAccess_rinv hk0 hop (ih hk0)
    · exact setEvictable_rinv hop (ih hk0)
    · exact evict_rinv hop (ih hk0)
    · exact removeFrame_rinv hop (ih hk0)

/-! ### Small reachable demonstration states (used by the witnesses) -/

/-- `k = 2`: one access to frame 0. -/
theorem reachable_demo_a :
    LRUReachable (⟨1, 0, 2, 2, [(0, ⟨[1], false⟩)], [0], []⟩ : RState) :=
  LRUReachable.step (LRUReachable.init 2 2)
    (LRUStep.record 0 (by decide) :
      LRUStep (lruInit 2 2) ⟨1, 0, 2, 2, [(0, ⟨[1], false⟩)], [0], []⟩)

/-- `k = 2`: a second access moves frame 0 to the cache list. -/
theorem reachable_demo_b :
    LRUReachable (⟨2, 0, 2, 2, [(0, ⟨[1, 2], false⟩)], [], [0]⟩ : RState) :=
  LRUReachable.step reachable_demo_a
    (LRUStep.record 0 (by decide) :
      LRUStep ⟨1, 0, 2, 2, [(0, ⟨[1], false⟩)], [0], []⟩
        ⟨2, 0, 2, 2, [(0, ⟨[1, 2], false⟩)], [], [0]⟩)

/-- `k = 2`: frame 0 cached, frame 1 on the history list. -/
theorem reachable_demo_c :
    LRUReachable
      (⟨3, 0, 2, 2, [(0, ⟨[1, 2], false⟩), (1, ⟨[3], false⟩)], [1], [0]⟩ : RState) :=
  LRUReachable.step reachable_demo_b
    (LRUStep.record 1 (by decide) :
      LRUStep ⟨2, 0, 2, 2, [(0, ⟨[1, 2], false⟩)], [], [0]⟩
        ⟨3, 0, 2, 2, [(0, ⟨[1, 2], false⟩), (1, ⟨[3], false⟩)], [1], [0]⟩)

/-- `k = 2`: frame 0 accessed once and marked evictable. -/
theorem reachable_demo_d :
    LRUReachable (⟨1, 1, 2, 2, [(0, ⟨[1], true⟩)], [0], []⟩ : RState) :=
  LRUReachable.step reachable_demo_a
    (LRUStep.setEv 0 true (by decide) :
      LRUStep ⟨1, 0, 2, 2, [(0, ⟨[1], false⟩)], [0], []⟩
        ⟨1, 1, 2, 2, [(0, ⟨[1], true⟩)], [0], []⟩)

/-- `k = 1`: one access to frame 0. -/
theorem reachable_demo_k1a :
    LRUReachable (⟨1, 0, 2, 1, [(0, ⟨[1], false⟩)], [0], []⟩ : RState) :=
  LRUReachable.step (LRUReachable.init 2 1)
    (LRUStep.record 0 (by decide) :
      LRUStep (lruInit 2 1) ⟨1, 0, 2, 1, [(0, ⟨[1], false⟩)], [0], []⟩)

/-- `k = 1`: frame 0 accessed once and marked evictable. -/
theorem reachable_demo_k1b :
    LRUReachable (⟨1, 1, 2, 1, [(0, ⟨[1], true⟩)], [0], []⟩ : RState) :=
  LRUReachable.step reachable_demo_k1a
    (LRUStep.setEv 0 true (by decide) :
      LRUStep ⟨1, 0, 2, 1, [(0, ⟨[1], false⟩)], [0], []⟩
        ⟨1, 1, 2, 1, [(0, ⟨[1], true⟩)], [0], []⟩)

/-- `k = 1`: frames 0 and 1 tracked and evictable, frame 0 accessed twice
(timestamps 1 and 3), frame 1 once (timestamp 2); both sit on the history
list because with `k = 1` nothing ever moves to the cache list. -/
theorem reachable_demo_k1c :
    LRUReachable
      (⟨3, 2, 2, 1, [(0, ⟨[1, 3], true⟩), (1, ⟨[2], true⟩)], [0, 1], []⟩ : RState) :=
  LRUReachable.step
    (LRUReachable.step
      (LRUReachable.step
        (LRUReachable.step reachable_demo_k1a
          (LRUStep.record 1 (by decide) :
            LRUStep ⟨1, 0, 2, 1, [(0, ⟨[1], false⟩)], [0], []⟩
              ⟨2, 0, 2, 1, [(0, ⟨[1], false⟩), (1, ⟨[2], false⟩)], [0, 1], []⟩))
        (LRUStep.record 0 (by decide) :
          LRUStep ⟨2, 0, 2, 1, [(0, ⟨[1], false⟩), (1, ⟨[2], false⟩)], [0, 1], []⟩
            ⟨3, 0, 2, 1, [(0, ⟨[1, 3], false⟩), (1, ⟨[2], false⟩)], [0, 1], []⟩))
      (LRUStep.setEv 0 true (by decide) :
        LRUStep ⟨3, 0, 2, 1, [(0, ⟨[1, 3], false⟩), (1, ⟨[2], false⟩)], [0, 1], []⟩
          ⟨3, 1, 2, 1, [(0, ⟨[1, 3], true⟩), (1, ⟨[2], false⟩)], [0, 1], []⟩))
    (LRUStep.setEv 1 true (by decide) :
      LRUStep ⟨3, 1, 2, 1, [(0, ⟨[1, 3], true⟩), (1, ⟨[2], false⟩)], [0, 1], []⟩
        ⟨3, 2, 2, 1, [(0, ⟨[1, 3], true⟩), (1, ⟨[2], true⟩)], [0, 1], []⟩)

/-! ### Claims C3, C4, C9, C7 -/

/-- C3: after every public operation on the LRUKReplacer, `curr_size` equals
the number of tracked frames whose `is_evictable` flag is true, and `Size()`
returns this `curr_size`. -/
theorem c3_size_counts_evictable (s : RState) (hr : LRUReachable s) :
    s.curr_size = countEv s.frame_data ∧ lruSize s = s.curr_size :=
  ⟨reachable_countEv hr, rfl⟩

theorem c3_size_counts_evictable_witness :
    (⟨1, 1, 2, 2, [(0, ⟨[1], true⟩)], [0], []⟩ : RState).curr_size
      = countEv (⟨1, 1, 2, 2, [(0, ⟨[1], true⟩)], [0], []⟩ : RState).frame_data ∧
    lruSize ⟨1, 1, 2, 2, [(0, ⟨[1], true⟩)], [0], []⟩
      = (⟨1, 1, 2, 2, [(0, ⟨[1], true⟩)], [0], []⟩ : RState).curr_size :=
  c3_size_counts_evictable _ reachable_demo_d

/-- C4 counterexample: with `k = 1` (the claim quantifies over every
`k ≥ 1`), the very first `RecordAccess` of frame 0 brings its access count to
exactly `K = 1`, yet the frame is placed on the history list and not on the
cache list — `RecordAccess` returns through the first-access branch before
the `size == k_` check. -/
theorem c4_counterexample_k1 :
    (lruInit 2 1).k = 1 ∧
    recordAccess (lruInit 2 1) 0
      = some ⟨1, 0, 2, 1, [(0, ⟨[1], false⟩)], [0], []⟩ ∧
    LRUReachable (⟨1, 0, 2, 1, [(0, ⟨[1], false⟩)], [0], []⟩ : RState) ∧
    alookup (⟨1, 0, 2, 1, [(0, ⟨[1], false⟩)], [0], []⟩ : RState).frame_data 0
      = some ⟨[1], false⟩ ∧
    (⟨[1], false⟩ : AccessHistory).access_times.length
      = (⟨1, 0, 2, 1, [(0, ⟨[1], false⟩)], [0], []⟩ : RState).k ∧
    0 ∉ (⟨1, 0, 2, 1, [(0, ⟨[1], false⟩)], [0], []⟩ : RState).cache_list ∧
    0 ∈ (⟨1, 0, 2, 1, [(0, ⟨[1], false⟩)], [0], []⟩ : RState).history_list :=
  ⟨by decide, by decide, reachable_demo_k1a, by decide, by decide, by decide, by decide⟩

/-- C4 (amended to `k ≥ 2`): in every reachable replacer state a tracked
frame is on the cache list iff it has at least `k` recorded accesses, and on
the history list iff it has fewer than `k`; in particular the `RecordAccess`
that brings the count to exactly `k` moves the frame from the history list
to the cache list. -/
theorem c4_amended_cache_iff (s : RState) (hr : LRUReachable s) (hk : 2 ≤ s.k) :
    ∀ f h, alookup s.frame_data f = some h →
      ((f ∈ s.cache_list ↔ s.k ≤ h.access_times.length) ∧
       (f ∈ s.history_list ↔ h.access_times.length < s.k)) := by
  have hinv := reachable_rinv hr hk
  intro f h hl
  constructor
  · constructor
    · intro hmem
      obtain ⟨h₂, hgl, hge⟩ := hinv.cache_mem f hmem
      rw [hl] at hgl
      cases hgl
      exact hge
    · exact hinv.long_cache f h hl
  · constructor
    · intro hmem
      obtain ⟨h₂, hgl, hlt⟩ := hinv.hist_mem f hmem
      rw [hl] at hgl
      cases hgl
      exact hlt
    · exact hinv.short_hist f h hl

theorem c4_amended_cache_iff_witness :
    (0 ∈ (⟨2, 0, 2, 2, [(0, ⟨[1, 2], false⟩)], [], [0]⟩ : RState).cache_list ↔
       (⟨2, 0, 2, 2, [(0, ⟨[1, 2], false⟩)], [], [0]⟩ : RState).k
         ≤ (⟨[1, 2], false⟩ : AccessHistory).access_times.length) ∧
    (0 ∈ (⟨2, 0, 2, 2, [(0, ⟨[1, 2], false⟩)], [], [0]⟩ : RState).history_list ↔
       (⟨[1, 2], false⟩ : AccessHistory).access_times.length
         < (⟨2, 0, 2, 2, [(0, ⟨[1, 2], false⟩)], [], [0]⟩ : RState).k) :=
  c4_amended_cache_iff _ reachable_demo_b (by decide) 0 ⟨[1, 2], false⟩ (by decide)

/-- C9: for a replacer constructed with `k ≥ 2`, after any sequence of
public operations the three containers are coherent: every listed frame is
tracked in `frame_data_`, every tracked frame is on exactly one of the two
lists, and no frame id occurs twice across the lists. -/
theorem c9_container_coherence (s : RState) (hr : LRUReachable s) (hk : 2 ≤ s.k) :
    (∀ f ∈ s.history_list, (alookup s.frame_data f).isSome) ∧
    (∀ f ∈ s.cache_list, (alookup s.frame_data f).isSome) ∧
    (∀ f h, alookup s.frame_data f = some h →
       f ∈ s.history_list ∨ f ∈ s.cache_list) ∧
    (∀ f, ¬(f ∈ s.history_list ∧ f ∈ s.cache_list)) ∧
    s.history_list.Nodup ∧ s.cache_list.Nodup := by
  have hinv := reachable_rinv hr hk
  refine ⟨?_, ?_, ?_, ?_, hinv.hist_nd, hinv.cache_nd⟩
  · intro f hf
    obtain ⟨h, hl, -⟩ := hinv.hist_mem f hf
    simp [hl]
  · intro f hf
    obtain ⟨h, hl, -⟩ := hinv.cache_mem f hf
    simp [hl]
  · intro f h hl
    by_cases hlt : h.access_times.length < s.k
    · exact Or.inl (hinv.short_hist f h hl hlt)
    · exact Or.inr (hinv.long_cache f h hl (by omega))
  · rintro f ⟨hh, hc⟩
    obtain ⟨h₁, hl₁, hlt⟩ := hinv.hist_mem f hh
    obtain ⟨h₂, hl₂, hge⟩ := hinv.cache_mem f hc
    rw [hl₁] at hl₂
    cases hl₂
    omega

theorem c9_container_coherence_witness :
    (∀ f ∈ (⟨3, 0, 2, 2, [(0, ⟨[1, 2], false⟩), (1, ⟨[3], false⟩)], [1], [0]⟩ :
        RState).history_list,
      (alookup (⟨3, 0, 2, 2, [(0, ⟨[1, 2], false⟩), (1, ⟨[3], false⟩)], [1], [0]⟩ :
        RState).frame_data f).isSome) ∧
    (∀ f ∈ (⟨3, 0, 2, 2, [(0, ⟨[1, 2], false⟩), (1, ⟨[3], false⟩)], [1], [0]⟩ :
        RState).cache_list,
      (alookup (⟨3, 0, 2, 2, [(0, ⟨[1, 2], false⟩), (1, ⟨[3], false⟩)], [1], [0]⟩ :
        RState).frame_data f).isSome) ∧
    (∀ f h, alookup (⟨3, 0, 2, 2, [(0, ⟨[1, 2], false⟩), (1, ⟨[3], false⟩)], [1], [0]⟩ :
        RState).frame_data f = some h →
      f ∈ (⟨3, 0, 2, 2, [(0, ⟨[1, 2], false⟩), (1, ⟨[3], false⟩)], [1], [0]⟩ :
        RState).history_list ∨
      f ∈ (⟨3, 0, 2, 2, [(0, ⟨[1, 2], false⟩), (1, ⟨[3], false⟩)], [1], [0]⟩ :
        RState).cache_list) ∧
    (∀ f, ¬(f ∈ (⟨3, 0, 2, 2, [(0, ⟨[1, 2], false⟩), (1, ⟨[3], false⟩)], [1], [0]⟩ :
        RState).history_list ∧
      f ∈ (⟨3, 0, 2, 2, [(0, ⟨[1, 2], false⟩), (1, ⟨[3], false⟩)], [1], [0]⟩ :
        RState).cache_list)) ∧
    (⟨3, 0, 2, 2, [(0, ⟨[1, 2], false⟩), (1, ⟨[3], false⟩)], [1], [0]⟩ :
        RState).history_list.Nodup ∧
    (⟨3, 0, 2, 2, [(0, ⟨[1, 2], false⟩), (1, ⟨[3], false⟩)], [1], [0]⟩ :
        RState).cache_list.Nodup :=
  c9_container_coherence _ reachable_demo_c (by decide)

/-- C7 counterexample: with `k = 1` (the claim quantifies over every
replacer), removing an evictable tracked frame takes the cache-list branch
(`access_times.size() < k_` is false at `1 < 1`), so the frame id stays on
the history list that actually contains it, while its map entry is erased
and `curr_size` is decremented. -/
theorem c7_counterexample_k1 :
    LRUReachable (⟨1, 1, 2, 1, [(0, ⟨[1], true⟩)], [0], []⟩ : RState) ∧
    alookup (⟨1, 1, 2, 1, [(0, ⟨[1], true⟩)], [0], []⟩ : RState).frame_data 0
      = some ⟨[1], true⟩ ∧
    (⟨[1], true⟩ : AccessHistory).is_evictable = true ∧
    0 ∈ (⟨1, 1, 2, 1, [(0, ⟨[1], true⟩)], [0], []⟩ : RState).history_list ∧
    removeFrame ⟨1, 1, 2, 1, [(0, ⟨[1], true⟩)], [0], []⟩ 0
      = some ⟨1, 0, 2, 1, [], [0], []⟩ ∧
    0 ∈ (⟨1, 0, 2, 1, [], [0], []⟩ : RState).history_list :=
  ⟨reachable_demo_k1b, by decide, by decide, by decide, by decide, by decide⟩

/-- C7 (amended to `k ≥ 2`): `Remove` is a no-op on an unknown frame; on a
tracked non-evictable frame it raises (returning with the state unchanged);
on a tracked evictable frame it deletes the id from whichever list contains
it, erases the map entry, and decrements `curr_size` by one, leaving every
other frame untouched. -/
theorem c7_amended_remove_contract (s : RState) (hr : LRUReachable s)
    (hk : 2 ≤ s.k) (f : Nat) :
    (alookup s.frame_data f = none → removeFrame s f = some s) ∧
    (∀ h, alookup s.frame_data f = some h → h.is_evictable = false →
       removeFrame s f = none) ∧
    (∀ h, alookup s.frame_data f = some h → h.is_evictable = true →
       ∃ s', removeFrame s f = some s' ∧
         alookup s'.frame_data f = none ∧
         f ∉ s'.history_list ∧ f ∉ s'.cache_list ∧
         (∀ g, g ≠ f → alookup s'.frame_data g = alookup s.frame_data g) ∧
         (∀ g, g ≠ f → (g ∈ s'.history_list ↔ g ∈ s.history_list)) ∧
         (∀ g, g ≠ f → (g ∈ s'.cache_list ↔ g ∈ s.cache_list)) ∧
         s'.curr_size + 1 = s.curr_size) := by
  have hinv := reachable_rinv hr hk
  refine ⟨?_, ?_, ?_⟩
  · intro hl
    simp [removeFrame, hl]
  · intro h hl hev
    simp [removeFrame, hl, hev]
  · intro h hl hev
    refine ⟨{ s with
        history_list := if h.access_times.length < s.k then
            s.history_list.filter (fun g => decide (g ≠ f)) else s.history_list,
        cache_list := if h.access_times.length < s.k then s.cache_list
            else s.cache_list.filter (fun g => decide (g ≠ f)),
        frame_data := aerase s.frame_data f,
        curr_size := s.curr_size - 1 },
      by simp [removeFrame, hl, hev], ?_, ?_, ?_, ?_, ?_, ?_, ?_⟩
    · exact alookup_aerase_self _ _ hinv.keys_nd
    · show f ∉ (if h.access_times.length < s.k then
          s.history_list.filter (fun g => decide (g ≠ f)) else s.history_list)
      by_cases hsh : h.access_times.length < s.k
      · rw [if_pos hsh]
        intro hmem
        exact absurd rfl (mem_filter_ne.mp hmem).2
      · rw [if_neg hsh]
        intro hmem
        obtain ⟨h₂, hgl, hlt⟩ := hinv.hist_mem f hmem
        rw [hl] at hgl
        cases hgl
        omega
    · show f ∉ (if h.access_times.length < s.k then s.cache_list
          else s.cache_list.filter (fun g => decide (g ≠ f)))
      by_cases hsh : h.access_times.length < s.k
      · rw [if_pos hsh]
        intro hmem
        obtain ⟨h₂, hgl, hge⟩ := hinv.cache_mem f hmem
        rw [hl] at hgl
        cases hgl
        omega
      · rw [if_neg hsh]
        intro hmem
        exact absurd rfl (mem_filter_ne.mp hmem).2
    · intro g hgf
      exact alookup_aerase_ne _ _ _ hgf
    · intro g hgf
      show g ∈ (if h.access_times.length < s.k then
          s.history_list.filter (fun x => decide (x ≠ f)) else s.history_list)
        ↔ g ∈ s.history_list
      by_cases hsh : h.access_times.length < s.k
      · rw [if_pos hsh]
        constructor
        · intro hmem
          exact (mem_filter_ne.mp hmem).1
        · intro hmem
          exact mem_filter_ne.mpr ⟨hmem, hgf⟩
      · rw [if_neg hsh]
    · intro g hgf
      show g ∈ (if h.access_times.length < s.k then s.cache_list
          else s.cache_list.filter (fun x => decide (x ≠ f))) ↔ g ∈ s.cache_list
      by_cases hsh : h.access_times.length < s.k
      · rw [if_pos hsh]
      · rw [if_neg hsh]
        constructor
        · intro hmem
          exact (mem_filter_ne.mp hmem).1
        · intro hmem
          exact mem_filter_ne.mpr ⟨hmem, hgf⟩
    · show (s.curr_size - 1) + 1 = s.curr_size
      have hpos := countEv_pos s.frame_data f h hl hev
      have hsz := hinv.size_eq
      omega

theorem c7_amended_remove_contract_witness :
    (alookup (⟨1, 1, 2, 2, [(0, ⟨[1], true⟩)], [0], []⟩ : RState).frame_data 0
       = none → removeFrame ⟨1, 1, 2, 2, [(0, ⟨[1], true⟩)], [0], []⟩ 0
       = some ⟨1, 1, 2, 2, [(0, ⟨[1], true⟩)], [0], []⟩) ∧
    (∀ h, alookup (⟨1, 1, 2, 2, [(0, ⟨[1], true⟩)], [0], []⟩ : RState).frame_data 0
       = some h → h.is_evictable = false →
       removeFrame ⟨1, 1, 2, 2, [(0, ⟨[1], true⟩)], [0], []⟩ 0 = none) ∧
    (∀ h, alookup (⟨1, 1, 2, 2, [(0, ⟨[1], true⟩)], [0], []⟩ : RState).frame_data 0
       = some h → h.is_evictable = true →
       ∃ s', removeFrame ⟨1, 1, 2, 2, [(0, ⟨[1], true⟩)], [0], []⟩ 0 = some s' ∧
         alookup s'.frame_data 0 = none ∧
         0 ∉ s'.history_list ∧ 0 ∉ s'.cache_list ∧
         (∀ g, g ≠ 0 → alookup s'.frame_data g
            = alookup (⟨1, 1, 2, 2, [(0, ⟨[1], true⟩)], [0], []⟩ :
                RState).frame_data g) ∧
         (∀ g, g ≠ 0 → (g ∈ s'.history_list ↔
            g ∈ (⟨1, 1, 2, 2, [(0, ⟨[1], true⟩)], [0], []⟩ : RState).history_list)) ∧
         (∀ g, g ≠ 0 → (g ∈ s'.cache_list ↔
            g ∈ (⟨1, 1, 2, 2, [(0, ⟨[1], true⟩)], [0], []⟩ : RState).cache_list)) ∧
         s'.curr_size + 1
           = (⟨1, 1, 2, 2, [(0, ⟨[1], true⟩)], [0], []⟩ : RState).curr_size) :=
  c7_amended_remove_contract _ reachable_demo_d (by decide) 0

/-! ### Characterisation of the two victim scans of `Evict` -/

/-- `find?` returns the first element satisfying the predicate: the list
splits around the result and everything before it fails the predicate. -/
theorem find?_eq_some_split {p : Nat → Bool} {l : List Nat} {f : Nat}
    (h : l.find? p = some f) :
    p f = true ∧ ∃ l₁ l₂, l = l₁ ++ f :: l₂ ∧ ∀ g ∈ l₁, p g = false := by
  induction l with
  | nil => simp [List.find?] at h
  | cons a t ih =>
    by_cases hp : p a
    · rw [List.find?_cons_of_pos _ hp] at h
      cases h
      exact ⟨hp, [], t, rfl, by simp⟩
    · rw [List.find?_cons_of_neg _ (by simpa using hp)] at h
      obtain ⟨hpf, l₁, l₂, heq, hall⟩ := ih h
      refine ⟨hpf, a :: l₁, l₂, by simp [heq], ?_⟩
      intro g hg
      rcases List.mem_cons.mp hg with rfl | hg
      · simpa using hp
      · exact hall g hg

/-- The cache scan started from a candidate `g₀` either keeps `g₀` (nothing
scanned later had a strictly larger difference) or ends at the first frame
strictly exceeding everything before it. -/
theorem scan_foldl_some {s : RState} :
    ∀ (l : List Nat) (g₀ f m : Nat),
      l.foldl (scanStep s) (some (g₀, timeDiff s g₀)) = some (f, m) →
      (f = g₀ ∧ m = timeDiff s g₀ ∧
         ∀ g ∈ l, evictableOf s g = true → timeDiff s g ≤ m) ∨
      (m = timeDiff s f ∧ evictableOf s f = true ∧ timeDiff s g₀ < m ∧
         ∃ l₁ l₂, l = l₁ ++ f :: l₂ ∧
           (∀ g ∈ l₁, evictableOf s g = true → timeDiff s g < m) ∧
           (∀ g ∈ l₂, evictableOf s g = true → timeDiff s g ≤ m)) := by
  intro l
  induction l with
  | nil =>
    intro g₀ f m h
    simp only [List.foldl_nil, Option.some.injEq, Prod.mk.injEq] at h
    exact Or.inl ⟨h.1.symm, h.2.symm, by simp⟩
  | cons a t ih =>
    intro g₀ f m h
    simp only [List.foldl_cons] at h
    by_cases hev : evictableOf s a
    · by_cases hlt : timeDiff s g₀ < timeDiff s a
      · have h' : t.foldl (scanStep s) (some (a, timeDiff s a)) = some (f, m) := by
          simpa [scanStep, hev, hlt] using h
        rcases ih a f m h' with ⟨rfl, hm, hall⟩ | ⟨hm, hevf, hgt, l₁, l₂, heq, h₁, h₂⟩
        · right
          refine ⟨hm, hev, hm ▸ hlt, [], t, rfl, by simp, hall⟩
        · right
          refine ⟨hm, hevf, lt_trans hlt hgt, a :: l₁, l₂, by simp [heq], ?_, h₂⟩
          intro g hg
          rcases List.mem_cons.mp hg with rfl | hg
          · intro _
            exact hgt
          · exact h₁ g hg
      · have h' : t.foldl (scanStep s) (some (g₀, timeDiff s g₀)) = some (f, m) := by
          simpa [scanStep, hev, hlt] using h
        rcases ih g₀ f m h' with ⟨rfl, hm, hall⟩ | ⟨hm, hevf, hgt, l₁, l₂, heq, h₁, h₂⟩
        · left
          refine ⟨rfl, hm, ?_⟩
          intro g hg hge
          rcases List.mem_cons.mp hg with rfl | hg
          · omega
          · exact hall g hg hge
        · right
          refine ⟨hm, hevf, hgt, a :: l₁, l₂, by simp [heq], ?_, h₂⟩
          intro g hg
          rcases List.mem_cons.mp hg with rfl | hg
          · intro _
            omega
          · exact h₁ g hg
    · have h' : t.foldl (scanStep s) (some (g₀, timeDiff s g₀)) = some (f, m) := by
        simpa [scanStep, hev] using h
      rcases ih g₀ f m h' with ⟨rfl, hm, hall⟩ | ⟨hm, hevf, hgt, l₁, l₂, heq, h₁, h₂⟩
      · left
        refine ⟨rfl, hm, ?_⟩
        intro g hg hge
        rcases List.mem_cons.mp hg with rfl | hg
        · exact absurd hge (by simpa using hev)
        · exact hall g hg hge
      · right
        refine ⟨hm, hevf, hgt, a :: l₁, l₂, by simp [heq], ?_, h₂⟩
        intro g hg
        rcases List.mem_cons.mp hg with rfl | hg
        · intro hge
          exact absurd hge (by simpa using hev)
        · exact h₁ g hg

/-- The cache scan of `Evict` returns the first evictable frame attaining
the maximal `time_diff` (strict comparison: later ties do not displace the
current candidate). -/
theorem scan_foldl_from_none {s : RState} :
    ∀ (l : List Nat) (f m : Nat),
      l.foldl (scanStep s) none = some (f, m) →
      m = timeDiff s f ∧ evictableOf s f = true ∧
      ∃ l₁ l₂, l = l₁ ++ f :: l₂ ∧
        (∀ g ∈ l₁, evictableOf s g = true → timeDiff s g < m) ∧
        (∀ g ∈ l₂, evictableOf s g = true → timeDiff s g ≤ m) := by
  intro l
  induction l with
  | nil =>
    intro f m h
    simp at h
  | cons a t ih =>
    intro f m h
    simp only [List.foldl_cons] at h
    by_cases hev : evictableOf s a
    · have h' : t.foldl (scanStep s) (some (a, timeDiff s a)) = some (f, m) := by
        simpa [scanStep, hev] using h
      rcases scan_foldl_some t a f m h' with ⟨rfl, hm, hall⟩ |
        ⟨hm, hevf, hgt, l₁, l₂, heq, h₁, h₂⟩
      · exact ⟨hm, hev, [], t, rfl, by simp, hall⟩
      · refine ⟨hm, hevf, a :: l₁, l₂, by simp [heq], ?_, h₂⟩
        intro g hg
        rcases List.mem_cons.mp hg with rfl | hg
        · intro _
          exact hgt
        · exact h₁ g hg
    · have h' : t.foldl (scanStep s) none = some (f, m) := by
        simpa [scanStep, hev] using h
      obtain ⟨hm, hevf, l₁, l₂, heq, h₁, h₂⟩ := ih f m h'
      refine ⟨hm, hevf, a :: l₁, l₂, by simp [heq], ?_, h₂⟩
      intro g hg
      rcases List.mem_cons.mp hg with rfl | hg
      · intro hge
        exact absurd hge (by simpa using hev)
      · exact h₁ g hg

/-- Once the cache scan holds a candidate it never loses it. -/
theorem scan_foldl_isSome_acc {s : RState} :
    ∀ (l : List Nat) (p : Nat × Nat), (l.foldl (scanStep s) (some p)).isSome := by
  intro l
  induction l with
  | nil => intro p; rfl
  | cons a t ih =>
    intro p
    simp only [List.foldl_cons]
    rcases hstep : scanStep s (some p) a with - | q
    · exfalso
      obtain ⟨g, m⟩ := p
      by_cases hev : evictableOf s a <;> by_cases hlt : m < timeDiff s a <;>
        simp [scanStep, hev, hlt] at hstep
    · exact ih q

/-- If some scanned frame is evictable the cache scan yields a candidate. -/
theorem scan_foldl_mem_some {s : RState} :
    ∀ (l : List Nat) (e : Nat), e ∈ l → evictableOf s e = true →
      (l.foldl (scanStep s) none).isSome := by
  intro l
  induction l with
  | nil =>
    intro e he
    simp at he
  | cons a t ih =>
    intro e he hev
    simp only [List.foldl_cons]
    by_cases heva : evictableOf s a
    · have hstep : scanStep s none a = some (a, timeDiff s a) := by
        simp [scanStep, heva]
      rw [hstep]
      exact scan_foldl_isSome_acc t _
    · have hstep : scanStep s none a = none := by simp [scanStep, heva]
      rw [hstep]
      rcases List.mem_cons.mp he with rfl | he'
      · exact absurd hev (by simpa using heva)
      · exact ih e he' hev

/-- In a state with duplicate-free map keys, a positive evictable count
yields a tracked evictable frame. -/
theorem countEv_exists (l : List (Nat × AccessHistory)) (hnd : (akeys l).Nodup)
    (hpos : 1 ≤ countEv l) :
    ∃ f h, alookup l f = some h ∧ h.is_evictable = true := by
  induction l with
  | nil => simp [countEv] at hpos
  | cons p t ih =>
    by_cases hev : p.2.is_evictable
    · exact ⟨p.1, p.2, by simp [alookup], hev⟩
    · simp only [akeys, List.map_cons, List.nodup_cons] at hnd
      have hpos' : 1 ≤ countEv t := by
        simpa [countEv, List.filter_cons, hev] using hpos
      obtain ⟨f, h, hl, hev'⟩ := ih hnd.2 hpos'
      have hmem : f ∈ akeys t := by
        by_contra hmem
        rw [← alookup_eq_none_iff] at hmem
        simp [hmem] at hl
      have hpf : ¬ p.1 = f := by
        intro e
        subst e
        exact hnd.1 (by simpa [akeys] using hmem)
      exact ⟨f, h, by simp [alookup, hpf, hl], hev'⟩

/-! ### Claim C2 -/

/-- C2 counterexample: with `k = 1`, every tracked frame has at least
`K = 1` recorded accesses, so the claimed policy must evict the frame with
the largest backward K-distance — frame 1 — but the code scans the history
list (which with `k = 1` holds every frame) and evicts frame 0, the
earliest-first-accessed one. -/
theorem c2_counterexample_k1 :
    LRUReachable
      (⟨3, 2, 2, 1, [(0, ⟨[1, 3], true⟩), (1, ⟨[2], true⟩)], [0, 1], []⟩ : RState) ∧
    (⟨3, 2, 2, 1, [(0, ⟨[1, 3], true⟩), (1, ⟨[2], true⟩)], [0, 1], []⟩ :
      RState).curr_size ≠ 0 ∧
    (∀ p ∈ (⟨3, 2, 2, 1, [(0, ⟨[1, 3], true⟩), (1, ⟨[2], true⟩)], [0, 1], []⟩ :
        RState).frame_data,
      (⟨3, 2, 2, 1, [(0, ⟨[1, 3], true⟩), (1, ⟨[2], true⟩)], [0, 1], []⟩ :
        RState).k ≤ p.2.access_times.length) ∧
    evictableOf ⟨3, 2, 2, 1, [(0, ⟨[1, 3], true⟩), (1, ⟨[2], true⟩)], [0, 1], []⟩ 0
      = true ∧
    evictableOf ⟨3, 2, 2, 1, [(0, ⟨[1, 3], true⟩), (1, ⟨[2], true⟩)], [0, 1], []⟩ 1
      = true ∧
    timeDiff ⟨3, 2, 2, 1, [(0, ⟨[1, 3], true⟩), (1, ⟨[2], true⟩)], [0, 1], []⟩ 0
      < timeDiff ⟨3, 2, 2, 1, [(0, ⟨[1, 3], true⟩), (1, ⟨[2], true⟩)], [0, 1], []⟩ 1 ∧
    (evict ⟨3, 2, 2, 1, [(0, ⟨[1, 3], true⟩), (1, ⟨[2], true⟩)], [0, 1], []⟩).1
      = some 0 :=
  ⟨reachable_demo_k1c, by decide, by decide, by decide, by decide, by decide,
   by decide⟩

/-- Removing a tracked evictable frame succeeds, erases the entry, and
decrements `curr_size` by exactly one. -/
theorem removeFrame_spec (s : RState) (hinv : RInv s) (f : Nat)
    (h : AccessHistory) (hl : alookup s.frame_data f = some h)
    (hev : h.is_evictable = true) :
    ∃ s', removeFrame s f = some s' ∧ alookup s'.frame_data f = none ∧
      s'.curr_size + 1 = s.curr_size := by
  refine ⟨{ s with
      history_list := if h.access_times.length < s.k then
          s.history_list.filter (fun g => decide (g ≠ f)) else s.history_list,
      cache_list := if h.access_times.length < s.k then s.cache_list
          else s.cache_list.filter (fun g => decide (g ≠ f)),
      frame_data := aerase s.frame_data f,
      curr_size := s.curr_size - 1 },
    by simp [removeFrame, hl, hev], ?_, ?_⟩
  · exact alookup_aerase_self _ _ hinv.keys_nd
  · show (s.curr_size - 1) + 1 = s.curr_size
    have hpos := countEv_pos s.frame_data f h hl hev
    have hsz := hinv.size_eq
    omega

/-- C2 (amended to `k ≥ 2`): `Evict` returns none when `curr_size = 0`;
otherwise it removes and returns a victim: the earliest-first-accessed
evictable frame among those with fewer than `K` accesses when one exists
(realised by the in-order history scan), else the evictable frame with at
least `K` accesses maximising `current_timestamp - access_times[size - K]`. -/
theorem c2_amended_evict_policy (s : RState) (hr : LRUReachable s) (hk : 2 ≤ s.k) :
    (s.curr_size = 0 → evict s = (none, s)) ∧
    (s.curr_size ≠ 0 →
      ∃ f s', evict s = (some f, s') ∧ removeFrame s f = some s' ∧
        evictableOf s f = true ∧ alookup s'.frame_data f = none ∧
        s'.curr_size + 1 = s.curr_size ∧
        ((∃ g hg, alookup s.frame_data g = some hg ∧
            hg.access_times.length < s.k ∧ evictableOf s g = true) →
          f ∈ s.history_list ∧
          (∃ h, alookup s.frame_data f = some h ∧ h.access_times.length < s.k) ∧
          (∀ g hg, alookup s.frame_data g = some hg →
            hg.access_times.length < s.k → evictableOf s g = true →
            firstTs s.frame_data f ≤ firstTs s.frame_data g)) ∧
        ((∀ g hg, alookup s.frame_data g = some hg →
            hg.access_times.length < s.k → evictableOf s g = false) →
          f ∈ s.cache_list ∧
          (∃ h, alookup s.frame_data f = some h ∧ s.k ≤ h.access_times.length) ∧
          (∀ g hg, alookup s.frame_data g = some hg →
            s.k ≤ hg.access_times.length → evictableOf s g = true →
            timeDiff s g ≤ timeDiff s f))) := by
  have hinv := reachable_rinv hr hk
  refine ⟨fun hz => by simp [evict, hz], ?_⟩
  intro hz
  have hpos : 1 ≤ countEv s.frame_data := by
    have := hinv.size_eq
    omega
  obtain ⟨e, eh, hel, hee⟩ := countEv_exists s.frame_data hinv.keys_nd hpos
  have heve : evictableOf s e = true := by simp [evictableOf, historyOf, hel, hee]
  cases hf : s.history_list.find? (fun g => evictableOf s g) with
  | some f =>
    obtain ⟨hpf, l₁, l₂, heq, hall⟩ := find?_eq_some_split hf
    have hfhist : f ∈ s.history_list := by
      rw [heq]
      simp
    obtain ⟨h, hfl, hflt⟩ := hinv.hist_mem f hfhist
    have hevf2 : h.is_evictable = true := by
      simpa [evictableOf, historyOf, hfl] using hpf
    obtain ⟨s', hrf, hnone, hsz⟩ := removeFrame_spec s hinv f h hfl hevf2
    refine ⟨f, s', by simp [evict, hz, hf, hrf], hrf, hpf, hnone, hsz, ?_, ?_⟩
    · intro _
      refine ⟨hfhist, ⟨h, hfl, hflt⟩, ?_⟩
      intro g hg hgl hglt hevg
      have hghist : g ∈ s.history_list := hinv.short_hist g hg hgl hglt
      rw [heq] at hghist
      rcases List.mem_append.mp hghist with hg1 | hg2
      · exact absurd hevg (by simp [hall g hg1])
      · rcases List.mem_cons.mp hg2 with rfl | hg2
        · exact le_refl _
        · have hsorted := hinv.hist_sorted
          rw [heq] at hsorted
          have hps := (List.pairwise_append.mp hsorted).2.1
          exact le_of_lt ((List.pairwise_cons.mp hps).1 g hg2)
    · intro hnone2
      exact absurd hpf (by simp [hnone2 f h hfl hflt])
  | none =>
    have hallhist : ∀ g ∈ s.history_list, ¬ evictableOf s g = true :=
      List.find?_eq_none.mp hf
    have hecache : e ∈ s.cache_list := by
      have hls : e ∈ s.history_list ∨ e ∈ s.cache_list := by
        by_cases hlen : eh.access_times.length < s.k
        · exact Or.inl (hinv.short_hist e eh hel hlen)
        · exact Or.inr (hinv.long_cache e eh hel (by omega))
      rcases hls with hh | hc
      · exact absurd heve (hallhist e hh)
      · exact hc
    have hsome := scan_foldl_mem_some s.cache_list e hecache heve
    obtain ⟨⟨f, m⟩, hscan⟩ := Option.isSome_iff_exists.mp hsome
    obtain ⟨hm, hevf, l₁, l₂, heq, h₁, h₂⟩ := scan_foldl_from_none s.cache_list f m hscan
    have hfcache : f ∈ s.cache_list := by
      rw [heq]
      simp
    obtain ⟨h, hfl, hfge⟩ := hinv.cache_mem f hfcache
    have hevf2 : h.is_evictable = true := by
      simpa [evictableOf, historyOf, hfl] using hevf
    obtain ⟨s', hrf, hnone, hsz⟩ := removeFrame_spec s hinv f h hfl hevf2
    refine ⟨f, s', by simp [evict, hz, hf, hscan, hrf], hrf, hevf, hnone, hsz, ?_, ?_⟩
    · rintro ⟨g, hg, hgl, hglt, hevg⟩
      exact absurd hevg (hallhist g (hinv.short_hist g hg hgl hglt))
    · intro _
      refine ⟨hfcache, ⟨h, hfl, hfge⟩, ?_⟩
      intro g hg hgl hgge hevg
      have hgcache : g ∈ s.cache_list := hinv.long_cache g hg hgl hgge
      rw [heq] at hgcache
      rcases List.mem_append.mp hgcache with hg1 | hg2
      · exact le_of_lt (hm ▸ h₁ g hg1 hevg)
      · rcases List.mem_cons.mp hg2 with rfl | hg2
        · exact le_refl _
        · exact hm ▸ h₂ g hg2 hevg

theorem c2_amended_evict_policy_witness :
    ∃ f s', evict ⟨1, 1, 2, 2, [(0, ⟨[1], true⟩)], [0], []⟩ = (some f, s') ∧
      removeFrame ⟨1, 1, 2, 2, [(0, ⟨[1], true⟩)], [0], []⟩ f = some s' ∧
      evictableOf ⟨1, 1, 2, 2, [(0, ⟨[1], true⟩)], [0], []⟩ f = true ∧
      alookup s'.frame_data f = none ∧
      s'.curr_size + 1
        = (⟨1, 1, 2, 2, [(0, ⟨[1], true⟩)], [0], []⟩ : RState).curr_size ∧
      ((∃ g hg, alookup (⟨1, 1, 2, 2, [(0, ⟨[1], true⟩)], [0], []⟩ :
            RState).frame_data g = some hg ∧
          hg.access_times.length
            < (⟨1, 1, 2, 2, [(0, ⟨[1], true⟩)], [0], []⟩ : RState).k ∧
          evictableOf ⟨1, 1, 2, 2, [(0, ⟨[1], true⟩)], [0], []⟩ g = true) →
        f ∈ (⟨1, 1, 2, 2, [(0, ⟨[1], true⟩)], [0], []⟩ : RState).history_list ∧
        (∃ h, alookup (⟨1, 1, 2, 2, [(0, ⟨[1], true⟩)], [0], []⟩ :
            RState).frame_data f = some h ∧
          h.access_times.length
            < (⟨1, 1, 2, 2, [(0, ⟨[1], true⟩)], [0], []⟩ : RState).k) ∧
        (∀ g hg, alookup (⟨1, 1, 2, 2, [(0, ⟨[1], true⟩)], [0], []⟩ :
            RState).frame_data g = some hg →
          hg.access_times.length
            < (⟨1, 1, 2, 2, [(0, ⟨[1], true⟩)], [0], []⟩ : RState).k →
          evictableOf ⟨1, 1, 2, 2, [(0, ⟨[1], true⟩)], [0], []⟩ g = true →
          firstTs (⟨1, 1, 2, 2, [(0, ⟨[1], true⟩)], [0], []⟩ :
              RState).frame_data f
            ≤ firstTs (⟨1, 1, 2, 2, [(0, ⟨[1], true⟩)], [0], []⟩ :
              RState).frame_data g)) ∧
      ((∀ g hg, alookup (⟨1, 1, 2, 2, [(0, ⟨[1], true⟩)], [0], []⟩ :
            RState).frame_data g = some hg →
          hg.access_times.length
            < (⟨1, 1, 2, 2, [(0, ⟨[1], true⟩)], [0], []⟩ : RState).k →
          evictableOf ⟨1, 1, 2, 2, [(0, ⟨[1], true⟩)], [0], []⟩ g = false) →
        f ∈ (⟨1, 1, 2, 2, [(0, ⟨[1], true⟩)], [0], []⟩ : RState).cache_list ∧
        (∃ h, alookup (⟨1, 1, 2, 2, [(0, ⟨[1], true⟩)], [0], []⟩ :
            RState).frame_data f = some h ∧
          (⟨1, 1, 2, 2, [(0, ⟨[1], true⟩)], [0], []⟩ : RState).k
            ≤ h.access_times.length) ∧
        (∀ g hg, alookup (⟨1, 1, 2, 2, [(0, ⟨[1], true⟩)], [0], []⟩ :
            RState).frame_data g = some hg →
          (⟨1, 1, 2, 2, [(0, ⟨[1], true⟩)], [0], []⟩ : RState).k
            ≤ hg.access_times.length →
          evictableOf ⟨1, 1, 2, 2, [(0, ⟨[1], true⟩)], [0], []⟩ g = true →
          timeDiff ⟨1, 1, 2, 2, [(0, ⟨[1], true⟩)], [0], []⟩ g
            ≤ timeDiff ⟨1, 1, 2, 2, [(0, ⟨[1], true⟩)], [0], []⟩ f)) :=
  (c2_amended_evict_policy _ reachable_demo_d (by decide)).2 (by decide)

/-! ### Claim C10: ghost-instrumented replacer

To speak about *when* a frame attained its Kth access, the replacer is run
together with a ghost map `attain` recording, for each frame on the cache
list, the timestamp of the `RecordAccess` call that moved it there. The
ghost does not alter the replacer's behaviour: every ghost operation acts on
`st` exactly as the corresponding public operation. -/

structure GLRUK where
  st : RState
  attain : List (Nat × Nat)
deriving DecidableEq, Repr

/-- Time at which frame `f` attained `k` recorded accesses (ghost). -/
def attainOf (g : GLRUK) (f : Nat) : Nat := (alookup g.attain f).getD 0

/-- Ghost `RecordAccess`: when the underlying call moves the frame from the
history list to the cache list (its access count reaches exactly `k`),
record the new timestamp as the frame's attainment time. -/
def gRecordAccess (g : GLRUK) (f : Nat) : Option GLRUK :=
  match recordAccess g.st f with
  | none => none
  | some s' =>
    if (historyOf g.st f).access_times ≠ [] ∧
       (historyOf g.st f).access_times.length + 1 = g.st.k then
      some ⟨s', aset g.attain f s'.current_timestamp⟩
    else some ⟨s', g.attain⟩

/-- Ghost `SetEvictable` (ghost unchanged). -/
def gSetEvictable (g : GLRUK) (f : Nat) (b : Bool) : Option GLRUK :=
  (setEvictable g.st f b).map (fun s' => ⟨s', g.attain⟩)

/-- Ghost `Evict` (ghost unchanged). -/
def gEvict (g : GLRUK) : Option Nat × GLRUK :=
  ((evict g.st).1, ⟨(evict g.st).2, g.attain⟩)

/-- Ghost `Remove` (ghost unchanged). -/
def gRemoveFrame (g : GLRUK) (f : Nat) : Option GLRUK :=
  (removeFrame g.st f).map (fun s' => ⟨s', g.attain⟩)

/-- One successful ghost-instrumented public operation. -/
inductive GStep : GLRUK → GLRUK → Prop
  | record (f : Nat) {g g' : GLRUK} : gRecordAccess g f = some g' → GStep g g'
  | setEv (f : Nat) (b : Bool) {g g' : GLRUK} : gSetEvictable g f b = some g' → GStep g g'
  | evictStep (r : Option Nat) {g g' : GLRUK} : gEvict g = (r, g') → GStep g g'
  | removeStep (f : Nat) {g g' : GLRUK} : gRemoveFrame g f = some g' → GStep g g'

/-- Ghost-instrumented reachability. -/
inductive GReachable : GLRUK → Prop
  | init (num_frames k : Nat) : GReachable ⟨lruInit num_frames k, []⟩
  | step {g g' : GLRUK} : GReachable g → GStep g g' → GReachable g'

theorem alookup_mem {α : Type} :
    ∀ (l : List (Nat × α)) (f : Nat) (v : α), alookup l f = some v → (f, v) ∈ l := by
  intro l
  induction l with
  | nil => intro f v h; simp [alookup] at h
  | cons p t ih =>
    intro f v h
    by_cases hp : p.1 = f
    · simp only [alookup, if_pos hp, Option.some.injEq] at h
      subst h
      subst hp
      simp
    · simp only [alookup, if_neg hp] at h
      exact List.mem_cons.mpr (Or.inr (ih f v h))

theorem mem_aset {α : Type} :
    ∀ (l : List (Nat × α)) (f : Nat) (v : α) (p : Nat × α),
      p ∈ aset l f v → p ∈ l ∨ p = (f, v) := by
  intro l
  induction l with
  | nil =>
    intro f v p hp
    simp only [aset, List.mem_singleton] at hp
    exact Or.inr hp
  | cons q t ih =>
    intro f v p hp
    by_cases hq : q.1 = f
    · simp only [aset, if_pos hq, List.mem_cons] at hp
      rcases hp with rfl | hp
      · exact Or.inr rfl
      · exact Or.inl (List.mem_cons.mpr (Or.inr hp))
    · simp only [aset, if_neg hq, List.mem_cons] at hp
      rcases hp with rfl | hp
      · exact Or.inl (List.mem_cons.mpr (Or.inl rfl))
      · rcases ih f v p hp with hp | hp
        · exact Or.inl (List.mem_cons.mpr (Or.inr hp))
        · exact Or.inr hp

/-- Invariant of the ghost-instrumented replacer: the structural invariant,
boundedness of attainment times, and — the point of the construction — the
cache list is strictly sorted by attainment time: frames appear in the order
in which they attained `k` accesses. -/
structure GInv (g : GLRUK) : Prop where
  rinv : RInv g.st
  attain_le : ∀ p ∈ g.attain, p.2 ≤ g.st.current_timestamp
  cache_sorted : g.st.cache_list.Pairwise (fun a b => attainOf g a < attainOf g b)

/-- Transfer of the ghost invariant along an operation that does not touch
the ghost map, does not decrease the timestamp, and only drops cache
entries. -/
theorem ginv_of_underlying {g : GLRUK} {s' : RState}
    (hinv : GInv g) (hrinv : RInv s')
    (hts : g.st.current_timestamp ≤ s'.current_timestamp)
    (hsub : s'.cache_list.Sublist g.st.cache_list) :
    GInv ⟨s', g.attain⟩ := by
  refine ⟨hrinv, ?_, ?_⟩
  · intro p hp
    exact le_trans (hinv.attain_le p hp) hts
  · exact List.Pairwise.sublist hsub hinv.cache_sorted

/-- The state and cache-list effect of the `Remove` pattern used by
`Evict`: the timestamp is unchanged and the cache list only loses
elements. -/
theorem removeFrame_getD_facts (s : RState) (f : Nat) :
    ((removeFrame s f).getD s).current_timestamp = s.current_timestamp ∧
    ((removeFrame s f).getD s).cache_list.Sublist s.cache_list := by
  cases hrm : removeFrame s f with
  | none => exact ⟨rfl, List.Sublist.refl _⟩
  | some s'' =>
    rcases removeFrame_cases hrm with ⟨-, he⟩ | ⟨h₂, -, -, he⟩
    · subst he
      exact ⟨rfl, List.Sublist.refl _⟩
    · subst he
      refine ⟨rfl, ?_⟩
      show (if h₂.access_times.length < s.k then s.cache_list
          else s.cache_list.filter (fun g => decide (g ≠ f))).Sublist s.cache_list
      by_cases hsh : h₂.access_times.length < s.k
      · rw [if_pos hsh]
      · rw [if_neg hsh]
        exact List.filter_sublist _

/-- Every ghost step preserves the ghost invariant (for `k ≥ 2`). -/
theorem gstep_ginv {g g' : GLRUK} (hk : 2 ≤ g.st.k) (hstep : GStep g g')
    (hinv : GInv g) : GInv g' := by
  cases hstep with
  | record f h =>
    cases hra : recordAccess g.st f with
    | none => simp [gRecordAccess, hra] at h
    | some s' =>
      have hrinv : RInv s' := recordAccess_rinv hk hra hinv.rinv
      simp only [gRecordAccess, hra] at h
      by_cases hmv : (historyOf g.st f).access_times ≠ [] ∧
          (historyOf g.st f).access_times.length + 1 = g.st.k
      · rw [if_pos hmv] at h
        cases h
        obtain ⟨hne, hlen⟩ := hmv
        obtain ⟨-, hcase⟩ := recordAccess_cases hra
        rcases hcase with ⟨hat, he⟩ | ⟨hat, hlen2, he⟩ | ⟨hat, hlen2, he⟩
        · exact absurd hat hne
        · have hcache : s'.cache_list = g.st.cache_list ++ [f] := by rw [he]
          have hcur : s'.current_timestamp = g.st.current_timestamp + 1 := by rw [he]
          obtain ⟨h₀, hl⟩ : ∃ h₀, alookup g.st.frame_data f = some h₀ := by
            cases hl : alookup g.st.frame_data f with
            | none => exact absurd (by simp [historyOf, hl]) hne
            | some h₀ => exact ⟨h₀, rfl⟩
          have hof : historyOf g.st f = h₀ := by simp [historyOf, hl]
          have hfc : f ∉ g.st.cache_list := fun hmem => by
            obtain ⟨h₂, hgl, hge⟩ := hinv.rinv.cache_mem f hmem
            rw [hl] at hgl
            cases hgl
            rw [hof] at hlen
            omega
          refine ⟨hrinv, ?_, ?_⟩
          · intro p hp
            rcases mem_aset _ _ _ p hp with hp | rfl
            · exact le_trans (hinv.attain_le p hp) (by rw [hcur]; exact Nat.le_succ _)
            · exact le_refl _
          · have hcong : ∀ x ∈ g.st.cache_list,
                attainOf ⟨s', aset g.attain f s'.current_timestamp⟩ x
                  = attainOf g x := by
              intro x hx
              have hxf : x ≠ f := fun e => hfc (e ▸ hx)
              simp [attainOf, alookup_aset_ne _ _ _ _ hxf]
            have hself : attainOf ⟨s', aset g.attain f s'.current_timestamp⟩ f
                = s'.current_timestamp := by
              simp [attainOf, alookup_aset_self]
            show s'.cache_list.Pairwise _
            rw [hcache, List.pairwise_append]
            refine ⟨hinv.cache_sorted.imp_of_mem ?_, List.pairwise_singleton _ _, ?_⟩
            · intro a b ha hb hab
              rw [hcong a ha, hcong b hb]
              exact hab
            · intro a ha b hb
              have hbf : b = f := by simpa using hb
              rw [hcong a ha, hbf, hself, hcur]
              cases hax : alookup g.attain a with
              | none => simp [attainOf, hax]
              | some v =>
                have hmem := alookup_mem _ _ _ hax
                have hva := hinv.attain_le _ hmem
                simp only [attainOf, hax, Option.getD_some]
                simp only at hva
                omega
        · exact absurd hlen hlen2
      · rw [if_neg hmv] at h
        cases h
        obtain ⟨-, hcase⟩ := recordAccess_cases hra
        have hcc : s'.cache_list = g.st.cache_list ∧
            g.st.current_timestamp ≤ s'.current_timestamp := by
          rcases hcase with ⟨hat, he⟩ | ⟨hat, hlen2, he⟩ | ⟨hat, hlen2, he⟩
          · rw [he]
            exact ⟨rfl, Nat.le_succ _⟩
          · exact absurd (And.intro hat hlen2) hmv
          · rw [he]
            exact ⟨rfl, Nat.le_succ _⟩
        exact ginv_of_underlying hinv hrinv hcc.2
          (by rw [hcc.1])
  | setEv f b h =>
    cases hse : setEvictable g.st f b with
    | none => simp [gSetEvictable, hse] at h
    | some s' =>
      simp only [gSetEvictable, hse, Option.map_some'] at h
      cases h
      have hrinv := setEvictable_rinv hse hinv.rinv
      obtain ⟨-, hcase⟩ := setEvictable_cases hse
      have hcc : s'.cache_list = g.st.cache_list ∧
          s'.current_timestamp = g.st.current_timestamp := by
        rcases hcase with ⟨-, he⟩ | ⟨h₂, -, -, he⟩ | ⟨h₂, -, -, he⟩ <;> rw [he] <;>
          exact ⟨rfl, rfl⟩
      exact ginv_of_underlying hinv hrinv (le_of_eq hcc.2.symm)
        (by rw [hcc.1])
  | evictStep r h =>
    have hg' : g' = ⟨(evict g.st).2, g.attain⟩ := by
      have hsnd := congrArg Prod.snd h
      simpa [gEvict] using hsnd.symm
    subst hg'
    have hrflx : evict g.st = ((evict g.st).1, (evict g.st).2) := rfl
    have hrinv : RInv (evict g.st).2 := evict_rinv hrflx hinv.rinv
    rcases evict_cases hrflx with ⟨-, -, he⟩ | ⟨-, f, -, -, he⟩ |
      ⟨-, -, f, m, -, -, he⟩ | ⟨-, -, -, -, he⟩
    · exact ginv_of_underlying hinv hrinv (by rw [he])
        (by rw [he])
    · have hfacts := removeFrame_getD_facts g.st f
      rw [← he] at hfacts
      exact ginv_of_underlying hinv hrinv (le_of_eq hfacts.1.symm) hfacts.2
    · have hfacts := removeFrame_getD_facts g.st f
      rw [← he] at hfacts
      exact ginv_of_underlying hinv hrinv (le_of_eq hfacts.1.symm) hfacts.2
    · exact ginv_of_underlying hinv hrinv (by rw [he])
        (by rw [he])
  | removeStep f h =>
    cases hrm : removeFrame g.st f with
    | none => simp [gRemoveFrame, hrm] at h
    | some s' =>
      simp only [gRemoveFrame, hrm, Option.map_some'] at h
      cases h
      have hrinv := removeFrame_rinv hrm hinv.rinv
      have hfacts := removeFrame_getD_facts g.st f
      rw [hrm] at hfacts
      simp only [Option.getD_some] at hfacts
      exact ginv_of_underlying hinv hrinv (le_of_eq hfacts.1.symm) hfacts.2

/-- Ghost steps leave `k` unchanged. -/
theorem gStep_k {g g' : GLRUK} (h : GStep g g') : g'.st.k = g.st.k := by
  cases h with
  | record f h =>
    cases hra : recordAccess g.st f with
    | none => simp [gRecordAccess, hra] at h
    | some s' =>
      have hk' : s'.k = g.st.k := lruStep_k (LRUStep.record f hra)
      simp only [gRecordAccess, hra] at h
      by_cases hmv : (historyOf g.st f).access_times ≠ [] ∧
          (historyOf g.st f).access_times.length + 1 = g.st.k
      · rw [if_pos hmv] at h
        cases h
        exact hk'
      · rw [if_neg hmv] at h
        cases h
        exact hk'
  | setEv f b h =>
    cases hse : setEvictable g.st f b with
    | none => simp [gSetEvictable, hse] at h
    | some s' =>
      simp only [gSetEvictable, hse, Option.map_some'] at h
      cases h
      exact lruStep_k (LRUStep.setEv f b hse)
  | evictStep r h =>
    have hg' : g' = ⟨(evict g.st).2, g.attain⟩ := by
      have hsnd := congrArg Prod.snd h
      simpa [gEvict] using hsnd.symm
    subst hg'
    exact lruStep_k (LRUStep.evictStep (evict g.st).1 rfl)
  | removeStep f h =>
    cases hrm : removeFrame g.st f with
    | none => simp [gRemoveFrame, hrm] at h
    | some s' =>
      simp only [gRemoveFrame, hrm, Option.map_some'] at h
      cases h
      exact lruStep_k (LRUStep.removeStep f hrm)

/-- The ghost invariant holds in every reachable ghost state with `k ≥ 2`. -/
theorem greachable_ginv {g : GLRUK} (hg : GReachable g) : 2 ≤ g.st.k → GInv g := by
  induction hg with
  | init n k0 =>
    intro _
    exact ⟨rinv_init n k0, by simp, by simp [lruInit]⟩
  | step hre hstep ih =>
    intro hk
    have hk0 := (gStep_k hstep) ▸ hk
    exact gstep_ginv hk0 hstep (ih hk0)

/-- An artificial state exhibiting a backward-K-distance tie: both cached
frames were (hypothetically) last-K-accessed at timestamp 1. -/
def tieState : RState :=
  ⟨10, 2, 2, 2, [(0, ⟨[1, 1], true⟩), (1, ⟨[1, 1], true⟩)], [], [0, 1]⟩

/-- The state after `tieState` evicts its victim. -/
def tieStateAfter : RState :=
  ⟨10, 1, 2, 2, [(1, ⟨[1, 1], true⟩)], [], [1]⟩

/-- A reachable ghost state: frame 0 attained its second access (k = 2) at
timestamp 2, recorded in the ghost `attain` map. -/
theorem greachable_demo :
    GReachable ⟨⟨2, 0, 2, 2, [(0, ⟨[1, 2], false⟩)], [], [0]⟩, [(0, 2)]⟩ :=
  GReachable.step
    (GReachable.step (GReachable.init 2 2)
      (GStep.record 0 (by decide) :
        GStep ⟨lruInit 2 2, []⟩ ⟨⟨1, 0, 2, 2, [(0, ⟨[1], false⟩)], [0], []⟩, []⟩))
    (GStep.record 0 (by decide) :
      GStep ⟨⟨1, 0, 2, 2, [(0, ⟨[1], false⟩)], [0], []⟩, []⟩
        ⟨⟨2, 0, 2, 2, [(0, ⟨[1, 2], false⟩)], [], [0]⟩, [(0, 2)]⟩)

/-- C10: when no history-list frame is evictable and several evictable cache
frames tie for the largest backward K-distance, `Evict` returns the first
tied frame in cache-list order (the comparison `time_diff > max_time_diff`
is strict, so later ties never displace the current candidate) — and, on the
ghost-instrumented reachable states, the cache list is ordered by the time
at which each frame attained K accesses, so that first tied frame is the one
that reached its Kth access earliest. -/
theorem c10_evict_tie_break :
    (∀ (s : RState) (f : Nat) (s' : RState),
       (∀ g ∈ s.history_list, evictableOf s g = false) →
       evict s = (some f, s') →
       evictableOf s f = true ∧
       ∃ l₁ l₂, s.cache_list = l₁ ++ f :: l₂ ∧
         (∀ g ∈ l₁, evictableOf s g = true → timeDiff s g < timeDiff s f) ∧
         (∀ g ∈ l₂, evictableOf s g = true → timeDiff s g ≤ timeDiff s f)) ∧
    (∀ g : GLRUK, GReachable g → 2 ≤ g.st.k →
       g.st.cache_list.Pairwise (fun a b => attainOf g a < attainOf g b)) := by
  constructor
  · intro s f s' hnoev hr
    have hfnone : s.history_list.find? (fun g => evictableOf s g) = none :=
      List.find?_eq_none.mpr (fun x hx => by simp [hnoev x hx])
    rcases evict_cases hr with ⟨-, hre, -⟩ | ⟨-, f', hf', hre, -⟩ |
      ⟨-, -, f', m, hscan, hre, -⟩ | ⟨-, -, -, hre, -⟩
    · simp at hre
    · rw [hfnone] at hf'
      simp at hf'
    · have hff : f' = f := Option.some.inj hre.symm
      subst hff
      obtain ⟨hm, hevf, l₁, l₂, heq, h₁, h₂⟩ :=
        scan_foldl_from_none s.cache_list f' m hscan
      exact ⟨hevf, l₁, l₂, heq,
        fun g hg hge => hm ▸ h₁ g hg hge,
        fun g hg hge => hm ▸ h₂ g hg hge⟩
    · simp at hre
  · intro g hg hk
    exact (greachable_ginv hg hk).cache_sorted

theorem c10_evict_tie_break_witness :
    (evictableOf tieState 0 = true ∧
     ∃ l₁ l₂, tieState.cache_list = l₁ ++ 0 :: l₂ ∧
       (∀ g ∈ l₁, evictableOf tieState g = true →
         timeDiff tieState g < timeDiff tieState 0) ∧
       (∀ g ∈ l₂, evictableOf tieState g = true →
         timeDiff tieState g ≤ timeDiff tieState 0)) ∧
    (⟨⟨2, 0, 2, 2, [(0, ⟨[1, 2], false⟩)], [], [0]⟩, [(0, 2)]⟩ :
        GLRUK).st.cache_list.Pairwise
      (fun a b =>
        attainOf ⟨⟨2, 0, 2, 2, [(0, ⟨[1, 2], false⟩)], [], [0]⟩, [(0, 2)]⟩ a
          < attainOf ⟨⟨2, 0, 2, 2, [(0, ⟨[1, 2], false⟩)], [], [0]⟩, [(0, 2)]⟩ b) :=
  ⟨c10_evict_tie_break.1 tieState 0 tieStateAfter (by decide) (by decide),
   c10_evict_tie_break.2 _ greachable_demo (by decide)⟩

/-! ### Extendible hash table: data model (src/extendible_hash_table.cpp)

The table is parametric in the key and value types and in the hash function
(`std::hash<K>` in the source). `std::shared_ptr<Bucket>` identity is
modelled by an arena: `buckets` is the list of every bucket ever allocated
and the directory stores arena indices, so `dir_[i] == bucket` (pointer
comparison) becomes equality of indices. The mask `hash & ((1 << d) - 1)`
is written `hash % 2 ^ d`, and the split-bit test `x & (1 << d) ≠ 0` is
`Nat.testBit x d`. -/

/-- A `Bucket`: capacity (`size_`), local depth (`depth_`) and contents
(`list_`, kept in insertion order). -/
structure Bucket (K V : Type) where
  size : Nat
  depth : Nat
  list : List (K × V)
  deriving Repr, DecidableEq

section ExtHash

variable {K V : Type} [DecidableEq K]

/-- `Bucket::Find` (src/extendible_hash_table.cpp:196-206): value of the
first pair with the given key. -/
def Bucket.find (b : Bucket K V) (k : K) : Option V :=
  (b.list.find? (fun it => decide (it.1 = k))).map (fun it => it.2)

/-- `it->second = value` on the first matching pair of `Bucket::Insert`'s
overwrite path. -/
def updateFirst : List (K × V) → K → V → List (K × V)
  | [], _, _ => []
  | it :: t, k, v => if it.1 = k then (it.1, v) :: t else it :: updateFirst t k v

/-- Modelled from the spec: `Bucket::IsFull` lives in the missing header
`extendible_hash_table.h`; per the data model a bucket holds at most
`bucket_size` entries, so it is full when `list_` has reached the capacity
`size_`. -/
def Bucket.isFull (b : Bucket K V) : Bool := b.size ≤ b.list.length

/-- `Bucket::Remove` (src/extendible_hash_table.cpp:214-224): erase the
first pair with the given key, reporting whether one existed. -/
def Bucket.removeKey (b : Bucket K V) (k : K) : Bool × Bucket K V :=
  if (b.list.find? (fun it => decide (it.1 = k))).isSome then
    (true, { b with list := b.list.eraseP (fun it => decide (it.1 = k)) })
  else (false, b)

/-- `Bucket::Insert` (src/extendible_hash_table.cpp:233-247): overwrite an
existing key, refuse when full, otherwise append; `none` models the
`return false` of the full case. -/
def Bucket.insert (b : Bucket K V) (k : K) (v : V) : Option (Bucket K V) :=
  if (b.list.find? (fun it => decide (it.1 = k))).isSome then
    some { b with list := updateFirst b.list k v }
  else if b.isFull then none
  else some { b with list := b.list ++ [(k, v)] }

/-- The state of an `ExtendibleHashTable`: `bucket_size_`, `global_depth_`,
`num_buckets_`, the directory of arena indices, and the bucket arena. -/
structure HState (K V : Type) where
  bucket_size : Nat
  global_depth : Nat
  num_buckets : Nat
  dir : List Nat
  buckets : List (Bucket K V)
  deriving Repr, DecidableEq

/-- The constructor (src/extendible_hash_table.cpp:23-26): one empty bucket
of depth 0 referenced by the single directory slot. Modelled from the spec:
the member initialisers `global_depth_{0}` and `num_buckets_{1}` live in the
missing header. -/
def initTable (bucket_size : Nat) : HState K V :=
  ⟨bucket_size, 0, 1, [0], [⟨bucket_size, 0, []⟩]⟩

variable (hash : K → Nat)

/-- `ExtendibleHashTable::IndexOf` (src/extendible_hash_table.cpp:36-40):
`hash(key) & ((1 << global_depth_) - 1)`. -/
def indexOf (s : HState K V) (k : K) : Nat := hash k % 2 ^ s.global_depth

/-- The arena index stored in directory slot `i`. -/
def dirAt (s : HState K V) (i : Nat) : Nat := s.dir.getD i 0

/-- The bucket stored at arena index `j`. -/
def bucketAt (s : HState K V) (j : Nat) : Bucket K V := s.buckets.getD j ⟨0, 0, []⟩

/-- `ExtendibleHashTable::Find` (src/extendible_hash_table.cpp:83-87). -/
def findKey (s : HState K V) (k : K) : Option V :=
  (bucketAt s (dirAt s (indexOf hash s k))).find k

/-- `ExtendibleHashTable::Remove` (src/extendible_hash_table.cpp:95-99). -/
def removeKey (s : HState K V) (k : K) : Bool × HState K V :=
  let j := dirAt s (indexOf hash s k)
  let r := (bucketAt s j).removeKey k
  (r.1, { s with buckets := s.buckets.set j r.2 })

/-- `ExtendibleHashTable::DirectoryExtension`
(src/extendible_hash_table.cpp:134-139): double the directory, copying the
first half into the second. -/
def directoryExtension (s : HState K V) : HState K V :=
  { s with dir := s.dir ++ s.dir }

/-- The item redistribution loop of `SplitTheBucket`
(src/extendible_hash_table.cpp:166-173): each item goes to `new_bucket_1`
when bit `local_depth` of `hash(key) & depth_mask` is set, else to
`new_bucket_0`; the `Insert` return value is discarded exactly as in the
source. -/
def distribute (ld : Nat) : List (K × V) → Bucket K V → Bucket K V →
    Bucket K V × Bucket K V
  | [], b0, b1 => (b0, b1)
  | it :: t, b0, b1 =>
    if Nat.testBit (hash it.1 % 2 ^ (ld + 1)) ld then
      distribute ld t b0 ((b1.insert it.1 it.2).getD b1)
    else
      distribute ld t ((b0.insert it.1 it.2).getD b0) b1

/-- `ExtendibleHashTable::SplitTheBucket`
(src/extendible_hash_table.cpp:146-174): raise the bucket's depth, allocate
two fresh buckets of that depth, repoint every directory slot that
referenced the old bucket according to bit `local_depth` of the slot index
(`i & split_bit`), bump `num_buckets_`, and redistribute the items. -/
def splitTheBucket (s : HState K V) (k : K) : HState K V :=
  let index := indexOf hash s k
  let bIdx := dirAt s index
  let bucket := bucketAt s bIdx
  let ld := bucket.depth
  let id0 := s.buckets.length
  let id1 := s.buckets.length + 1
  let dir2 := (List.range s.dir.length).map (fun i =>
    if dirAt s i = bIdx then (if Nat.testBit i ld then id1 else id0) else dirAt s i)
  let r := distribute hash ld bucket.list
    ⟨s.bucket_size, ld + 1, []⟩ ⟨s.bucket_size, ld + 1, []⟩
  { s with dir := dir2,
           num_buckets := s.num_buckets + 1,
           buckets := (s.buckets.set bIdx { bucket with depth := ld + 1 }) ++ [r.1, r.2] }

/-- `ExtendibleHashTable::Insert` (src/extendible_hash_table.cpp:109-127).
The `while (true)` loop is given fuel: `none` means the fuel ran out, and
each recursive call models one more iteration (bucket insert attempt; on
failure a directory extension when `global_depth_ == bucket->GetDepth()`
followed by a split). -/
def insertFuel : Nat → HState K V → K → V → Option (HState K V)
  | 0, _, _, _ => none
  | n + 1, s, k, v =>
    let index := indexOf hash s k
    let bIdx := dirAt s index
    match (bucketAt s bIdx).insert k v with
    | some b2 => some { s with buckets := s.buckets.set bIdx b2 }
    | none =>
      let s1 := if s.global_depth = (bucketAt s bIdx).depth then
          { directoryExtension s with global_depth := s.global_depth + 1 }
        else s
      insertFuel n (splitTheBucket hash s1 k) k v

end ExtHash

/-! ### Arithmetic and list helpers for the hash table -/

theorem mod_pow_mod {a : Nat} (l g : Nat) (h : l ≤ g) :
    a % 2 ^ g % 2 ^ l = a % 2 ^ l :=
  Nat.mod_mod_of_dvd a (pow_dvd_pow 2 h)

theorem two_pow_pos' (n : Nat) : 0 < 2 ^ n := Nat.pos_pow_of_pos n (by norm_num)

/-- Agreement modulo `2 ^ (n + 1)` is agreement modulo `2 ^ n` together with
agreement on bit `n`. -/
theorem mod_two_pow_succ_eq_iff (a b n : Nat) :
    a % 2 ^ (n + 1) = b % 2 ^ (n + 1) ↔
      (a % 2 ^ n = b % 2 ^ n ∧ Nat.testBit a n = Nat.testBit b n) := by
  have hma : a % 2 ^ n < 2 ^ n := Nat.mod_lt _ (two_pow_pos' n)
  have hmb : b % 2 ^ n < 2 ^ n := Nat.mod_lt _ (two_pow_pos' n)
  have hp2 : a / 2 ^ n % 2 = 0 ∨ a / 2 ^ n % 2 = 1 := Nat.mod_two_eq_zero_or_one _
  have hq2 : b / 2 ^ n % 2 = 0 ∨ b / 2 ^ n % 2 = 1 := Nat.mod_two_eq_zero_or_one _
  rw [Nat.mod_pow_succ, Nat.mod_pow_succ, Nat.testBit_to_div_mod,
    Nat.testBit_to_div_mod]
  rcases hp2 with hp | hp <;> rcases hq2 with hq | hq <;> rw [hp, hq] <;>
    simp <;> omega

theorem testBit_of_mod_two_pow {a : Nat} (i n : Nat) (h : i < n) :
    Nat.testBit (a % 2 ^ n) i = Nat.testBit a i := by
  rw [Nat.testBit_mod_two_pow]
  simp [h]

theorem getD_set_self {α : Type} (l : List α) (i : Nat) (a d : α)
    (h : i < l.length) : (l.set i a).getD i d = a := by
  simp [List.getD, List.getElem?_set, h]

theorem getD_set_ne {α : Type} (l : List α) (i j : Nat) (a d : α)
    (h : i ≠ j) : (l.set i a).getD j d = l.getD j d := by
  simp [List.getD, List.getElem?_set, h]

theorem getD_range_map {α : Type} (n : Nat) (f : Nat → α) (i : Nat) (d : α)
    (h : i < n) : (((List.range n).map f).getD i d) = f i := by
  rw [List.getD_eq_getElem _ _ (by simpa using h)]
  simp

theorem getD_append_left {α : Type} (l l' : List α) (i : Nat) (d : α)
    (h : i < l.length) : ((l ++ l').getD i d) = l.getD i d :=
  List.getD_append _ _ _ _ h

theorem getD_append_right' {α : Type} (l l' : List α) (i : Nat) (d : α)
    (h : l.length ≤ i) : ((l ++ l').getD i d) = l'.getD (i - l.length) d := by
  simp [List.getD, List.getElem?_append_right h]

/-- Length of the sublist of `range (2 ^ g)` lying in a fixed residue class
modulo `2 ^ l`. -/
theorem filter_eq_range_length (n r : Nat) :
    ((List.range n).filter (fun j => decide (j = r))).length
      = if r < n then 1 else 0 := by
  induction n with
  | zero => simp
  | succ n ih =>
    rw [List.range_succ, List.filter_append, List.length_append, ih]
    by_cases h : n = r <;> simp [List.filter, h] <;> split_ifs <;> omega

theorem filter_mod_range_length (l g r : Nat) (hlg : l ≤ g) (hr : r < 2 ^ l) :
    ((List.range (2 ^ g)).filter (fun j => decide (j % 2 ^ l = r))).length
      = 2 ^ (g - l) := by
  induction g, hlg using Nat.le_induction with
  | base =>
    have hcong : ∀ j ∈ List.range (2 ^ l),
        decide (j % 2 ^ l = r) = decide (j = r) := by
      intro j hj
      rw [List.mem_range] at hj
      rw [Nat.mod_eq_of_lt hj]
    rw [List.filter_congr hcong, filter_eq_range_length, if_pos hr, Nat.sub_self,
      pow_zero]
  | succ g hlg ih =>
    have hsplit : 2 ^ (g + 1) = 2 ^ g + 2 ^ g := by
      rw [pow_succ]
      omega
    rw [hsplit, List.range_add, List.filter_append, List.length_append, ih]
    have hmap : ((List.range (2 ^ g)).map (fun x => 2 ^ g + x)).filter
          (fun j => decide (j % 2 ^ l = r))
        = ((List.range (2 ^ g)).filter (fun j => decide (j % 2 ^ l = r))).map
          (fun x => 2 ^ g + x) := by
      rw [List.filter_map]
      congr 1
      apply List.filter_congr
      intro j hj
      have : (2 ^ g + j) % 2 ^ l = j % 2 ^ l := by
        obtain ⟨c, hc⟩ : 2 ^ l ∣ 2 ^ g := pow_dvd_pow 2 hlg
        rw [hc, Nat.mul_add_mod]
      simp [Function.comp, this]
    rw [hmap, List.length_map, ih]
    have : g + 1 - l = (g - l) + 1 := by omega
    rw [this, pow_succ]
    omega

/-! ### Bucket-level lemmas -/

section BucketLemmas

variable {K V : Type} [DecidableEq K]

theorem find?_isSome_iff_mem_keys (l : List (K × V)) (k : K) :
    (l.find? (fun it => decide (it.1 = k))).isSome = true ↔ k ∈ l.map Prod.fst := by
  induction l with
  | nil => simp
  | cons it t ih =>
    by_cases h : it.1 = k
    · rw [List.find?_cons_of_pos _ (by simpa using h)]
      simp [h]
    · rw [List.find?_cons_of_neg _ (by simpa using h)]
      rw [ih]
      have hk : ¬ k = it.1 := fun e => h e.symm
      simp [hk]

theorem find?_eq_none_of_not_mem_keys (l : List (K × V)) (k : K)
    (h : k ∉ l.map Prod.fst) : l.find? (fun it => decide (it.1 = k)) = none := by
  cases hf : l.find? (fun it => decide (it.1 = k)) with
  | none => rfl
  | some it =>
    exfalso
    exact h ((find?_isSome_iff_mem_keys l k).mp (by simp [hf]))

theorem updateFirst_map_fst (l : List (K × V)) (k : K) (v : V) :
    (updateFirst l k v).map Prod.fst = l.map Prod.fst := by
  induction l with
  | nil => simp [updateFirst]
  | cons it t ih =>
    by_cases h : it.1 = k
    · simp [updateFirst, h]
    · simp [updateFirst, h, ih]

theorem updateFirst_length (l : List (K × V)) (k : K) (v : V) :
    (updateFirst l k v).length = l.length := by
  induction l with
  | nil => simp [updateFirst]
  | cons it t ih =>
    by_cases h : it.1 = k <;> simp [updateFirst, h, ih]

theorem find?_updateFirst_self (l : List (K × V)) (k : K) (v : V)
    (h : (l.find? (fun it => decide (it.1 = k))).isSome = true) :
    ((updateFirst l k v).find? (fun it => decide (it.1 = k))).map
      (fun it => it.2) = some v := by
  induction l with
  | nil => simp at h
  | cons it t ih =>
    by_cases hit : it.1 = k
    · simp [updateFirst, hit, List.find?]
    · rw [List.find?_cons_of_neg _ (by simpa using hit)] at h
      simp only [updateFirst, if_neg hit]
      rw [List.find?_cons_of_neg _ (by simpa using hit)]
      exact ih h

theorem find?_updateFirst_ne (l : List (K × V)) (k : K) (v : V) (q : K)
    (hne : q ≠ k) :
    (updateFirst l k v).find? (fun it => decide (it.1 = q))
      = l.find? (fun it => decide (it.1 = q)) := by
  induction l with
  | nil => simp [updateFirst]
  | cons it t ih =>
    by_cases hit : it.1 = k
    · have hq : ¬ it.1 = q := fun e => hne (e.symm.trans hit)
      simp only [updateFirst, if_pos hit]
      rw [List.find?_cons_of_neg _ (by simpa using hq),
          List.find?_cons_of_neg _ (by simpa using hq)]
    · simp only [updateFirst, if_neg hit]
      by_cases hq : it.1 = q
      · rw [List.find?_cons_of_pos _ (by simpa using hq),
            List.find?_cons_of_pos _ (by simpa using hq)]
      · rw [List.find?_cons_of_neg _ (by simpa using hq),
            List.find?_cons_of_neg _ (by simpa using hq)]
        exact ih

theorem mem_updateFirst_fst (l : List (K × V)) (k : K) (v : V) (p : K × V)
    (hp : p ∈ updateFirst l k v) : p.1 ∈ l.map Prod.fst := by
  have hm : p.1 ∈ (updateFirst l k v).map Prod.fst := List.mem_map_of_mem _ hp
  rwa [updateFirst_map_fst] at hm

theorem find_eraseP_self (l : List (K × V)) (k : K)
    (hnd : (l.map Prod.fst).Nodup) :
    (l.eraseP (fun it => decide (it.1 = k))).find?
      (fun it => decide (it.1 = k)) = none := by
  induction l with
  | nil => simp
  | cons it t ih =>
    simp only [List.map_cons, List.nodup_cons] at hnd
    by_cases h : it.1 = k
    · rw [List.eraseP_cons_of_pos (by simpa using h)]
      exact find?_eq_none_of_not_mem_keys t k (h ▸ hnd.1)
    · rw [List.eraseP_cons_of_neg (by simpa using h)]
      rw [List.find?_cons_of_neg _ (by simpa using h)]
      exact ih hnd.2

theorem find_eraseP_ne (l : List (K × V)) (k q : K) (hne : q ≠ k) :
    (l.eraseP (fun it => decide (it.1 = k))).find?
      (fun it => decide (it.1 = q))
      = l.find? (fun it => decide (it.1 = q)) := by
  induction l with
  | nil => simp
  | cons it t ih =>
    by_cases h : it.1 = k
    · rw [List.eraseP_cons_of_pos (by simpa using h)]
      have hq : ¬ it.1 = q := fun e => hne (e.symm.trans h)
      rw [List.find?_cons_of_neg _ (by simpa using hq)]
    · rw [List.eraseP_cons_of_neg (by simpa using h)]
      by_cases hq : it.1 = q
      · rw [List.find?_cons_of_pos _ (by simpa using hq),
            List.find?_cons_of_pos _ (by simpa using hq)]
      · rw [List.find?_cons_of_neg _ (by simpa using hq),
            List.find?_cons_of_neg _ (by simpa using hq)]
        exact ih

theorem find?_filter_key (l : List (K × V)) (q : K) (p : K × V → Bool)
    (hp : ∀ it ∈ l, it.1 = q → p it = true) :
    (l.filter p).find? (fun it => decide (it.1 = q))
      = l.find? (fun it => decide (it.1 = q)) := by
  induction l with
  | nil => simp
  | cons it t ih =>
    by_cases hq : it.1 = q
    · rw [List.filter_cons_of_pos (hp it (by simp) hq)]
      rw [List.find?_cons_of_pos _ (by simpa using hq),
          List.find?_cons_of_pos _ (by simpa using hq)]
    · by_cases hpi : p it
      · rw [List.filter_cons_of_pos hpi,
            List.find?_cons_of_neg _ (by simpa using hq),
            List.find?_cons_of_neg _ (by simpa using hq)]
        exact ih (fun x hx => hp x (List.mem_cons.mpr (Or.inr hx)))
      · rw [List.filter_cons_of_neg (by simpa using hpi),
            List.find?_cons_of_neg _ (by simpa using hq)]
        exact ih (fun x hx => hp x (List.mem_cons.mpr (Or.inr hx)))

theorem find?_append_none (l l' : List (K × V)) (p : K × V → Bool)
    (h : l.find? p = none) : (l ++ l').find? p = l'.find? p := by
  rw [List.find?_append, h]
  rfl

/-- `Bucket::Insert` keeps the capacity and depth fields. -/
theorem Bucket.insert_depth_size (b : Bucket K V) (k : K) (v : V)
    (b2 : Bucket K V) (h : b.insert k v = some b2) :
    b2.depth = b.depth ∧ b2.size = b.size := by
  unfold Bucket.insert at h
  by_cases hf : (b.list.find? (fun it => decide (it.1 = k))).isSome
  · rw [if_pos hf] at h
    cases h
    exact ⟨rfl, rfl⟩
  · rw [if_neg hf] at h
    by_cases hfull : b.isFull
    · rw [if_pos hfull] at h
      cases h
    · rw [if_neg hfull] at h
      cases h
      exact ⟨rfl, rfl⟩

/-- The two outcome shapes of a successful `Bucket::Insert`. -/
theorem Bucket.insert_cases (b : Bucket K V) (k : K) (v : V) (b2 : Bucket K V)
    (h : b.insert k v = some b2) :
    ((b.list.find? (fun it => decide (it.1 = k))).isSome = true ∧
       b2 = { b with list := updateFirst b.list k v }) ∨
    ((b.list.find? (fun it => decide (it.1 = k))).isSome = false ∧
       b.isFull = false ∧ b2 = { b with list := b.list ++ [(k, v)] }) := by
  unfold Bucket.insert at h
  by_cases hf : (b.list.find? (fun it => decide (it.1 = k))).isSome
  · rw [if_pos hf] at h
    exact Or.inl ⟨hf, (Option.some.inj h).symm⟩
  · rw [if_neg hf] at h
    by_cases hfull : b.isFull
    · rw [if_pos hfull] at h
      cases h
    · rw [if_neg hfull] at h
      exact Or.inr ⟨by rwa [Bool.not_eq_true] at hf,
        by rwa [Bool.not_eq_true] at hfull, (Option.some.inj h).symm⟩

theorem Bucket.find_insert_self (b : Bucket K V) (k : K) (v : V)
    (b2 : Bucket K V) (h : b.insert k v = some b2) : b2.find k = some v := by
  rcases Bucket.insert_cases b k v b2 h with ⟨hf, rfl⟩ | ⟨hf, hfull, rfl⟩
  · exact find?_updateFirst_self b.list k v hf
  · unfold Bucket.find
    rw [find?_append_none]
    · simp [List.find?]
    · cases hfo : b.list.find? (fun it => decide (it.1 = k)) with
      | none => rfl
      | some it =>
        rw [hfo] at hf
        cases hf

theorem Bucket.find_insert_ne (b : Bucket K V) (k : K) (v : V)
    (b2 : Bucket K V) (q : K) (h : b.insert k v = some b2) (hne : q ≠ k) :
    b2.find q = b.find q := by
  rcases Bucket.insert_cases b k v b2 h with ⟨hf, rfl⟩ | ⟨hf, hfull, rfl⟩
  · unfold Bucket.find
    rw [find?_updateFirst_ne _ _ _ _ hne]
  · unfold Bucket.find
    rw [List.find?_append]
    cases hfo : b.list.find? (fun it => decide (it.1 = q)) with
    | none =>
      have hkq : ¬ k = q := fun e => hne e.symm
      simp [List.find?, hkq]
    | some it => simp

end BucketLemmas

/-! ### Well-formedness invariant of the hash table -/

section HashWF

variable {K V : Type} [DecidableEq K] (hash : K → Nat)

/-- The structural invariant of the extendible hash table: the directory has
`2 ^ global_depth` slots, each slot holds a valid arena index, local depths
are bounded by the global depth, capacities agree with `bucket_size_`, bucket
contents respect their capacity and have distinct keys, every item hashes to
its slot's residue class modulo `2 ^ local_depth`, and two slots reference
the same bucket exactly when they agree modulo `2 ^ local_depth`. -/
structure WF (s : HState K V) : Prop where
  dir_len : s.dir.length = 2 ^ s.global_depth
  idx_lt : ∀ i < s.dir.length, dirAt s i < s.buckets.length
  depth_le : ∀ i < s.dir.length, (bucketAt s (dirAt s i)).depth ≤ s.global_depth
  size_eq : ∀ i < s.dir.length, (bucketAt s (dirAt s i)).size = s.bucket_size
  len_le : ∀ i < s.dir.length,
    (bucketAt s (dirAt s i)).list.length ≤ s.bucket_size
  keys_nd : ∀ i < s.dir.length,
    ((bucketAt s (dirAt s i)).list.map Prod.fst).Nodup
  keys_mod : ∀ i < s.dir.length, ∀ p ∈ (bucketAt s (dirAt s i)).list,
    hash p.1 % 2 ^ (bucketAt s (dirAt s i)).depth
      = i % 2 ^ (bucketAt s (dirAt s i)).depth
  share_iff : ∀ i < s.dir.length, ∀ j < s.dir.length,
    (dirAt s i = dirAt s j ↔
      i % 2 ^ (bucketAt s (dirAt s i)).depth
        = j % 2 ^ (bucketAt s (dirAt s i)).depth)

theorem indexOf_lt_dir_length (s : HState K V) (hwf : WF hash s) (k : K) :
    indexOf hash s k < s.dir.length := by
  rw [hwf.dir_len]
  exact Nat.mod_lt _ (two_pow_pos' _)

theorem wf_initTable (bucket_size : Nat) :
    WF hash (initTable (K := K) (V := V) bucket_size) := by
  have hlen : (initTable (K := K) (V := V) bucket_size).dir.length = 1 := rfl
  refine ⟨rfl, ?_, ?_, ?_, ?_, ?_, ?_, ?_⟩ <;> intro i hi <;>
    rw [hlen] at hi <;> interval_cases i <;>
    simp [initTable, dirAt, bucketAt, Nat.lt_one_iff]

theorem bucketAt_set (s : HState K V) (j : Nat) (b2 : Bucket K V) (m : Nat)
    (hj : j < s.buckets.length) :
    bucketAt { s with buckets := s.buckets.set j b2 } m
      = if m = j then b2 else bucketAt s m := by
  by_cases h : m = j
  · subst h
    simp only [bucketAt, if_pos rfl]
    exact getD_set_self _ _ _ _ hj
  · simp only [bucketAt, if_neg h]
    exact getD_set_ne _ j m _ _ (fun e => h e.symm)

/-- Slots referencing the same bucket as slot `idx` are exactly those in the
residue class of `idx` modulo `2 ^ local_depth`. -/
theorem dirAt_eq_dirAt_iff (s : HState K V) (hwf : WF hash s)
    (idx : Nat) (hidx : idx < s.dir.length) (i : Nat) (hi : i < s.dir.length) :
    dirAt s i = dirAt s idx ↔
      i % 2 ^ (bucketAt s (dirAt s idx)).depth
        = idx % 2 ^ (bucketAt s (dirAt s idx)).depth := by
  have h := hwf.share_iff idx hidx i hi
  constructor
  · intro he
    exact (h.mp he.symm).symm
  · intro hm
    exact (h.mpr hm.symm).symm

/-- Replacing one bucket of the arena by a bucket of the same depth and
capacity, whose contents still fit and still hash to every referencing
slot's residue class, preserves the invariant. -/
theorem wf_updateBucket (s : HState K V) (hwf : WF hash s) (j : Nat)
    (b2 : Bucket K V) (hj : j < s.buckets.length)
    (hdepth : b2.depth = (bucketAt s j).depth)
    (hsize : b2.size = (bucketAt s j).size)
    (hlen : b2.list.length ≤ s.bucket_size)
    (hnd : (b2.list.map Prod.fst).Nodup)
    (hmod : ∀ i < s.dir.length, dirAt s i = j → ∀ p ∈ b2.list,
      hash p.1 % 2 ^ b2.depth = i % 2 ^ b2.depth) :
    WF hash { s with buckets := s.buckets.set j b2 } := by
  have hba : ∀ m, bucketAt { s with buckets := s.buckets.set j b2 } m
      = if m = j then b2 else bucketAt s m := fun m => bucketAt_set s j b2 m hj
  have hdd : ∀ i, dirAt { s with buckets := s.buckets.set j b2 } i
      = dirAt s i := fun _ => rfl
  have hdepth' : ∀ i, (bucketAt { s with buckets := s.buckets.set j b2 }
      (dirAt s i)).depth = (bucketAt s (dirAt s i)).depth := by
    intro i
    rw [hba]
    by_cases h : dirAt s i = j
    · rw [if_pos h, hdepth, h]
    · rw [if_neg h]
  refine ⟨hwf.dir_len, ?_, ?_, ?_, ?_, ?_, ?_, ?_⟩
  · intro i hi
    rw [hdd, List.length_set]
    exact hwf.idx_lt i hi
  · intro i hi
    rw [hdd, hdepth']
    exact hwf.depth_le i hi
  · intro i hi
    rw [hdd, hba]
    by_cases h : dirAt s i = j
    · rw [if_pos h, hsize, ← h]
      exact hwf.size_eq i hi
    · rw [if_neg h]
      exact hwf.size_eq i hi
  · intro i hi
    rw [hdd, hba]
    by_cases h : dirAt s i = j
    · rw [if_pos h]
      exact hlen
    · rw [if_neg h]
      exact hwf.len_le i hi
  · intro i hi
    rw [hdd, hba]
    by_cases h : dirAt s i = j
    · rw [if_pos h]
      exact hnd
    · rw [if_neg h]
      exact hwf.keys_nd i hi
  · intro i hi p hp
    rw [hdd] at hp ⊢
    rw [hba] at hp ⊢
    by_cases h : dirAt s i = j
    · rw [if_pos h] at hp ⊢
      exact hmod i hi h p hp
    · rw [if_neg h] at hp ⊢
      exact hwf.keys_mod i hi p hp
  · intro i hi j' hj'
    rw [hdd, hdd, hdepth']
    exact hwf.share_iff i hi j' hj'

theorem Bucket.insert_isSome_of_not_full (b : Bucket K V) (k : K) (v : V)
    (h : b.isFull = false) : (b.insert k v).isSome = true := by
  unfold Bucket.insert
  by_cases hf : (b.list.find? (fun it => decide (it.1 = k))).isSome
  · rw [if_pos hf]
    rfl
  · rw [if_neg hf, h]
    rfl

theorem Bucket.isFull_of_insert_eq_none (b : Bucket K V) (k : K) (v : V)
    (h : b.insert k v = none) : b.isFull = true := by
  by_cases hfull : b.isFull
  · exact hfull
  · have := Bucket.insert_isSome_of_not_full b k v (by simpa using hfull)
    rw [h] at this
    cases this

/-! Directory extension: the state built by the `Insert` loop when the full
bucket's depth equals the global depth. -/

theorem dirAt_ext (s : HState K V) (hwf : WF hash s) (i : Nat)
    (hi : i < 2 ^ (s.global_depth + 1)) :
    dirAt { directoryExtension s with global_depth := s.global_depth + 1 } i
      = dirAt s (i % 2 ^ s.global_depth) := by
  have hlen : s.dir.length = 2 ^ s.global_depth := hwf.dir_len
  show (s.dir ++ s.dir).getD i 0 = dirAt s (i % 2 ^ s.global_depth)
  by_cases h : i < s.dir.length
  · rw [getD_append_left _ _ _ _ h]
    rw [Nat.mod_eq_of_lt (by omega)]
    rfl
  · rw [getD_append_right' _ _ _ _ (by omega)]
    have h2 : i % 2 ^ s.global_depth = i - 2 ^ s.global_depth := by
      rw [Nat.mod_eq_sub_mod (by omega), Nat.mod_eq_of_lt (by
        have := pow_succ 2 s.global_depth
        omega)]
    rw [hlen, ← h2]
    rfl

theorem bucketAt_ext (s : HState K V) (m : Nat) :
    bucketAt { directoryExtension s with global_depth := s.global_depth + 1 } m
      = bucketAt s m := rfl

theorem wf_ext (s : HState K V) (hwf : WF hash s) :
    WF hash { directoryExtension s with global_depth := s.global_depth + 1 } := by
  have hlen2 : ({ directoryExtension s with
      global_depth := s.global_depth + 1 } : HState K V).dir.length
        = 2 ^ (s.global_depth + 1) := by
    show (s.dir ++ s.dir).length = 2 ^ (s.global_depth + 1)
    rw [List.length_append, hwf.dir_len, pow_succ]
    omega
  have hred : ∀ i, i < 2 ^ (s.global_depth + 1) →
      dirAt { directoryExtension s with global_depth := s.global_depth + 1 } i
        = dirAt s (i % 2 ^ s.global_depth) := dirAt_ext hash s hwf
  have hmlt : ∀ i : Nat, i % 2 ^ s.global_depth < s.dir.length := by
    intro i
    rw [hwf.dir_len]
    exact Nat.mod_lt _ (two_pow_pos' _)
  refine ⟨hlen2, ?_, ?_, ?_, ?_, ?_, ?_, ?_⟩
  · intro i hi
    rw [hlen2] at hi
    rw [show ({ directoryExtension s with
        global_depth := s.global_depth + 1 } : HState K V).buckets
      = s.buckets from rfl, hred i hi]
    exact hwf.idx_lt _ (hmlt i)
  · intro i hi
    rw [hlen2] at hi
    rw [hred i hi, bucketAt_ext]
    exact Nat.le_succ_of_le (hwf.depth_le _ (hmlt i))
  · intro i hi
    rw [hlen2] at hi
    rw [hred i hi, bucketAt_ext]
    exact hwf.size_eq _ (hmlt i)
  · intro i hi
    rw [hlen2] at hi
    rw [hred i hi, bucketAt_ext]
    exact hwf.len_le _ (hmlt i)
  · intro i hi
    rw [hlen2] at hi
    rw [hred i hi, bucketAt_ext]
    exact hwf.keys_nd _ (hmlt i)
  · intro i hi p hp
    rw [hlen2] at hi
    rw [hred i hi, bucketAt_ext] at hp ⊢
    have hold := hwf.keys_mod _ (hmlt i) p hp
    have hdl : (bucketAt s (dirAt s (i % 2 ^ s.global_depth))).depth
        ≤ s.global_depth := hwf.depth_le _ (hmlt i)
    rw [hold, mod_pow_mod _ _ hdl]
  · intro i hi j hj
    rw [hlen2] at hi hj
    rw [hred i hi, hred j hj, bucketAt_ext]
    have hdl : (bucketAt s (dirAt s (i % 2 ^ s.global_depth))).depth
        ≤ s.global_depth := hwf.depth_le _ (hmlt i)
    rw [hwf.share_iff _ (hmlt i) _ (hmlt j),
      mod_pow_mod _ _ hdl, mod_pow_mod _ _ hdl]

theorem target_ext (s : HState K V) (hwf : WF hash s) (q : K) :
    dirAt { directoryExtension s with global_depth := s.global_depth + 1 }
        (indexOf hash { directoryExtension s with
          global_depth := s.global_depth + 1 } q)
      = dirAt s (indexOf hash s q) := by
  have hi : hash q % 2 ^ (s.global_depth + 1) < 2 ^ (s.global_depth + 1) :=
    Nat.mod_lt _ (two_pow_pos' _)
  show dirAt { directoryExtension s with global_depth := s.global_depth + 1 }
      (hash q % 2 ^ (s.global_depth + 1)) = dirAt s (indexOf hash s q)
  rw [dirAt_ext hash s hwf _ hi, mod_pow_mod _ _ (Nat.le_succ _)]
  rfl

theorem findKey_ext (s : HState K V) (hwf : WF hash s) (q : K) :
    findKey hash { directoryExtension s with
        global_depth := s.global_depth + 1 } q = findKey hash s q := by
  unfold findKey
  rw [target_ext hash s hwf q, bucketAt_ext]

/-- The redistribution loop sends the items with split bit clear to the
first bucket and those with it set to the second, in order, provided the
keys are distinct from each other and from the buckets' contents and both
sides fit (which rules out the silently discarded `Insert` failures). -/
theorem distribute_eq (ld : Nat) (items : List (K × V)) (b0 b1 : Bucket K V)
    (hnd : (items.map Prod.fst).Nodup)
    (h0 : ∀ p ∈ items, p.1 ∉ b0.list.map Prod.fst)
    (h1 : ∀ p ∈ items, p.1 ∉ b1.list.map Prod.fst)
    (hc0 : b0.list.length
      + (items.filter (fun p => !(Nat.testBit (hash p.1) ld))).length ≤ b0.size)
    (hc1 : b1.list.length
      + (items.filter (fun p => Nat.testBit (hash p.1) ld)).length ≤ b1.size) :
    distribute hash ld items b0 b1
      = ({ b0 with list := b0.list
            ++ items.filter (fun p => !(Nat.testBit (hash p.1) ld)) },
         { b1 with list := b1.list
            ++ items.filter (fun p => Nat.testBit (hash p.1) ld) }) := by
  induction items generalizing b0 b1 with
  | nil => simp [distribute]
  | cons it t ih =>
    simp only [List.map_cons, List.nodup_cons] at hnd
    have hbit : Nat.testBit (hash it.1 % 2 ^ (ld + 1)) ld
        = Nat.testBit (hash it.1) ld :=
      testBit_of_mod_two_pow ld (ld + 1) (Nat.lt_succ_self _)
    by_cases htb : Nat.testBit (hash it.1) ld
    · have hfilter1 : (it :: t).filter (fun p => Nat.testBit (hash p.1) ld)
          = it :: t.filter (fun p => Nat.testBit (hash p.1) ld) :=
        List.filter_cons_of_pos (by simpa using htb)
      have hfilter0 : (it :: t).filter (fun p => !(Nat.testBit (hash p.1) ld))
          = t.filter (fun p => !(Nat.testBit (hash p.1) ld)) :=
        List.filter_cons_of_neg (by simpa using htb)
      rw [hfilter1] at hc1
      rw [hfilter0] at hc0
      have hlt1 : b1.list.length < b1.size := by
        simp at hc1
        omega
      have hins : b1.insert it.1 it.2
          = some { b1 with list := b1.list ++ [(it.1, it.2)] } := by
        unfold Bucket.insert
        rw [find?_eq_none_of_not_mem_keys _ _ (h1 it (by simp))]
        have hnf : b1.isFull = false := by
          unfold Bucket.isFull
          simp
          omega
        rw [hnf]
        rfl
      show distribute hash ld (it :: t) b0 b1 = _
      unfold distribute
      rw [hbit, if_pos htb, hins]
      rw [ih _ _ hnd.2
        (fun p hp => h0 p (List.mem_cons.mpr (Or.inr hp)))
        (fun p hp => by
          show p.1 ∉ (b1.list ++ [(it.1, it.2)]).map Prod.fst
          simp only [List.map_append, List.map_cons, List.map_nil,
            List.mem_append, List.mem_cons, List.not_mem_nil]
          push_neg
          refine ⟨h1 p (List.mem_cons.mpr (Or.inr hp)), ?_, fun h => h⟩
          intro he
          exact hnd.1 (he ▸ List.mem_map_of_mem Prod.fst hp))
        hc0
        (by
          show (b1.list ++ [(it.1, it.2)]).length
            + (t.filter (fun p => Nat.testBit (hash p.1) ld)).length ≤ b1.size
          simp only [List.length_append, List.length_cons, List.length_nil]
          simp at hc1 ⊢
          omega)]
      simp [hfilter0, hfilter1, List.append_assoc]
    · have hfilter1 : (it :: t).filter (fun p => Nat.testBit (hash p.1) ld)
          = t.filter (fun p => Nat.testBit (hash p.1) ld) :=
        List.filter_cons_of_neg (by simpa using htb)
      have hfilter0 : (it :: t).filter (fun p => !(Nat.testBit (hash p.1) ld))
          = it :: t.filter (fun p => !(Nat.testBit (hash p.1) ld)) :=
        List.filter_cons_of_pos (by simpa using htb)
      rw [hfilter1] at hc1
      rw [hfilter0] at hc0
      have hlt0 : b0.list.length < b0.size := by
        simp at hc0
        omega
      have hins : b0.insert it.1 it.2
          = some { b0 with list := b0.list ++ [(it.1, it.2)] } := by
        unfold Bucket.insert
        rw [find?_eq_none_of_not_mem_keys _ _ (h0 it (by simp))]
        have hnf : b0.isFull = false := by
          unfold Bucket.isFull
          simp
          omega
        rw [hnf]
        rfl
      show distribute hash ld (it :: t) b0 b1 = _
      unfold distribute
      rw [hbit, if_neg (by simp [htb]), hins]
      rw [ih _ _ hnd.2
        (fun p hp => by
          show p.1 ∉ (b0.list ++ [(it.1, it.2)]).map Prod.fst
          simp only [List.map_append, List.map_cons, List.map_nil,
            List.mem_append, List.mem_cons, List.not_mem_nil]
          push_neg
          refine ⟨h0 p (List.mem_cons.mpr (Or.inr hp)), ?_, fun h => h⟩
          intro he
          exact hnd.1 (he ▸ List.mem_map_of_mem Prod.fst hp))
        (fun p hp => h1 p (List.mem_cons.mpr (Or.inr hp)))
        (by
          show (b0.list ++ [(it.1, it.2)]).length
            + (t.filter (fun p => !(Nat.testBit (hash p.1) ld))).length ≤ b0.size
          simp only [List.length_append, List.length_cons, List.length_nil]
          simp at hc0 ⊢
          omega)
        hc1]
      simp [hfilter0, hfilter1, List.append_assoc]

/-- `SplitTheBucket` written out: the repointed directory, the bumped bucket
count, and the arena extended with the two children holding the split bucket's
items partitioned by bit `local_depth` of their hashes. -/
theorem splitTheBucket_eq (s : HState K V) (k : K) (hwf : WF hash s) :
    splitTheBucket hash s k = { s with
      dir := (List.range s.dir.length).map (fun i =>
        if dirAt s i = dirAt s (indexOf hash s k) then
          (if Nat.testBit i
              (bucketAt s (dirAt s (indexOf hash s k))).depth then
            s.buckets.length + 1
          else s.buckets.length)
        else dirAt s i),
      num_buckets := s.num_buckets + 1,
      buckets := s.buckets.set (dirAt s (indexOf hash s k))
          { bucketAt s (dirAt s (indexOf hash s k)) with
            depth := (bucketAt s (dirAt s (indexOf hash s k))).depth + 1 }
        ++ [⟨s.bucket_size,
              (bucketAt s (dirAt s (indexOf hash s k))).depth + 1,
              (bucketAt s (dirAt s (indexOf hash s k))).list.filter
                (fun p => !(Nat.testBit (hash p.1)
                  (bucketAt s (dirAt s (indexOf hash s k))).depth))⟩,
            ⟨s.bucket_size,
              (bucketAt s (dirAt s (indexOf hash s k))).depth + 1,
              (bucketAt s (dirAt s (indexOf hash s k))).list.filter
                (fun p => Nat.testBit (hash p.1)
                  (bucketAt s (dirAt s (indexOf hash s k))).depth)⟩] } := by
  have hidxlt : indexOf hash s k < s.dir.length :=
    indexOf_lt_dir_length hash s hwf k
  have hdist := distribute_eq hash
    (bucketAt s (dirAt s (indexOf hash s k))).depth
    (bucketAt s (dirAt s (indexOf hash s k))).list
    ⟨s.bucket_size, (bucketAt s (dirAt s (indexOf hash s k))).depth + 1, []⟩
    ⟨s.bucket_size, (bucketAt s (dirAt s (indexOf hash s k))).depth + 1, []⟩
    (hwf.keys_nd _ hidxlt)
    (by simp)
    (by simp)
    (by simpa using le_trans (List.length_filter_le _ _) (hwf.len_le _ hidxlt))
    (by simpa using le_trans (List.length_filter_le _ _) (hwf.len_le _ hidxlt))
  simp only [splitTheBucket]
  rw [hdist]
  simp

theorem split_dir_length (s : HState K V) (k : K) (hwf : WF hash s) :
    (splitTheBucket hash s k).dir.length = s.dir.length := by
  rw [splitTheBucket_eq hash s k hwf]
  simp

theorem split_global_depth (s : HState K V) (k : K) (hwf : WF hash s) :
    (splitTheBucket hash s k).global_depth = s.global_depth := by
  rw [splitTheBucket_eq hash s k hwf]

theorem split_bucket_size (s : HState K V) (k : K) (hwf : WF hash s) :
    (splitTheBucket hash s k).bucket_size = s.bucket_size := by
  rw [splitTheBucket_eq hash s k hwf]

theorem split_buckets_length (s : HState K V) (k : K) (hwf : WF hash s) :
    (splitTheBucket hash s k).buckets.length = s.buckets.length + 2 := by
  rw [splitTheBucket_eq hash s k hwf]
  simp

theorem split_dirAt (s : HState K V) (k : K) (hwf : WF hash s) (i : Nat)
    (hi : i < s.dir.length) :
    dirAt (splitTheBucket hash s k) i
      = if dirAt s i = dirAt s (indexOf hash s k) then
          (if Nat.testBit i (bucketAt s (dirAt s (indexOf hash s k))).depth
            then s.buckets.length + 1 else s.buckets.length)
        else dirAt s i := by
  rw [splitTheBucket_eq hash s k hwf]
  show ((List.range s.dir.length).map _).getD i 0 = _
  rw [getD_range_map _ _ _ _ hi]

theorem split_bucketAt_new0 (s : HState K V) (k : K) (hwf : WF hash s) :
    bucketAt (splitTheBucket hash s k) s.buckets.length
      = ⟨s.bucket_size, (bucketAt s (dirAt s (indexOf hash s k))).depth + 1,
          (bucketAt s (dirAt s (indexOf hash s k))).list.filter
            (fun p => !(Nat.testBit (hash p.1)
              (bucketAt s (dirAt s (indexOf hash s k))).depth))⟩ := by
  rw [splitTheBucket_eq hash s k hwf]
  show ((s.buckets.set _ _) ++ [_, _]).getD s.buckets.length _ = _
  rw [getD_append_right' _ _ _ _ (by simp)]
  simp

theorem split_bucketAt_new1 (s : HState K V) (k : K) (hwf : WF hash s) :
    bucketAt (splitTheBucket hash s k) (s.buckets.length + 1)
      = ⟨s.bucket_size, (bucketAt s (dirAt s (indexOf hash s k))).depth + 1,
          (bucketAt s (dirAt s (indexOf hash s k))).list.filter
            (fun p => Nat.testBit (hash p.1)
              (bucketAt s (dirAt s (indexOf hash s k))).depth)⟩ := by
  rw [splitTheBucket_eq hash s k hwf]
  show ((s.buckets.set _ _) ++ [_, _]).getD (s.buckets.length + 1) _ = _
  rw [getD_append_right' _ _ _ _ (by simp)]
  simp

theorem split_bucketAt_old (s : HState K V) (k : K) (hwf : WF hash s)
    (j : Nat) (hj : j < s.buckets.length)
    (hne : j ≠ dirAt s (indexOf hash s k)) :
    bucketAt (splitTheBucket hash s k) j = bucketAt s j := by
  rw [splitTheBucket_eq hash s k hwf]
  show ((s.buckets.set _ _) ++ [_, _]).getD j _ = _
  rw [getD_append_left _ _ _ _ (by simpa using hj),
    getD_set_ne _ _ _ _ _ (fun e => hne e.symm)]
  rfl

/-- Splitting a bucket whose depth is below the global depth preserves the
invariant. -/
theorem wf_split (s : HState K V) (k : K) (hwf : WF hash s) (B ld : Nat)
    (hB : B = dirAt s (indexOf hash s k))
    (hld : ld = (bucketAt s B).depth)
    (hlt : ld < s.global_depth) :
    WF hash (splitTheBucket hash s k) := by
  have hidxlt : indexOf hash s k < s.dir.length :=
    indexOf_lt_dir_length hash s hwf k
  have hBlt : B < s.buckets.length := hB ▸ hwf.idx_lt _ hidxlt
  have hL : (splitTheBucket hash s k).dir.length = s.dir.length :=
    split_dir_length hash s k hwf
  have hgd : (splitTheBucket hash s k).global_depth = s.global_depth :=
    split_global_depth hash s k hwf
  have hbs : (splitTheBucket hash s k).bucket_size = s.bucket_size :=
    split_bucket_size hash s k hwf
  have hBL : (splitTheBucket hash s k).buckets.length = s.buckets.length + 2 :=
    split_buckets_length hash s k hwf
  have hD : ∀ i < s.dir.length, dirAt (splitTheBucket hash s k) i
      = if dirAt s i = B then
          (if Nat.testBit i ld then s.buckets.length + 1 else s.buckets.length)
        else dirAt s i := by
    intro i hi
    rw [split_dirAt hash s k hwf i hi, ← hB, ← hld]
  have hC0 : bucketAt (splitTheBucket hash s k) s.buckets.length
      = ⟨s.bucket_size, ld + 1, (bucketAt s B).list.filter
          (fun p => !(Nat.testBit (hash p.1) ld))⟩ := by
    rw [split_bucketAt_new0 hash s k hwf, ← hB, ← hld]
  have hC1 : bucketAt (splitTheBucket hash s k) (s.buckets.length + 1)
      = ⟨s.bucket_size, ld + 1, (bucketAt s B).list.filter
          (fun p => Nat.testBit (hash p.1) ld)⟩ := by
    rw [split_bucketAt_new1 hash s k hwf, ← hB, ← hld]
  have hCiff : ∀ i < s.dir.length, (dirAt s i = B ↔
      i % 2 ^ ld = indexOf hash s k % 2 ^ ld) := by
    intro i hi
    rw [hB, hld, hB]
    exact dirAt_eq_dirAt_iff hash s hwf _ hidxlt i hi
  have hmaster : ∀ i, i < s.dir.length →
      (dirAt s i = B ∧
        dirAt (splitTheBucket hash s k) i
          = (if Nat.testBit i ld then s.buckets.length + 1
             else s.buckets.length) ∧
        bucketAt (splitTheBucket hash s k) (dirAt (splitTheBucket hash s k) i)
          = ⟨s.bucket_size, ld + 1, (bucketAt s B).list.filter
              (fun p => decide (Nat.testBit (hash p.1) ld
                = Nat.testBit i ld))⟩) ∨
      (dirAt s i ≠ B ∧
        dirAt (splitTheBucket hash s k) i = dirAt s i ∧
        bucketAt (splitTheBucket hash s k) (dirAt s i)
          = bucketAt s (dirAt s i)) := by
    intro i hi
    by_cases hc : dirAt s i = B
    · left
      refine ⟨hc, ?_, ?_⟩
      · rw [hD i hi, if_pos hc]
      · rw [hD i hi, if_pos hc]
        cases htb : Nat.testBit i ld
        · rw [if_neg (by simp), hC0]
          congr 1
          apply List.filter_congr
          intro p hp
          cases Nat.testBit (hash p.1) ld <;> simp
        · rw [if_pos rfl, hC1]
          congr 1
          apply List.filter_congr
          intro p hp
          cases Nat.testBit (hash p.1) ld <;> simp
    · right
      refine ⟨hc, ?_, ?_⟩
      · rw [hD i hi, if_neg hc]
      · exact split_bucketAt_old hash s k hwf _ (hwf.idx_lt i hi) (hB ▸ hc)
  refine ⟨?_, ?_, ?_, ?_, ?_, ?_, ?_, ?_⟩
  · rw [hL, hgd]
    exact hwf.dir_len
  · intro i hi
    rw [hL] at hi
    rw [hBL]
    rcases hmaster i hi with ⟨_, hd, _⟩ | ⟨_, hd, _⟩
    · rw [hd]
      cases Nat.testBit i ld <;> simp <;> omega
    · rw [hd]
      have := hwf.idx_lt i hi
      omega
  · intro i hi
    rw [hL] at hi
    rw [hgd]
    rcases hmaster i hi with ⟨_, _, hbk⟩ | ⟨_, hd, hbk⟩
    · rw [hbk]
      exact hlt
    · rw [hd, hbk]
      exact hwf.depth_le i hi
  · intro i hi
    rw [hL] at hi
    rw [hbs]
    rcases hmaster i hi with ⟨_, _, hbk⟩ | ⟨_, hd, hbk⟩
    · rw [hbk]
    · rw [hd, hbk]
      exact hwf.size_eq i hi
  · intro i hi
    rw [hL] at hi
    rw [hbs]
    rcases hmaster i hi with ⟨_, _, hbk⟩ | ⟨_, hd, hbk⟩
    · rw [hbk]
      exact le_trans (List.length_filter_le _ _)
        (hB ▸ hwf.len_le _ hidxlt)
    · rw [hd, hbk]
      exact hwf.len_le i hi
  · intro i hi
    rw [hL] at hi
    rcases hmaster i hi with ⟨_, _, hbk⟩ | ⟨_, hd, hbk⟩
    · rw [hbk]
      exact ((List.filter_sublist _).map Prod.fst).nodup
        (hB ▸ hwf.keys_nd _ hidxlt)
    · rw [hd, hbk]
      exact hwf.keys_nd i hi
  · intro i hi p hp
    rw [hL] at hi
    rcases hmaster i hi with ⟨hc, _, hbk⟩ | ⟨_, hd, hbk⟩
    · rw [hbk] at hp ⊢
      simp only [List.mem_filter] at hp
      obtain ⟨hpm, hpb⟩ := hp
      show hash p.1 % 2 ^ (ld + 1) = i % 2 ^ (ld + 1)
      rw [mod_two_pow_succ_eq_iff]
      constructor
      · have h1 : hash p.1 % 2 ^ ld = indexOf hash s k % 2 ^ ld := by
          have := hwf.keys_mod _ hidxlt p (by rw [← hB]; exact hpm)
          rw [← hB, ← hld] at this
          exact this
        have h2 : i % 2 ^ ld = indexOf hash s k % 2 ^ ld :=
          (hCiff i hi).mp hc
        rw [h1, h2]
      · simpa using hpb
    · rw [hd, hbk] at hp ⊢
      exact hwf.keys_mod i hi p hp
  · intro i hi j hj
    rw [hL] at hi hj
    rcases hmaster i hi with ⟨hci, hdi, hbi⟩ | ⟨hci, hdi, hbi⟩ <;>
      rcases hmaster j hj with ⟨hcj, hdj, hbj⟩ | ⟨hcj, hdj, hbj⟩
    · rw [hbi, hdi, hdj]
      show _ ↔ i % 2 ^ (ld + 1) = j % 2 ^ (ld + 1)
      rw [mod_two_pow_succ_eq_iff]
      have hij : i % 2 ^ ld = j % 2 ^ ld := by
        rw [(hCiff i hi).mp hci, (hCiff j hj).mp hcj]
      cases htbi : Nat.testBit i ld <;> cases htbj : Nat.testBit j ld <;>
        simp [hij] <;> omega
    · rw [hbi, hdi, hdj]
      show _ ↔ i % 2 ^ (ld + 1) = j % 2 ^ (ld + 1)
      have hdjlt : dirAt s j < s.buckets.length := hwf.idx_lt j hj
      refine iff_of_false ?_ ?_
      · cases Nat.testBit i ld <;> simp <;> omega
      · intro hmod
        have hmod' : i % 2 ^ ld = j % 2 ^ ld := by
          have := congrArg (fun x => x % 2 ^ ld) hmod
          simpa [mod_pow_mod _ _ (Nat.le_succ ld)] using this
        exact hcj ((hCiff j hj).mpr
          (hmod' ▸ (hCiff i hi).mp hci))
    · rw [hdi, hdj, hbi]
      have hdilt : dirAt s i < s.buckets.length := hwf.idx_lt i hi
      refine iff_of_false ?_ ?_
      · cases Nat.testBit j ld <;> simp <;> omega
      · intro hmod
        have hshare := (hwf.share_iff i hi j hj).mpr hmod
        rw [hshare, hcj] at hci
        exact hci rfl
    · rw [hdi, hdj, hbi]
      exact hwf.share_iff i hi j hj

/-- Splitting never changes the result of `Find`: each key's lookup path
lands in the child holding exactly the items on its side of the split bit. -/
theorem findKey_split (s : HState K V) (k : K) (hwf : WF hash s) (B ld : Nat)
    (hB : B = dirAt s (indexOf hash s k))
    (hld : ld = (bucketAt s B).depth)
    (hlt : ld < s.global_depth) (q : K) :
    findKey hash (splitTheBucket hash s k) q = findKey hash s q := by
  have hidxq : indexOf hash s q < s.dir.length :=
    indexOf_lt_dir_length hash s hwf q
  have hidx_eq : indexOf hash (splitTheBucket hash s k) q
      = indexOf hash s q := by
    unfold indexOf
    rw [split_global_depth hash s k hwf]
  unfold findKey
  rw [hidx_eq]
  by_cases hc : dirAt s (indexOf hash s q) = B
  · rw [split_dirAt hash s k hwf _ hidxq, ← hB, ← hld, if_pos hc]
    have hqbit : Nat.testBit (indexOf hash s q) ld
        = Nat.testBit (hash q) ld := by
      unfold indexOf
      exact testBit_of_mod_two_pow ld s.global_depth hlt
    have hkeybit : ∀ it : K × V, it ∈ (bucketAt s B).list → it.1 = q →
        Nat.testBit (hash it.1) ld = Nat.testBit (indexOf hash s q) ld := by
      intro it hit hkey
      rw [hkey, ← hqbit]
    cases htb : Nat.testBit (indexOf hash s q) ld
    · rw [if_neg (by simp), split_bucketAt_new0 hash s k hwf, ← hB, ← hld, hc]
      show (((bucketAt s B).list.filter
          (fun p => !(Nat.testBit (hash p.1) ld))).find?
            (fun it => decide (it.1 = q))).map (fun it => it.2)
        = ((bucketAt s B).list.find? (fun it => decide (it.1 = q))).map
            (fun it => it.2)
      rw [find?_filter_key _ _ _ (fun it hit hkey => by
        rw [hkeybit it hit hkey, htb]
        rfl)]
    · rw [if_pos rfl, split_bucketAt_new1 hash s k hwf, ← hB, ← hld, hc]
      show (((bucketAt s B).list.filter
          (fun p => Nat.testBit (hash p.1) ld)).find?
            (fun it => decide (it.1 = q))).map (fun it => it.2)
        = ((bucketAt s B).list.find? (fun it => decide (it.1 = q))).map
            (fun it => it.2)
      rw [find?_filter_key _ _ _ (fun it hit hkey => by
        rw [hkeybit it hit hkey, htb])]
  · rw [split_dirAt hash s k hwf _ hidxq, ← hB, if_neg hc,
      split_bucketAt_old hash s k hwf _ (hwf.idx_lt _ hidxq) (hB ▸ hc)]

/-- After a split, the bucket the key of interest maps to is one of the two
children: a filtered copy of the old bucket with depth one deeper. -/
theorem split_target (s : HState K V) (k : K) (hwf : WF hash s) (B ld : Nat)
    (hB : B = dirAt s (indexOf hash s k))
    (hld : ld = (bucketAt s B).depth) :
    ∃ pr : K × V → Bool,
      bucketAt (splitTheBucket hash s k)
          (dirAt (splitTheBucket hash s k)
            (indexOf hash (splitTheBucket hash s k) k))
        = ⟨s.bucket_size, ld + 1, (bucketAt s B).list.filter pr⟩ := by
  have hidxlt : indexOf hash s k < s.dir.length :=
    indexOf_lt_dir_length hash s hwf k
  have hidx_eq : indexOf hash (splitTheBucket hash s k) k
      = indexOf hash s k := by
    unfold indexOf
    rw [split_global_depth hash s k hwf]
  rw [hidx_eq, split_dirAt hash s k hwf _ hidxlt, ← hB, ← hld, if_pos rfl]
  cases htb : Nat.testBit (indexOf hash s k) ld
  · rw [if_neg (by simp)]
    exact ⟨_, by rw [split_bucketAt_new0 hash s k hwf, ← hB, ← hld]⟩
  · rw [if_pos rfl]
    exact ⟨_, by rw [split_bucketAt_new1 hash s k hwf, ← hB, ← hld]⟩

/-- A successful `Bucket::Insert` at the key's slot preserves the invariant. -/
theorem insert_success_wf (s : HState K V) (k : K) (v : V) (b2 : Bucket K V)
    (hwf : WF hash s)
    (hins : (bucketAt s (dirAt s (indexOf hash s k))).insert k v = some b2) :
    WF hash { s with
      buckets := s.buckets.set (dirAt s (indexOf hash s k)) b2 } := by
  have hidxlt : indexOf hash s k < s.dir.length :=
    indexOf_lt_dir_length hash s hwf k
  have hds := Bucket.insert_depth_size _ k v b2 hins
  have hldle : (bucketAt s (dirAt s (indexOf hash s k))).depth
      ≤ s.global_depth := hwf.depth_le _ hidxlt
  have hkmod : hash k % 2 ^ (bucketAt s (dirAt s (indexOf hash s k))).depth
      = indexOf hash s k
        % 2 ^ (bucketAt s (dirAt s (indexOf hash s k))).depth := by
    show hash k % 2 ^ _ = hash k % 2 ^ s.global_depth % 2 ^ _
    rw [mod_pow_mod _ _ hldle]
  have hmem_mod : ∀ i < s.dir.length,
      dirAt s i = dirAt s (indexOf hash s k) → ∀ x : K,
      x ∈ (bucketAt s (dirAt s (indexOf hash s k))).list.map Prod.fst →
      hash x % 2 ^ b2.depth = i % 2 ^ b2.depth := by
    intro i hi hc x hx
    obtain ⟨p', hp', hfst⟩ := List.mem_map.mp hx
    have := hwf.keys_mod i hi p' (by rw [hc]; exact hp')
    rw [hds.1, ← hfst]
    rw [hc] at this
    exact this
  apply wf_updateBucket hash s hwf _ b2 (hwf.idx_lt _ hidxlt) hds.1 hds.2
  · rcases Bucket.insert_cases _ k v b2 hins with ⟨hf, rfl⟩ | ⟨hf, hfull, rfl⟩
    · show (updateFirst _ k v).length ≤ s.bucket_size
      rw [updateFirst_length]
      exact hwf.len_le _ hidxlt
    · show (_ ++ [(k, v)]).length ≤ s.bucket_size
      rw [List.length_append]
      have hsz : (bucketAt s (dirAt s (indexOf hash s k))).size
          = s.bucket_size := hwf.size_eq _ hidxlt
      have hnotfull : (bucketAt s (dirAt s (indexOf hash s k))).list.length
          < (bucketAt s (dirAt s (indexOf hash s k))).size := by
        have := hfull
        unfold Bucket.isFull at this
        simpa using this
      simp only [List.length_cons, List.length_nil]
      omega
  · rcases Bucket.insert_cases _ k v b2 hins with ⟨hf, rfl⟩ | ⟨hf, hfull, rfl⟩
    · show ((updateFirst _ k v).map Prod.fst).Nodup
      rw [updateFirst_map_fst]
      exact hwf.keys_nd _ hidxlt
    · show ((_ ++ [(k, v)]).map Prod.fst).Nodup
      rw [List.map_append]
      have hkn : k ∉ (bucketAt s (dirAt s (indexOf hash s k))).list.map
          Prod.fst := by
        intro hmem
        rw [← find?_isSome_iff_mem_keys] at hmem
        rw [hmem] at hf
        cases hf
      simp only [List.map_cons, List.map_nil]
      refine List.nodup_append.mpr
        ⟨hwf.keys_nd _ hidxlt, List.nodup_singleton _, ?_⟩
      intro a ha hmem
      have hak : a = k := by simpa using hmem
      exact hkn (hak ▸ ha)
  · intro i hi hc p hp
    rcases Bucket.insert_cases _ k v b2 hins with ⟨hf, he⟩ | ⟨hf, hfull, he⟩
    · have hp' : p ∈ updateFirst
          (bucketAt s (dirAt s (indexOf hash s k))).list k v := by
        rw [he] at hp
        exact hp
      exact hmem_mod i hi hc p.1 (mem_updateFirst_fst _ k v p hp')
    · have hp' : p ∈ (bucketAt s (dirAt s (indexOf hash s k))).list
          ++ [(k, v)] := by
        rw [he] at hp
        exact hp
      rcases List.mem_append.mp hp' with hold | hnew
      · exact hmem_mod i hi hc p.1 (List.mem_map_of_mem Prod.fst hold)
      · have hpk : p = (k, v) := by simpa using hnew
        rw [hpk]
        show hash k % 2 ^ b2.depth = i % 2 ^ b2.depth
        rw [hds.1]
        have hiidx : i % 2 ^ (bucketAt s (dirAt s (indexOf hash s k))).depth
            = indexOf hash s k
              % 2 ^ (bucketAt s (dirAt s (indexOf hash s k))).depth :=
          (dirAt_eq_dirAt_iff hash s hwf _ hidxlt i hi).mp hc
        rw [hkmod, hiidx]

theorem findKey_set_self (s : HState K V) (k : K) (v : V) (b2 : Bucket K V)
    (hwf : WF hash s)
    (hins : (bucketAt s (dirAt s (indexOf hash s k))).insert k v = some b2) :
    findKey hash { s with
      buckets := s.buckets.set (dirAt s (indexOf hash s k)) b2 } k
      = some v := by
  unfold findKey
  have hidx : indexOf hash { s with
      buckets := s.buckets.set (dirAt s (indexOf hash s k)) b2 } k
      = indexOf hash s k := rfl
  rw [hidx]
  have hdir : dirAt { s with
      buckets := s.buckets.set (dirAt s (indexOf hash s k)) b2 }
        (indexOf hash s k) = dirAt s (indexOf hash s k) := rfl
  rw [hdir, bucketAt_set s _ b2 _
    (hwf.idx_lt _ (indexOf_lt_dir_length hash s hwf k)), if_pos rfl]
  exact Bucket.find_insert_self _ k v b2 hins

theorem findKey_set_ne (s : HState K V) (k : K) (v : V) (b2 : Bucket K V)
    (hwf : WF hash s)
    (hins : (bucketAt s (dirAt s (indexOf hash s k))).insert k v = some b2)
    (q : K) (hne : q ≠ k) :
    findKey hash { s with
      buckets := s.buckets.set (dirAt s (indexOf hash s k)) b2 } q
      = findKey hash s q := by
  unfold findKey
  have hidx : indexOf hash { s with
      buckets := s.buckets.set (dirAt s (indexOf hash s k)) b2 } q
      = indexOf hash s q := rfl
  rw [hidx]
  have hdir : dirAt { s with
      buckets := s.buckets.set (dirAt s (indexOf hash s k)) b2 }
        (indexOf hash s q) = dirAt s (indexOf hash s q) := rfl
  rw [hdir, bucketAt_set s _ b2 _
    (hwf.idx_lt _ (indexOf_lt_dir_length hash s hwf k))]
  by_cases hc : dirAt s (indexOf hash s q) = dirAt s (indexOf hash s k)
  · rw [if_pos hc, hc]
    exact Bucket.find_insert_ne _ k v b2 q hins hne
  · rw [if_neg hc]

/-- The `Insert` loop, when it reaches a successful placement within its
fuel, preserves the invariant, makes the inserted key findable with its
value, and leaves every other key's lookup unchanged. -/
theorem insertFuel_spec (n : Nat) : ∀ s : HState K V, ∀ k : K, ∀ v : V,
    ∀ s₁ : HState K V, WF hash s → insertFuel hash n s k v = some s₁ →
    WF hash s₁ ∧ findKey hash s₁ k = some v ∧
      ∀ q, q ≠ k → findKey hash s₁ q = findKey hash s q := by
  induction n with
  | zero =>
    intro s k v s₁ hwf h
    cases h
  | succ n ih =>
    intro s k v s₁ hwf h
    have h' : insertFuel hash (n + 1) s k v
        = (match (bucketAt s (dirAt s (indexOf hash s k))).insert k v with
          | some b2 => some { s with
              buckets := s.buckets.set (dirAt s (indexOf hash s k)) b2 }
          | none => insertFuel hash n (splitTheBucket hash
              (if s.global_depth
                  = (bucketAt s (dirAt s (indexOf hash s k))).depth then
                { directoryExtension s with
                  global_depth := s.global_depth + 1 }
              else s) k) k v) := rfl
    rw [h'] at h
    cases hins : (bucketAt s (dirAt s (indexOf hash s k))).insert k v with
    | some b2 =>
      rw [hins] at h
      simp only at h
      obtain rfl := (Option.some.inj h).symm
      exact ⟨insert_success_wf hash s k v b2 hwf hins,
        findKey_set_self hash s k v b2 hwf hins,
        fun q hq => findKey_set_ne hash s k v b2 hwf hins q hq⟩
    | none =>
      rw [hins] at h
      simp only at h
      by_cases hgd : s.global_depth
          = (bucketAt s (dirAt s (indexOf hash s k))).depth
      · rw [if_pos hgd] at h
        have hwf2 : WF hash { directoryExtension s with
            global_depth := s.global_depth + 1 } := wf_ext hash s hwf
        have htgt : dirAt { directoryExtension s with
              global_depth := s.global_depth + 1 }
            (indexOf hash { directoryExtension s with
              global_depth := s.global_depth + 1 } k)
            = dirAt s (indexOf hash s k) := target_ext hash s hwf k
        have hlt2 : (bucketAt { directoryExtension s with
              global_depth := s.global_depth + 1 }
            (dirAt { directoryExtension s with
              global_depth := s.global_depth + 1 }
              (indexOf hash { directoryExtension s with
                global_depth := s.global_depth + 1 } k))).depth
            < ({ directoryExtension s with
                global_depth := s.global_depth + 1 } : HState K V).global_depth := by
          rw [htgt, bucketAt_ext, ← hgd]
          exact Nat.lt_succ_self _
        obtain ⟨hwf1, hfind, hpres⟩ := ih _ k v s₁
          (wf_split hash _ k hwf2 _ _ rfl rfl hlt2) h
        refine ⟨hwf1, hfind, fun q hq => ?_⟩
        rw [hpres q hq, findKey_split hash _ k hwf2 _ _ rfl rfl hlt2 q,
          findKey_ext hash s hwf q]
      · rw [if_neg hgd] at h
        have hlt2 : (bucketAt s (dirAt s (indexOf hash s k))).depth
            < s.global_depth :=
          lt_of_le_of_ne
            (hwf.depth_le _ (indexOf_lt_dir_length hash s hwf k))
            (fun e => hgd e.symm)
        obtain ⟨hwf1, hfind, hpres⟩ := ih _ k v s₁
          (wf_split hash s k hwf _ _ rfl rfl hlt2) h
        refine ⟨hwf1, hfind, fun q hq => ?_⟩
        rw [hpres q hq, findKey_split hash s k hwf _ _ rfl rfl hlt2 q]

/-- `Remove` preserves the invariant. -/
theorem removeKey_wf (s : HState K V) (k : K) (hwf : WF hash s) :
    WF hash (removeKey hash s k).2 := by
  have hidxlt : indexOf hash s k < s.dir.length :=
    indexOf_lt_dir_length hash s hwf k
  have hsub : ((bucketAt s (dirAt s (indexOf hash s k))).removeKey k).2.list.Sublist
      (bucketAt s (dirAt s (indexOf hash s k))).list := by
    unfold Bucket.removeKey
    by_cases hf : ((bucketAt s (dirAt s (indexOf hash s k))).list.find?
        (fun it => decide (it.1 = k))).isSome
    · rw [if_pos hf]
      exact List.eraseP_sublist _
    · rw [if_neg hf]
  have hds : ((bucketAt s (dirAt s (indexOf hash s k))).removeKey k).2.depth
        = (bucketAt s (dirAt s (indexOf hash s k))).depth
      ∧ ((bucketAt s (dirAt s (indexOf hash s k))).removeKey k).2.size
        = (bucketAt s (dirAt s (indexOf hash s k))).size := by
    unfold Bucket.removeKey
    by_cases hf : ((bucketAt s (dirAt s (indexOf hash s k))).list.find?
        (fun it => decide (it.1 = k))).isSome
    · rw [if_pos hf]
      exact ⟨rfl, rfl⟩
    · rw [if_neg hf]
      exact ⟨rfl, rfl⟩
  show WF hash { s with
    buckets := s.buckets.set (dirAt s (indexOf hash s k))
        ((bucketAt s (dirAt s (indexOf hash s k))).removeKey k).2 }
  apply wf_updateBucket hash s hwf _ _ (hwf.idx_lt _ hidxlt) hds.1 hds.2
  · exact le_trans hsub.length_le (hwf.len_le _ hidxlt)
  · exact (hsub.map Prod.fst).nodup (hwf.keys_nd _ hidxlt)
  · intro i hi hc p hp
    rw [hds.1]
    have := hwf.keys_mod i hi p (by rw [hc]; exact hsub.mem hp)
    rw [hc] at this
    exact this

/-- `Remove` never changes the lookup of a different key. -/
theorem removeKey_find_ne (s : HState K V) (k : K) (hwf : WF hash s)
    (q : K) (hne : q ≠ k) :
    findKey hash (removeKey hash s k).2 q = findKey hash s q := by
  show findKey hash { s with
      buckets := s.buckets.set (dirAt s (indexOf hash s k))
        ((bucketAt s (dirAt s (indexOf hash s k))).removeKey k).2 } q
    = findKey hash s q
  unfold findKey
  have hidx : indexOf hash { s with
      buckets := s.buckets.set (dirAt s (indexOf hash s k))
        ((bucketAt s (dirAt s (indexOf hash s k))).removeKey k).2 } q
      = indexOf hash s q := rfl
  rw [hidx]
  have hdir : dirAt { s with
      buckets := s.buckets.set (dirAt s (indexOf hash s k))
        ((bucketAt s (dirAt s (indexOf hash s k))).removeKey k).2 }
        (indexOf hash s q) = dirAt s (indexOf hash s q) := rfl
  rw [hdir, bucketAt_set s _ _ _ (hwf.idx_lt _
    (indexOf_lt_dir_length hash s hwf k))]
  by_cases hc : dirAt s (indexOf hash s q) = dirAt s (indexOf hash s k)
  · rw [if_pos hc, hc]
    unfold Bucket.removeKey
    by_cases hf : ((bucketAt s (dirAt s (indexOf hash s k))).list.find?
        (fun it => decide (it.1 = k))).isSome
    · rw [if_pos hf]
      show ((((bucketAt s (dirAt s (indexOf hash s k))).list.eraseP
          (fun it => decide (it.1 = k))).find?
            (fun it => decide (it.1 = q))).map (fun it => it.2)) = _
      rw [find_eraseP_ne _ k q hne]
      rfl
    · rw [if_neg hf]
  · rw [if_neg hc]

/-- A public mutating-or-reading call on the hash table: `Insert` (with the
fuel bounding its internal loop), `Remove`, or `Find`. -/
inductive TableOp (K V : Type) where
  | ins (fuel : Nat) (k : K) (v : V)
  | del (k : K)
  | query (k : K)

/-- Whether a call would overwrite or delete the tracked key. -/
def opTouches {K V : Type} : TableOp K V → K → Prop
  | .ins _ k _, q => k = q
  | .del k, q => k = q
  | .query _, _ => False

/-- Run a sequence of public calls; `Find` leaves the state unchanged and
`none` reports an `Insert` that exhausted its fuel. -/
def runOps : List (TableOp K V) → HState K V → Option (HState K V)
  | [], s => some s
  | op :: t, s =>
    match op with
    | .ins n k v =>
      match insertFuel hash n s k v with
      | some s' => runOps t s'
      | none => none
    | .del k => runOps t (removeKey hash s k).2
    | .query _ => runOps t s

theorem runOps_spec (ops : List (TableOp K V)) :
    ∀ s s₂ : HState K V, ∀ k : K, WF hash s →
    runOps hash ops s = some s₂ →
    (∀ op ∈ ops, ¬ opTouches op k) →
    WF hash s₂ ∧ findKey hash s₂ k = findKey hash s k := by
  induction ops with
  | nil =>
    intro s s₂ k hwf h _
    obtain rfl := (Option.some.inj h).symm
    exact ⟨hwf, rfl⟩
  | cons op t ih =>
    intro s s₂ k hwf h hno
    have hnop : ¬ opTouches op k := hno op (by simp)
    have hnot : ∀ x ∈ t, ¬ opTouches x k :=
      fun x hx => hno x (List.mem_cons.mpr (Or.inr hx))
    cases op with
    | ins n k' v' =>
      have h' : runOps hash (TableOp.ins n k' v' :: t) s
          = (match insertFuel hash n s k' v' with
            | some s' => runOps hash t s'
            | none => none) := rfl
      rw [h'] at h
      cases hins : insertFuel hash n s k' v' with
      | some s' =>
        rw [hins] at h
        simp only at h
        obtain ⟨hwf', hfind', hpres'⟩ :=
          insertFuel_spec hash n s k' v' s' hwf hins
        obtain ⟨hwf2, hkeep⟩ := ih s' s₂ k hwf' h hnot
        refine ⟨hwf2, ?_⟩
        rw [hkeep, hpres' k (fun e => hnop e.symm)]
      | none =>
        rw [hins] at h
        cases h
    | del k' =>
      have h' : runOps hash (TableOp.del k' :: t) s
          = runOps hash t (removeKey hash s k').2 := rfl
      rw [h'] at h
      obtain ⟨hwf2, hkeep⟩ := ih _ s₂ k (removeKey_wf hash s k' hwf) h hnot
      refine ⟨hwf2, ?_⟩
      rw [hkeep, removeKey_find_ne hash s k' hwf k (fun e => hnop e.symm)]
    | query k' =>
      have h' : runOps hash (TableOp.query k' :: t) s
          = runOps hash t s := rfl
      rw [h'] at h
      exact ih s s₂ k hwf h hnot

/-- One public mutating call on the table. -/
inductive HStep : HState K V → HState K V → Prop where
  | insert : ∀ n : Nat, ∀ k : K, ∀ v : V, ∀ s s₁ : HState K V,
      insertFuel hash n s k v = some s₁ → HStep s s₁
  | remove : ∀ k : K, ∀ s : HState K V, HStep s (removeKey hash s k).2

/-- States produced from the constructor by public calls (`Find` leaves the
state unchanged). -/
inductive HReachable : HState K V → Prop where
  | init : ∀ bucket_size : Nat, HReachable (initTable bucket_size)
  | step : ∀ s s₁ : HState K V, HReachable s → HStep hash s s₁ →
      HReachable s₁

theorem hreachable_wf (s : HState K V) (h : HReachable hash s) :
    WF hash s := by
  induction h with
  | init bucket_size => exact wf_initTable hash bucket_size
  | step s s₁ _ hstep ih =>
    cases hstep with
    | insert n k v s s₁ hins => exact (insertFuel_spec hash n s k v s₁ ih hins).1
    | remove k s => exact removeKey_wf hash s k ih

/-- Number of directory slots referencing arena index `j`. -/
def refCount (s : HState K V) (j : Nat) : Nat :=
  ((List.range s.dir.length).filter (fun i => decide (dirAt s i = j))).length

theorem refCount_of_wf (s : HState K V) (hwf : WF hash s) (i : Nat)
    (hi : i < s.dir.length) :
    refCount s (dirAt s i)
      = 2 ^ (s.global_depth - (bucketAt s (dirAt s i)).depth) := by
  unfold refCount
  have hcong : ∀ j ∈ List.range s.dir.length,
      decide (dirAt s j = dirAt s i)
        = decide (j % 2 ^ (bucketAt s (dirAt s i)).depth
          = i % 2 ^ (bucketAt s (dirAt s i)).depth) := by
    intro j hj
    rw [List.mem_range] at hj
    exact decide_eq_decide.mpr (dirAt_eq_dirAt_iff hash s hwf i hi j hj)
  rw [List.filter_congr hcong, hwf.dir_len]
  exact filter_mod_range_length _ _ _
    (hwf.depth_le i hi)
    (Nat.mod_lt _ (two_pow_pos' _))

/-- If at some depth `N` fewer than a bucketful of the target bucket's items
collide with the key modulo `2 ^ N`, the `Insert` loop places the key within
`m + 1` iterations, where `m` covers the remaining depth gap: each iteration
either succeeds or splits, deepening the target bucket by one and never
adding colliding items to it. -/
theorem insertFuel_succeeds (k : K) (v : V) (N : Nat) (m : Nat) :
    ∀ s : HState K V, WF hash s →
    ((bucketAt s (dirAt s (indexOf hash s k))).list.filter
        (fun p => decide (hash p.1 % 2 ^ N = hash k % 2 ^ N))).length
      < s.bucket_size →
    N ≤ (bucketAt s (dirAt s (indexOf hash s k))).depth + m →
    (insertFuel hash (m + 1) s k v).isSome = true := by
  induction m with
  | zero =>
    intro s hwf hN hm
    have hidxlt : indexOf hash s k < s.dir.length :=
      indexOf_lt_dir_length hash s hwf k
    have hall : ∀ p ∈ (bucketAt s (dirAt s (indexOf hash s k))).list,
        decide (hash p.1 % 2 ^ N = hash k % 2 ^ N) = true := by
      intro p hp
      have hld : hash p.1
            % 2 ^ (bucketAt s (dirAt s (indexOf hash s k))).depth
          = hash k % 2 ^ (bucketAt s (dirAt s (indexOf hash s k))).depth := by
        have h1 := hwf.keys_mod _ hidxlt p hp
        have h2 : indexOf hash s k
              % 2 ^ (bucketAt s (dirAt s (indexOf hash s k))).depth
            = hash k % 2 ^ (bucketAt s (dirAt s (indexOf hash s k))).depth := by
          show hash k % 2 ^ s.global_depth % 2 ^ _ = _
          rw [mod_pow_mod _ _ (hwf.depth_le _ hidxlt)]
        rw [h1, h2]
      have hmN : N ≤ (bucketAt s (dirAt s (indexOf hash s k))).depth := by
        omega
      have := congrArg (fun x => x % 2 ^ N) hld
      simp only at this
      rw [mod_pow_mod _ _ hmN, mod_pow_mod _ _ hmN] at this
      exact decide_eq_true this
    have hfeq : (bucketAt s (dirAt s (indexOf hash s k))).list.filter
          (fun p => decide (hash p.1 % 2 ^ N = hash k % 2 ^ N))
        = (bucketAt s (dirAt s (indexOf hash s k))).list :=
      List.filter_eq_self.mpr hall
    rw [hfeq] at hN
    have hnf : (bucketAt s (dirAt s (indexOf hash s k))).isFull = false := by
      unfold Bucket.isFull
      have := hwf.size_eq _ hidxlt
      simp
      omega
    have hsome := Bucket.insert_isSome_of_not_full
      (bucketAt s (dirAt s (indexOf hash s k))) k v hnf
    have h' : insertFuel hash 1 s k v
        = (match (bucketAt s (dirAt s (indexOf hash s k))).insert k v with
          | some b2 => some { s with
              buckets := s.buckets.set (dirAt s (indexOf hash s k)) b2 }
          | none => insertFuel hash 0 (splitTheBucket hash
              (if s.global_depth
                  = (bucketAt s (dirAt s (indexOf hash s k))).depth then
                { directoryExtension s with
                  global_depth := s.global_depth + 1 }
              else s) k) k v) := rfl
    rw [h']
    cases hins : (bucketAt s (dirAt s (indexOf hash s k))).insert k v with
    | some b2 => rfl
    | none =>
      rw [hins] at hsome
      cases hsome
  | succ m ih =>
    intro s hwf hN hm
    have hidxlt : indexOf hash s k < s.dir.length :=
      indexOf_lt_dir_length hash s hwf k
    have h' : insertFuel hash (m + 1 + 1) s k v
        = (match (bucketAt s (dirAt s (indexOf hash s k))).insert k v with
          | some b2 => some { s with
              buckets := s.buckets.set (dirAt s (indexOf hash s k)) b2 }
          | none => insertFuel hash (m + 1) (splitTheBucket hash
              (if s.global_depth
                  = (bucketAt s (dirAt s (indexOf hash s k))).depth then
                { directoryExtension s with
                  global_depth := s.global_depth + 1 }
              else s) k) k v) := rfl
    rw [h']
    cases hins : (bucketAt s (dirAt s (indexOf hash s k))).insert k v with
    | some b2 => rfl
    | none =>
      simp only
      by_cases hgd : s.global_depth
          = (bucketAt s (dirAt s (indexOf hash s k))).depth
      · rw [if_pos hgd]
        have hwf2 : WF hash { directoryExtension s with
            global_depth := s.global_depth + 1 } := wf_ext hash s hwf
        have htgt : dirAt { directoryExtension s with
              global_depth := s.global_depth + 1 }
            (indexOf hash { directoryExtension s with
              global_depth := s.global_depth + 1 } k)
            = dirAt s (indexOf hash s k) := target_ext hash s hwf k
        have hbs2 : ({ directoryExtension s with
            global_depth := s.global_depth + 1 } : HState K V).bucket_size
            = s.bucket_size := rfl
        have hOld : bucketAt { directoryExtension s with
              global_depth := s.global_depth + 1 }
            (dirAt { directoryExtension s with
              global_depth := s.global_depth + 1 }
              (indexOf hash { directoryExtension s with
                global_depth := s.global_depth + 1 } k))
            = bucketAt s (dirAt s (indexOf hash s k)) := by
          rw [htgt, bucketAt_ext]
        have hlt2 : (bucketAt { directoryExtension s with
              global_depth := s.global_depth + 1 }
            (dirAt { directoryExtension s with
              global_depth := s.global_depth + 1 }
              (indexOf hash { directoryExtension s with
                global_depth := s.global_depth + 1 } k))).depth
            < ({ directoryExtension s with
                global_depth := s.global_depth + 1 } : HState K V).global_depth := by
          rw [hOld, ← hgd]
          exact Nat.lt_succ_self _
        obtain ⟨pr, htgt3⟩ := split_target hash _ k hwf2 _ _ rfl rfl
        rw [hOld, hbs2] at htgt3
        apply ih _ (wf_split hash _ k hwf2 _ _ rfl rfl hlt2)
        · rw [htgt3, split_bucket_size hash _ k hwf2, hbs2]
          exact lt_of_le_of_lt
            ((List.Sublist.filter _ (List.filter_sublist _)).length_le) hN
        · rw [htgt3]
          have hfin : N ≤ (bucketAt s (dirAt s (indexOf hash s k))).depth
              + 1 + m := by omega
          exact hfin
      · rw [if_neg hgd]
        have hlt2 : (bucketAt s (dirAt s (indexOf hash s k))).depth
            < s.global_depth :=
          lt_of_le_of_ne (hwf.depth_le _ hidxlt) (fun e => hgd e.symm)
        obtain ⟨pr, htgt3⟩ := split_target hash s k hwf _ _ rfl rfl
        apply ih _ (wf_split hash s k hwf _ _ rfl rfl hlt2)
        · rw [htgt3, split_bucket_size hash s k hwf]
          exact lt_of_le_of_lt
            ((List.Sublist.filter _ (List.filter_sublist _)).length_le) hN
        · rw [htgt3]
          have hfin : N ≤ (bucketAt s (dirAt s (indexOf hash s k))).depth
              + 1 + m := by omega
          exact hfin

/-- C1: the table behaves as a key-value map. After `Insert(k, v)` succeeds,
`Find(k)` returns `v`, and it still returns `v` after any further sequence
of `Insert`/`Remove`/`Find` calls none of which inserts over or removes `k`
(each `Insert` loop being given enough fuel to finish). -/
theorem c1_map_behavior (s s₁ s₂ : HState K V) (k : K) (v : V) (n : Nat)
    (ops : List (TableOp K V)) (hwf : WF hash s)
    (hins : insertFuel hash n s k v = some s₁)
    (hrun : runOps hash ops s₁ = some s₂)
    (hno : ∀ op ∈ ops, ¬ opTouches op k) :
    findKey hash s₁ k = some v ∧ findKey hash s₂ k = some v := by
  obtain ⟨hwf1, hfind, _⟩ := insertFuel_spec hash n s k v s₁ hwf hins
  obtain ⟨_, hkeep⟩ := runOps_spec hash ops s₁ s₂ k hwf1 hrun hno
  exact ⟨hfind, hkeep ▸ hfind⟩

/-- C5: in every state reachable by public operations, the directory length
is `2 ^ global_depth` and every live bucket (one referenced by some
directory slot) is referenced by exactly
`2 ^ (global_depth - local_depth)` slots. -/
theorem c5_directory_refcounts (s : HState K V) (h : HReachable hash s) :
    s.dir.length = 2 ^ s.global_depth ∧
    ∀ i < s.dir.length,
      refCount s (dirAt s i)
        = 2 ^ (s.global_depth - (bucketAt s (dirAt s i)).depth) := by
  have hwf := hreachable_wf hash s h
  exact ⟨hwf.dir_len, fun i hi => refCount_of_wf hash s hwf i hi⟩

/-- C6: when `Insert` splits a full bucket `B` of local depth `ld` (so the
new local depth is `d = ld + 1`), every slot that referenced `B` is
repointed to the second child if bit `d - 1 = ld` of the slot index is set
and to the first child otherwise, other slots are unchanged, each item of
`B` lands in the child selected by the same bit of its hash, and
`num_buckets` grows by exactly one. -/
theorem c6_split_contract (s : HState K V) (k : K) (hwf : WF hash s)
    (hfull : (bucketAt s (dirAt s (indexOf hash s k))).isFull = true)
    (hlt : (bucketAt s (dirAt s (indexOf hash s k))).depth < s.global_depth) :
    (∀ i < s.dir.length,
      (dirAt s i = dirAt s (indexOf hash s k) →
        dirAt (splitTheBucket hash s k) i
          = (if Nat.testBit i (bucketAt s (dirAt s (indexOf hash s k))).depth
              then s.buckets.length + 1 else s.buckets.length)) ∧
      (dirAt s i ≠ dirAt s (indexOf hash s k) →
        dirAt (splitTheBucket hash s k) i = dirAt s i)) ∧
    (bucketAt (splitTheBucket hash s k) s.buckets.length).list
      = (bucketAt s (dirAt s (indexOf hash s k))).list.filter
          (fun p => !(Nat.testBit (hash p.1)
            (bucketAt s (dirAt s (indexOf hash s k))).depth)) ∧
    (bucketAt (splitTheBucket hash s k) (s.buckets.length + 1)).list
      = (bucketAt s (dirAt s (indexOf hash s k))).list.filter
          (fun p => Nat.testBit (hash p.1)
            (bucketAt s (dirAt s (indexOf hash s k))).depth) ∧
    (splitTheBucket hash s k).num_buckets = s.num_buckets + 1 := by
  refine ⟨?_, ?_, ?_, ?_⟩
  · intro i hi
    constructor
    · intro hc
      rw [split_dirAt hash s k hwf i hi, if_pos hc]
    · intro hc
      rw [split_dirAt hash s k hwf i hi, if_neg hc]
  · rw [split_bucketAt_new0 hash s k hwf]
  · rw [split_bucketAt_new1 hash s k hwf]
  · rw [splitTheBucket_eq hash s k hwf]

/-- C8: `Insert` terminates once the colliding items thin out: if at some
depth `N` fewer than a bucketful of the target bucket's items share the
key's hash modulo `2 ^ N` (the items distribute across both values of a
split bit by then), the loop succeeds within `N + 1` iterations. -/
theorem c8_insert_terminates (s : HState K V) (k : K) (v : V) (N : Nat)
    (hwf : WF hash s)
    (hN : ((bucketAt s (dirAt s (indexOf hash s k))).list.filter
        (fun p => decide (hash p.1 % 2 ^ N = hash k % 2 ^ N))).length
      < s.bucket_size) :
    (insertFuel hash (N + 1) s k v).isSome = true :=
  insertFuel_succeeds hash k v N N s hwf hN (by omega)

end HashWF

theorem c1_map_behavior_witness :
    findKey (fun n => n)
        (⟨2, 0, 1, [0], [⟨2, 0, [(0, 7)]⟩]⟩ : HState Nat Nat) 0 = some 7 ∧
    findKey (fun n => n)
        (⟨2, 0, 1, [0], [⟨2, 0, [(0, 7)]⟩]⟩ : HState Nat Nat) 0 = some 7 :=
  c1_map_behavior (fun n => n) (initTable 2)
    ⟨2, 0, 1, [0], [⟨2, 0, [(0, 7)]⟩]⟩
    ⟨2, 0, 1, [0], [⟨2, 0, [(0, 7)]⟩]⟩ 0 7 1
    [TableOp.ins 1 1 9, TableOp.del 1, TableOp.query 0]
    ⟨by decide, by decide, by decide, by decide,
      by decide, by decide, by decide, by decide⟩
    (by decide) (by decide)
    (by
      intro op hop
      fin_cases hop <;> simp [opTouches])

theorem c5_directory_refcounts_witness :
    (⟨1, 0, 1, [0], [⟨1, 0, [(0, 5)]⟩]⟩ : HState Nat Nat).dir.length
        = 2 ^ (⟨1, 0, 1, [0],
            [⟨1, 0, [(0, 5)]⟩]⟩ : HState Nat Nat).global_depth ∧
    ∀ i < (⟨1, 0, 1, [0], [⟨1, 0, [(0, 5)]⟩]⟩ : HState Nat Nat).dir.length,
      refCount (⟨1, 0, 1, [0], [⟨1, 0, [(0, 5)]⟩]⟩ : HState Nat Nat)
          (dirAt (⟨1, 0, 1, [0], [⟨1, 0, [(0, 5)]⟩]⟩ : HState Nat Nat) i)
        = 2 ^ ((⟨1, 0, 1, [0],
              [⟨1, 0, [(0, 5)]⟩]⟩ : HState Nat Nat).global_depth
            - (bucketAt (⟨1, 0, 1, [0],
                  [⟨1, 0, [(0, 5)]⟩]⟩ : HState Nat Nat)
                (dirAt (⟨1, 0, 1, [0],
                  [⟨1, 0, [(0, 5)]⟩]⟩ : HState Nat Nat) i)).depth) :=
  c5_directory_refcounts (fun n => n) _
    (HReachable.step _ _ (HReachable.init 1)
      (HStep.insert 2 0 5 _ _ (by decide)))

/-- A one-bucket table at global depth 1 whose full bucket is about to
split. -/
def hsplitDemo : HState Nat Nat := ⟨1, 1, 1, [0, 0], [⟨1, 0, [(1, 10)]⟩]⟩

theorem c6_split_contract_witness :
    (∀ i < hsplitDemo.dir.length,
      (dirAt hsplitDemo i
          = dirAt hsplitDemo (indexOf (fun n => n) hsplitDemo 0) →
        dirAt (splitTheBucket (fun n => n) hsplitDemo 0) i
          = (if Nat.testBit i (bucketAt hsplitDemo
                (dirAt hsplitDemo (indexOf (fun n => n) hsplitDemo 0))).depth
              then hsplitDemo.buckets.length + 1
              else hsplitDemo.buckets.length)) ∧
      (dirAt hsplitDemo i
          ≠ dirAt hsplitDemo (indexOf (fun n => n) hsplitDemo 0) →
        dirAt (splitTheBucket (fun n => n) hsplitDemo 0) i
          = dirAt hsplitDemo i)) ∧
    (bucketAt (splitTheBucket (fun n => n) hsplitDemo 0)
        hsplitDemo.buckets.length).list
      = (bucketAt hsplitDemo
          (dirAt hsplitDemo (indexOf (fun n => n) hsplitDemo 0))).list.filter
          (fun p => !(Nat.testBit p.1 (bucketAt hsplitDemo
            (dirAt hsplitDemo (indexOf (fun n => n) hsplitDemo 0))).depth)) ∧
    (bucketAt (splitTheBucket (fun n => n) hsplitDemo 0)
        (hsplitDemo.buckets.length + 1)).list
      = (bucketAt hsplitDemo
          (dirAt hsplitDemo (indexOf (fun n => n) hsplitDemo 0))).list.filter
          (fun p => Nat.testBit p.1 (bucketAt hsplitDemo
            (dirAt hsplitDemo (indexOf (fun n => n) hsplitDemo 0))).depth) ∧
    (splitTheBucket (fun n => n) hsplitDemo 0).num_buckets
      = hsplitDemo.num_buckets + 1 :=
  c6_split_contract (fun n => n) hsplitDemo 0
    ⟨by decide, by decide, by decide, by decide,
      by decide, by decide, by decide, by decide⟩
    (by decide) (by decide)

theorem c8_insert_terminates_witness :
    (insertFuel (fun n => n) 1 (initTable 1 : HState Nat Nat) 0 5).isSome
      = true :=
  c8_insert_terminates (fun n => n) (initTable 1) 0 5 0
    ⟨by decide, by decide, by decide, by decide,
      by decide, by decide, by decide, by decide⟩
    (by decide)
